import Mathlib

/-! Grammar of tree-sitter-jasmin (`grammar.js`) and its properties.

The source is a grammar written in the tree-sitter DSL.  It is embedded in two layers.

* Lexical layer: the token patterns (`int_literal`, `escape_sequence`, ...) are regular
  expressions built with `seq`, `choice`, `repeat`, `optional` and character classes.  They
  are embedded as values of `Rx`, with a denotation `Rx.Matches` and an executable matcher
  `Rx.accepts` proved equivalent to it.
* Syntactic layer: the rules reachable from `_expr` are embedded as the mutually inductive
  type of their parse trees (`Expr`), one constructor per alternative of `_expr`, together
  with `Expr.yield`, the token sequence a tree derives.  A token sequence `ts` is derivable
  as a tree `t` exactly when `t.yield = ts`.  The `prec`, `prec.left` and `prec.right`
  wrappers are kept as data (`Expr.prec`) and given the meaning the DSL documents for them
  (`resolve`, `Expr.conflictFree`).
-/

namespace Jasmin

/-! ## Tokens -/

/-- The alternatives of `SIZE = /(8|16|32|64|128|256)/`. -/
inductive Size
  | b8 | b16 | b32 | b64 | b128 | b256
  deriving DecidableEq, Repr

/-- The alternatives of `SIGNLETTER = /(s|u)/`. -/
inductive SignLetter
  | s | u
  deriving DecidableEq, Repr

/-- The alternatives of `GENSIZE = /(1|2|4|8|16|32|64|128)/`. -/
inductive GenSize
  | g1 | g2 | g4 | g8 | g16 | g32 | g64 | g128
  deriving DecidableEq, Repr

/-- The alternatives of `VSIZE = /(2|4|8|16|32)/`. -/
inductive VSize
  | v2 | v4 | v8 | v16 | v32
  deriving DecidableEq, Repr

/-- The alternatives of `_utype = /(u8|u16|u32|u64|u128|u256)/`. -/
inductive UType
  | u8 | u16 | u32 | u64 | u128 | u256
  deriving DecidableEq, Repr

/-- Rule `keyword: token(choice("inline", "export", "reg", "stack"))`. -/
inductive Keyword
  | inline | export | reg | stack
  deriving DecidableEq, Repr

/-- Terminal symbols of the grammar.  `lit s` is the anonymous token of the string literal
`s` of the grammar (punctuation, operators and keywords); the other constructors are the
named lexical rules, identifiers, integer literals and the pieces of a string literal
carrying their text. -/
inductive Tok
  | lit (s : String)
  | identifier (name : String)
  | int_literal (text : String)
  | utype (t : UType)
  | swsize (z : Size) (g : SignLetter)
  | svsize (v : VSize) (g : SignLetter) (z : GenSize)
  | keyword (k : Keyword)
  | nid (name : String)
  | string_content (text : String)
  | escape_sequence (text : String)
  deriving DecidableEq, Repr

/-! ## Operators and small rules -/

/-- Rule `castop: choice($.swsize, $.svsize)`. -/
inductive CastOp
  | swsize (z : Size) (g : SignLetter)
  | svsize (v : VSize) (g : SignLetter) (z : GenSize)
  deriving DecidableEq, Repr

/-- Rule `_cast: alias(choice($._int_type, $.swsize), $.type)` with `_int_type: "int"`. -/
inductive CastType
  | int
  | swsize (z : Size) (g : SignLetter)
  deriving DecidableEq, Repr

/-- Rule `alignment: choice("#aligned", "#unaligned")`. -/
inductive Alignment
  | aligned | unaligned
  deriving DecidableEq, Repr

/-- Rule `_peop1: choice(seq("!", optional($.castop)), seq("-", optional($.castop)))`. -/
inductive Peop1
  | not (c : Option CastOp)
  | neg (c : Option CastOp)
  deriving DecidableEq, Repr

def multiplicativeOperators : List String :=
  ["*", "/", "%", "<<", ">>", ">>r", "<<r", ">>s", "<<s", ">>u", "&"]

def additiveOperators : List String := ["+", "-", "|", "^"]

def comparativeOperators : List String :=
  ["==", "!=", "<", "<=", ">", ">=", "<s", "<=s", ">s", ">=s", "<u", "<=u", ">u", ">=u"]

/-- The `operator` field of the five alternatives of `bin_expr`: the tokens `&&` and `||`,
or an alternative of `_mult_op`, `_add_op`, `_comp_op`.  The latter three are
`choice(...ops.map((operator) => seq(operator, optional($.castop))))`: an index into the
operator list and an optional `castop`. -/
inductive BinOp
  | and
  | or
  | mult (i : Fin multiplicativeOperators.length) (c : Option CastOp)
  | add (i : Fin additiveOperators.length) (c : Option CastOp)
  | comp (i : Fin comparativeOperators.length) (c : Option CastOp)
  deriving DecidableEq, Repr

def CastOp.toks : CastOp → List Tok
  | .swsize z g => [Tok.swsize z g]
  | .svsize v g z => [Tok.svsize v g z]

/-- Tokens of `optional($.castop)`. -/
def optCastop : Option CastOp → List Tok
  | none => []
  | some c => c.toks

def CastType.tok : CastType → Tok
  | .int => Tok.lit "int"
  | .swsize z g => Tok.swsize z g

def Alignment.tok : Alignment → Tok
  | .aligned => Tok.lit "#aligned"
  | .unaligned => Tok.lit "#unaligned"

/-- Tokens of `optional($.alignment)`. -/
def optAlignment : Option Alignment → List Tok
  | none => []
  | some a => [a.tok]

/-- Tokens of `optional(alias($._utype, $.type))`. -/
def optUtype : Option UType → List Tok
  | none => []
  | some t => [Tok.utype t]

/-- Tokens of `optional(parens(alias($._utype, $.type)))`. -/
def optParensUtype : Option UType → List Tok
  | none => []
  | some t => [Tok.lit "(", Tok.utype t, Tok.lit ")"]

def Peop1.toks : Peop1 → List Tok
  | .not c => Tok.lit "!" :: optCastop c
  | .neg c => Tok.lit "-" :: optCastop c

def BinOp.toks : BinOp → List Tok
  | .and => [Tok.lit "&&"]
  | .or => [Tok.lit "||"]
  | .mult i c => Tok.lit (multiplicativeOperators.get i) :: optCastop c
  | .add i c => Tok.lit (additiveOperators.get i) :: optCastop c
  | .comp i c => Tok.lit (comparativeOperators.get i) :: optCastop c

/-! ## Parse trees of `_expr` -/

mutual
/-- Parse trees of `_expr`: one constructor per alternative of the `choice`, its arguments
the fields and variable parts of the alternative's rule. -/
inductive Expr
  /-- Alternative `$.identifier`. -/
  | identifier (name : String)
  /-- Rule `index_expr`: `seq(operand: identifier, index: _arr_access)`, where `_arr_access` is
  `seq(unscaled: optional("."), index: brackets(_arr_access_i))` and `_arr_access_i` is
  `seq(optional(alignment), optional(_utype), value: _expr, len: optional(_arr_access_len))` -/
  | index_expr (operand : String) (unscaled : Bool) (alignment : Option Alignment)
      (type : Option UType) (value : Expr) (len : ArrLen)
  /-- Rule `true: "true"`. -/
  | true_
  /-- Rule `false: "false"`. -/
  | false_
  /-- Alternative `$.int_literal`. -/
  | int_literal (text : String)
  /-- Rule `mem_access`: `seq(type: optional(parens(_utype)), "[", _mem_acces_address, "]")` with
  `_mem_acces_address: seq(optional(alignment), var: identifier, offset: optional(_mem_ofs))` -/
  | mem_access (type : Option UType) (alignment : Option Alignment) (var : String)
      (offset : MemOfs)
  /-- Rule `pack_expr`: `seq(ct: parens(svsize), "[", es: rtuple1(_expr), "]")` -/
  | pack_expr (v : VSize) (g : SignLetter) (z : GenSize) (e : Expr) (es : Exprs)
  /-- Rule `cast_expr`: `seq(cast: parens(_cast), expression: _expr)` -/
  | cast_expr (cast : CastType) (expression : Expr)
  /-- Rule `unary_expr`: `seq(_peop1, _expr)` -/
  | unary_expr (op : Peop1) (e : Expr)
  /-- Rule `bin_expr`: `seq(left: _expr, operator, right: _expr)` -/
  | bin_expr (left : Expr) (operator : BinOp) (right : Expr)
  /-- Rule `parens_expr: parens(_expr)` -/
  | parens_expr (e : Expr)
  /-- Rule `call_expr`: `seq(function: identifier, args: parens_tuple(_expr))` -/
  | call_expr (function : String) (args : Args)
  /-- Rule `intrinsic_expr`: `seq(intrinsic: seq("#", identifier), args: parens_tuple(_expr))` -/
  | intrinsic_expr (intrinsic : String) (args : Args)
  /-- Rule `ternary_expr`: `seq(condition: _expr, "?", consequence: _expr, ":", alternative: _expr)` -/
  | ternary_expr (condition : Expr) (consequence : Expr) (alternative : Expr)
/-- Trees of `repeat(seq(",", _expr))`, the tail of `commaSep1(_expr)`. -/
inductive Exprs
  | nil
  | cons (e : Expr) (es : Exprs)
/-- Trees of `rtuple(_expr) = optional(commaSep1(_expr))`. -/
inductive Args
  | none
  | some (e : Expr) (es : Exprs)
/-- Trees of `optional($._arr_access_len)` with `_arr_access_len: seq(":", _expr)`. -/
inductive ArrLen
  | none
  | some (e : Expr)
/-- Trees of `optional($._mem_ofs)` with `_mem_ofs: choice(seq("+", _expr), seq("-", _expr))`. -/
inductive MemOfs
  | none
  | plus (e : Expr)
  | minus (e : Expr)
end

mutual
/-- The token sequence derived by a parse tree of `_expr`. -/
def Expr.yield : Expr → List Tok
  | .identifier x => [Tok.identifier x]
  | .index_expr x unscaled al ty v len =>
      Tok.identifier x :: ((if unscaled then [Tok.lit "."] else []) ++
        (Tok.lit "[" :: (optAlignment al ++ (optUtype ty ++ (v.yield ++ (len.yield ++
          [Tok.lit "]"]))))))
  | .true_ => [Tok.lit "true"]
  | .false_ => [Tok.lit "false"]
  | .int_literal n => [Tok.int_literal n]
  | .mem_access ty al x ofs =>
      optParensUtype ty ++ (Tok.lit "[" :: (optAlignment al ++ (Tok.identifier x ::
        (ofs.yield ++ [Tok.lit "]"]))))
  | .pack_expr v g z e es =>
      Tok.lit "(" :: Tok.svsize v g z :: Tok.lit ")" :: Tok.lit "[" ::
        (e.yield ++ (es.yield ++ [Tok.lit "]"]))
  | .cast_expr c e => Tok.lit "(" :: c.tok :: Tok.lit ")" :: e.yield
  | .unary_expr op e => op.toks ++ e.yield
  | .bin_expr l op r => l.yield ++ (op.toks ++ r.yield)
  | .parens_expr e => Tok.lit "(" :: (e.yield ++ [Tok.lit ")"])
  | .call_expr f args => Tok.identifier f :: Tok.lit "(" :: (args.yield ++ [Tok.lit ")"])
  | .intrinsic_expr f args =>
      Tok.lit "#" :: Tok.identifier f :: Tok.lit "(" :: (args.yield ++ [Tok.lit ")"])
  | .ternary_expr c a b => c.yield ++ (Tok.lit "?" :: (a.yield ++ (Tok.lit ":" :: b.yield)))
/-- Tokens of `repeat(seq(",", _expr))`. -/
def Exprs.yield : Exprs → List Tok
  | .nil => []
  | .cons e es => Tok.lit "," :: (e.yield ++ es.yield)
/-- Tokens of `optional(commaSep1(_expr))`. -/
def Args.yield : Args → List Tok
  | .none => []
  | .some e es => e.yield ++ es.yield
/-- Tokens of `optional(seq(":", _expr))`. -/
def ArrLen.yield : ArrLen → List Tok
  | .none => []
  | .some e => Tok.lit ":" :: e.yield
/-- Tokens of `optional(choice(seq("+", _expr), seq("-", _expr)))`. -/
def MemOfs.yield : MemOfs → List Tok
  | .none => []
  | .plus e => Tok.lit "+" :: e.yield
  | .minus e => Tok.lit "-" :: e.yield
end

/-! ## Precedence and associativity

The table `PREC` and the `prec`, `prec.left`, `prec.right` wrappers of the rules. -/

namespace PREC

def call : Int := 15
def access : Int := 8
def intrinsicary : Int := 7
def unary : Int := 6
def multiplicative : Int := 5
def additive : Int := 4
def comparative : Int := 3
def and : Int := 2
def or : Int := 1
def conditional : Int := -1
def assignment : Int := -2

end PREC

/-- Associativity given by a wrapper: `prec` gives none, `prec.left` left, `prec.right` right. -/
inductive Assoc
  | none | left | right
  deriving DecidableEq, Repr

/-- The wrapper around a rule body: `prec(n, _)` is `⟨n, .none⟩`, `prec.left(n, _)` is
`⟨n, .left⟩`, `prec.right(n, _)` is `⟨n, .right⟩`; a body without a wrapper has the default
precedence 0 and no associativity. -/
structure Prec where
  value : Int
  assoc : Assoc
  deriving DecidableEq, Repr

/-- The wrapper of the alternative of `bin_expr` that an operator belongs to:
`prec.left(PREC.and, _)`, `prec.left(PREC.or, _)`, `prec.left(PREC.multiplicative, _)`,
`prec.left(PREC.additive, _)`, `prec.left(PREC.comparative, _)`. -/
def BinOp.prec : BinOp → Prec
  | .and => ⟨PREC.and, .left⟩
  | .or => ⟨PREC.or, .left⟩
  | .mult _ _ => ⟨PREC.multiplicative, .left⟩
  | .add _ _ => ⟨PREC.additive, .left⟩
  | .comp _ _ => ⟨PREC.comparative, .left⟩

/-- The wrapper of `unary_expr`: `prec.left(PREC.unary, _)`. -/
def unary_expr_prec : Prec := ⟨PREC.unary, .left⟩

/-- The wrapper of `_peop1`: `prec(PREC.unary, _)`. -/
def peop1_prec : Prec := ⟨PREC.unary, .none⟩

/-- The wrapper of `cast_expr`: `prec(PREC.unary, _)`. -/
def cast_expr_prec : Prec := ⟨PREC.unary, .none⟩

/-- The wrapper of `ternary_expr`: `prec.right(PREC.conditional, _)`. -/
def ternary_expr_prec : Prec := ⟨PREC.conditional, .right⟩

/-- The wrapper of `call_expr`: `prec.left(PREC.call, _)`. -/
def call_expr_prec : Prec := ⟨PREC.call, .left⟩

/-- The wrapper of `intrinsic_expr`: `prec.left(PREC.call, _)`. -/
def intrinsic_expr_prec : Prec := ⟨PREC.call, .left⟩

/-- The wrapper of `mem_access`: `prec(PREC.access, _)`. -/
def mem_access_prec : Prec := ⟨PREC.access, .none⟩

/-- The wrapper of `index_expr`: `prec(PREC.access, _)`. -/
def index_expr_prec : Prec := ⟨PREC.access, .none⟩

/-- The wrapper of `assign`: `prec.right(PREC.assignment, _)`. -/
def assign_prec : Prec := ⟨PREC.assignment, .right⟩

/-- The wrapper of the rule at the root of a tree. -/
def Expr.prec : Expr → Prec
  | .identifier _ => ⟨0, .none⟩
  | .index_expr _ _ _ _ _ _ => index_expr_prec
  | .true_ => ⟨0, .none⟩
  | .false_ => ⟨0, .none⟩
  | .int_literal _ => ⟨0, .none⟩
  | .mem_access _ _ _ _ => mem_access_prec
  | .pack_expr _ _ _ _ _ => ⟨0, .none⟩
  | .cast_expr _ _ => cast_expr_prec
  | .unary_expr _ _ => unary_expr_prec
  | .bin_expr _ op _ => op.prec
  | .parens_expr _ => ⟨0, .none⟩
  | .call_expr _ _ => call_expr_prec
  | .intrinsic_expr _ _ => intrinsic_expr_prec
  | .ternary_expr _ _ _ => ternary_expr_prec

/-- Outcome of a shift/reduce conflict. -/
inductive Action
  | shift | reduce | conflict
  deriving DecidableEq, Repr

/-- The meaning the DSL gives to the wrappers.  When a rule with wrapper `r` is complete and
the next token continues a rule with wrapper `s`, the rule with the higher precedence wins
(reduce for `r`, shift for `s`); at equal precedence the associativity of the completed
rule decides: left-associative reduces (the rule that ends earlier is matched),
right-associative shifts; without associativity the conflict stays unresolved. -/
def resolve (r s : Prec) : Action :=
  if s.value < r.value then .reduce
  else if r.value < s.value then .shift
  else
    match r.assoc with
    | .left => .reduce
    | .right => .shift
    | .none => .conflict

/-- Wrappers of the rules whose body ends with `_expr` and that end at the right edge of the
tree, outermost first: the rules that are complete once the last token of the tree is read. -/
def Expr.rightOpen : Expr → List Prec
  | .cast_expr _ e => cast_expr_prec :: e.rightOpen
  | .unary_expr _ e => unary_expr_prec :: e.rightOpen
  | .bin_expr _ op r => op.prec :: r.rightOpen
  | .ternary_expr _ _ b => ternary_expr_prec :: b.rightOpen
  | _ => []

/-- Wrappers of the rules whose body begins with `_expr` and that begin at the left edge of
the tree, outermost first: the rules the first operand of the tree can be continued into. -/
def Expr.leftOpen : Expr → List Prec
  | .bin_expr l op _ => op.prec :: l.leftOpen
  | .ternary_expr c _ _ => ternary_expr_prec :: c.leftOpen
  | _ => []

/-- Whether the completed rules `ps` were all rightly reduced before a rule with wrapper `q`
took their tree as its first operand. -/
def reducedBefore (ps : List Prec) (q : Prec) : Bool :=
  ps.all (fun p => resolve p q = .reduce)

/-- Whether the operators of the rules `qs` were all rightly shifted while a rule with
wrapper `p` was complete up to their first operand. -/
def shiftedInto (p : Prec) (qs : List Prec) : Bool :=
  qs.all (fun q => resolve p q = .shift)

mutual
/-- Whether a tree is one the generated parser builds: at every place where a rule ending
in `_expr` meets the operator of a rule beginning with `_expr`, the grouping is the one
`resolve` selects.  A rule that takes a tree as its first operand requires every rule
ending at the right edge of that operand to have been reduced; a rule that takes a tree as
its last operand requires every rule beginning at the left edge of that operand to have
been shifted into. -/
def Expr.conflictFree : Expr → Bool
  | .identifier _ => true
  | .index_expr _ _ _ _ v len => v.conflictFree && len.conflictFree
  | .true_ => true
  | .false_ => true
  | .int_literal _ => true
  | .mem_access _ _ _ ofs => ofs.conflictFree
  | .pack_expr _ _ _ e es => e.conflictFree && es.conflictFree
  | .cast_expr _ e => e.conflictFree && shiftedInto cast_expr_prec e.leftOpen
  | .unary_expr _ e => e.conflictFree && shiftedInto unary_expr_prec e.leftOpen
  | .bin_expr l op r =>
      l.conflictFree && r.conflictFree && reducedBefore l.rightOpen op.prec &&
        shiftedInto op.prec r.leftOpen
  | .parens_expr e => e.conflictFree
  | .call_expr _ args => args.conflictFree
  | .intrinsic_expr _ args => args.conflictFree
  | .ternary_expr c a b =>
      c.conflictFree && a.conflictFree && b.conflictFree &&
        reducedBefore c.rightOpen ternary_expr_prec && shiftedInto ternary_expr_prec b.leftOpen
def Exprs.conflictFree : Exprs → Bool
  | .nil => true
  | .cons e es => e.conflictFree && es.conflictFree
def Args.conflictFree : Args → Bool
  | .none => true
  | .some e es => e.conflictFree && es.conflictFree
def ArrLen.conflictFree : ArrLen → Bool
  | .none => true
  | .some e => e.conflictFree
def MemOfs.conflictFree : MemOfs → Bool
  | .none => true
  | .plus e => e.conflictFree
  | .minus e => e.conflictFree
end

/-- The operator `+` of `_add_op`, without `castop`. -/
def BinOp.plus : BinOp := .add ⟨0, by decide⟩ none

/-- The operator `*` of `_mult_op`, without `castop`. -/
def BinOp.times : BinOp := .mult ⟨0, by decide⟩ none

/-- The operator `<` of `_comp_op`, without `castop`. -/
def BinOp.lt : BinOp := .comp ⟨2, by decide⟩ none

/-- Tokens that can begin the yield of an `_expr` tree. -/
def Tok.startsExpr : Tok → Bool
  | .identifier _ => true
  | .int_literal _ => true
  | .lit s => s = "true" || s = "false" || s = "(" || s = "[" || s = "!" || s = "-" || s = "#"
  | _ => false

/-! ## Token patterns

The DSL's pattern combinators (`seq`, `choice`, `repeat`, `optional`, string literals and
the character classes of its regular expressions) as a datatype, with the language a pattern
denotes (`Rx.Matches`) and a matcher by derivatives (`Rx.accepts`). -/

/-- Patterns: `blank()`, a character class, `seq`, `choice`, `repeat`. -/
inductive Rx
  | blank
  | cls (p : Char → Bool)
  | seq (a b : Rx)
  | choice (a b : Rx)
  | repeat_ (a : Rx)

namespace Rx

/-- A one-character string literal of the grammar, such as `"0"` or `"_"`. -/
def chr (c : Char) : Rx := .cls (fun d => d == c)

/-- The DSL's `optional(a)`, which is `choice(a, blank())`. -/
def optional (a : Rx) : Rx := .choice a .blank

/-- The pattern matching nothing (a character class without members). -/
def never : Rx := .cls (fun _ => false)

/-- The language of a pattern. -/
def Matches : Rx → List Char → Prop
  | .blank, s => s = []
  | .cls p, s => ∃ c, s = [c] ∧ p c = true
  | .seq a b, s => ∃ u v, s = u ++ v ∧ a.Matches u ∧ b.Matches v
  | .choice a b, s => a.Matches s ∨ b.Matches s
  | .repeat_ a, s => ∃ ps : List (List Char), s = ps.flatten ∧ ∀ p ∈ ps, a.Matches p

/-- Whether a pattern matches the empty string. -/
def nullable : Rx → Bool
  | .blank => true
  | .cls _ => false
  | .seq a b => a.nullable && b.nullable
  | .choice a b => a.nullable || b.nullable
  | .repeat_ _ => true

/-- The derivative of a pattern by a character: the pattern of what may follow `c`. -/
def deriv (c : Char) : Rx → Rx
  | .blank => never
  | .cls p => if p c then .blank else never
  | .seq a b => if a.nullable then .choice (.seq (a.deriv c) b) (b.deriv c)
      else .seq (a.deriv c) b
  | .choice a b => .choice (a.deriv c) (b.deriv c)
  | .repeat_ a => .seq (a.deriv c) (.repeat_ a)

/-- The matcher: whether a pattern matches the whole of a string. -/
def accepts (r : Rx) : List Char → Bool
  | [] => r.nullable
  | c :: s => (r.deriv c).accepts s

end Rx

/-- Membership of a character in the range `lo-hi` of a character class. -/
def inRange (lo hi c : Char) : Bool := decide (lo.toNat ≤ c.toNat) && decide (c.toNat ≤ hi.toNat)

/-- Class `/[0-9a-fA-F]/`. -/
def isHexDigit (c : Char) : Bool := inRange '0' '9' c || inRange 'a' 'f' c || inRange 'A' 'F' c

/-- Class `/[0-7]/`. -/
def isOctalDigit (c : Char) : Bool := inRange '0' '7' c

/-- Class `/[0-9]/`, also written `\d`. -/
def isDecimalDigit (c : Char) : Bool := inRange '0' '9' c

/-- Class `/[01]/`. -/
def isBinaryDigit (c : Char) : Bool := c == '0' || c == '1'

def hexDigit : Rx := .cls isHexDigit
def octalDigit : Rx := .cls isOctalDigit
def decimalDigit : Rx := .cls isDecimalDigit
def binaryDigit : Rx := .cls isBinaryDigit

/-- The shape shared by `hexDigits`, `octalDigits`, `decimalDigits` and `binaryDigits`:
`seq(digit, repeat(seq(optional("_"), digit)))`. -/
def digitsOf (digit : Rx) : Rx :=
  .seq digit (.repeat_ (.seq (Rx.optional (Rx.chr '_')) digit))

def hexDigits : Rx := digitsOf hexDigit
def octalDigits : Rx := digitsOf octalDigit
def decimalDigits : Rx := digitsOf decimalDigit
def binaryDigits : Rx := digitsOf binaryDigit

/-- Pattern `seq("0", choice("x", "X"), optional("_"), hexDigits)`. -/
def hexLiteral : Rx :=
  .seq (Rx.chr '0') (.seq (.choice (Rx.chr 'x') (Rx.chr 'X'))
    (.seq (Rx.optional (Rx.chr '_')) hexDigits))

/-- Pattern `seq("0", optional(choice("o", "O")), optional("_"), octalDigits)`. -/
def octalLiteral : Rx :=
  .seq (Rx.chr '0') (.seq (Rx.optional (.choice (Rx.chr 'o') (Rx.chr 'O')))
    (.seq (Rx.optional (Rx.chr '_')) octalDigits))

/-- Pattern `choice("0", seq(/[1-9]/, optional(seq(optional("_"), decimalDigits))))`. -/
def decimalLiteral : Rx :=
  .choice (Rx.chr '0')
    (.seq (.cls (inRange '1' '9'))
      (Rx.optional (.seq (Rx.optional (Rx.chr '_')) decimalDigits)))

/-- Pattern `seq("0", choice("b", "B"), optional("_"), binaryDigits)`. -/
def binaryLiteral : Rx :=
  .seq (Rx.chr '0') (.seq (.choice (Rx.chr 'b') (Rx.chr 'B'))
    (.seq (Rx.optional (Rx.chr '_')) binaryDigits))

/-- Pattern `choice(binaryLiteral, decimalLiteral, octalLiteral, hexLiteral)`. -/
def intLiteral : Rx :=
  .choice binaryLiteral (.choice decimalLiteral (.choice octalLiteral hexLiteral))

/-- Rule `int_literal: token(intLiteral)`. -/
def int_literal : Rx := intLiteral

/-- The bounded repetition `a{n}` of a regular expression: `n` copies of `a` in sequence. -/
def Rx.exactly : Nat → Rx → Rx
  | 0, _ => .blank
  | n + 1, a => .seq a (Rx.exactly n a)

/-- Rule `escape_sequence`: `token(prec(1, seq("\\", choice(/[^xuU]/, /\d{2,3}/,
/x[0-9a-fA-F]{2,}/, /u[0-9a-fA-F]{4}/, /U[0-9a-fA-F]{8}/))))`, where `\d{2,3}` is two
digits and an optional third and `[0-9a-fA-F]{2,}` is two digits and a repetition. -/
def escape_sequence : Rx :=
  .seq (Rx.chr '\\')
    (.choice (.cls (fun c => !(c == 'x' || c == 'u' || c == 'U')))
      (.choice (.seq (Rx.exactly 2 decimalDigit) (Rx.optional decimalDigit))
        (.choice (.seq (Rx.chr 'x') (.seq (Rx.exactly 2 hexDigit) (.repeat_ hexDigit)))
          (.choice (.seq (Rx.chr 'u') (Rx.exactly 4 hexDigit))
            (.seq (Rx.chr 'U') (Rx.exactly 8 hexDigit))))))

/-! ## Recognisers

Hand-written recognisers for the shapes of the token patterns; the theorems prove that the
patterns accept exactly what these recognise. -/

/-- Recogniser of `repeat(seq(optional("_"), digit))` for a digit class `d`: reads the
string from the left, `u` telling whether the previous character was an underscore (so that
a digit must come next). -/
def sepTail (d : Char → Bool) : Bool → List Char → Bool
  | u, [] => !u
  | u, c :: rest => if c = '_' then !u && sepTail d true rest else d c && sepTail d false rest

/-- The characters other than the underscore. -/
def notUnderscore (c : Char) : Bool := c != '_'

/-- Recogniser of `seq(optional("_"), digits)`: a non-empty string of digit groups. -/
def sepDigits (d : Char → Bool) (s : List Char) : Bool := !s.isEmpty && sepTail d false s

/-- Recogniser of the shape of `hexLiteral` and `binaryLiteral`: `0`, one of the two radix
letters, then `seq(optional("_"), digits)`. -/
def isPrefixedLiteral (lo up : Char) (d : Char → Bool) : List Char → Bool
  | c :: x :: t => c == '0' && (x == lo || x == up) && sepDigits d t
  | _ => false

/-- Recogniser of `seq(optional(choice("o", "O")), optional("_"), octalDigits)`. -/
def isOctalBody : List Char → Bool
  | [] => false
  | x :: t => sepDigits isOctalDigit (x :: t) || ((x == 'o' || x == 'O') && sepDigits isOctalDigit t)

/-- Recogniser of the shape of `octalLiteral`. -/
def isOctalLiteral : List Char → Bool
  | [] => false
  | c :: t => c == '0' && isOctalBody t

/-- Recogniser of the shape of `decimalLiteral`. -/
def isDecimalLiteral : List Char → Bool
  | [] => false
  | c :: t => (c == '0' && t.isEmpty) || (inRange '1' '9' c && sepTail isDecimalDigit false t)

/-- Recogniser of a single escaped character: one character other than `x`, `u`, `U`. -/
def escapeSingle : List Char → Bool
  | [c] => !(c == 'x' || c == 'u' || c == 'U')
  | _ => false

/-- Recogniser of a letter `l` followed by hexadecimal digits whose number satisfies
`count`. -/
def escapeAfter (l : Char) (count : Nat → Bool) : List Char → Bool
  | [] => false
  | c :: t => c == l && count t.length && t.all isHexDigit

/-- The shape of an escape sequence for a class `digit` of the numeric escape: a backslash
followed by one of: a single character other than `x`, `u`, `U`; two or three digits of
the class; `x` and two or more hexadecimal digits; `u` and exactly four; `U` and exactly
eight.  With `isOctalDigit` it is the shape the specification states, with `isDecimalDigit`
the shape of the rule `escape_sequence`. -/
def escapeShape (digit : Char → Bool) : List Char → Bool
  | [] => false
  | b :: rest => b == '\\' &&
      (escapeSingle rest ||
        (((decide (rest.length = 2 ∨ rest.length = 3)) && rest.all digit) ||
          (escapeAfter 'x' (fun n => decide (2 ≤ n)) rest ||
            (escapeAfter 'u' (fun n => decide (n = 4)) rest ||
              escapeAfter 'U' (fun n => decide (n = 8)) rest))))

/-! ## Storage qualifiers -/

/-- Rule `_writable: choice("const", "mut")`. -/
inductive Writable
  | const | mut
  deriving DecidableEq, Repr

/-- Rule `_pointer: seq(optional($._writable), "ptr")`. -/
structure Pointer where
  writable : Option Writable
  deriving DecidableEq, Repr

/-- Rule `storage`: `choice(seq("reg", optional($._pointer)),
seq("stack", optional($._pointer)), "inline", "global")`. -/
inductive Storage
  | reg (p : Option Pointer)
  | stack (p : Option Pointer)
  | inline
  | global
  deriving DecidableEq, Repr

def Writable.tok : Writable → Tok
  | .const => Tok.lit "const"
  | .mut => Tok.lit "mut"

/-- Tokens of `optional($._writable)`. -/
def optWritable : Option Writable → List Tok
  | none => []
  | some w => [w.tok]

/-- Tokens of `_pointer`. -/
def Pointer.yield (p : Pointer) : List Tok := optWritable p.writable ++ [Tok.lit "ptr"]

/-- Tokens of `optional($._pointer)`. -/
def optPointer : Option Pointer → List Tok
  | none => []
  | some p => p.yield

/-- The token sequence derived by a tree of `storage`. -/
def Storage.yield : Storage → List Tok
  | .reg p => Tok.lit "reg" :: optPointer p
  | .stack p => Tok.lit "stack" :: optPointer p
  | .inline => [Tok.lit "inline"]
  | .global => [Tok.lit "global"]

/-- The ten token sequences of storage qualifiers. -/
def storageSequences : List (List Tok) :=
  [[Tok.lit "reg"], [Tok.lit "reg", Tok.lit "ptr"],
   [Tok.lit "reg", Tok.lit "const", Tok.lit "ptr"], [Tok.lit "reg", Tok.lit "mut", Tok.lit "ptr"],
   [Tok.lit "stack"], [Tok.lit "stack", Tok.lit "ptr"],
   [Tok.lit "stack", Tok.lit "const", Tok.lit "ptr"],
   [Tok.lit "stack", Tok.lit "mut", Tok.lit "ptr"],
   [Tok.lit "inline"], [Tok.lit "global"]]

/-! ## Names and sized-type tokens -/

/-- The pattern of a literal run of characters. -/
def Rx.word : List Char → Rx
  | [] => .blank
  | c :: cs => .seq (Rx.chr c) (Rx.word cs)

/-- The pattern `(w1|w2|...)` of a regular expression: one of the listed words. -/
def Rx.oneOf : List (List Char) → Rx
  | [] => Rx.never
  | w :: ws => .choice (Rx.word w) (Rx.oneOf ws)

/-- The words of `SIZE = /(8|16|32|64|128|256)/`. -/
def sizeWords : List (List Char) :=
  ["8".toList, "16".toList, "32".toList, "64".toList, "128".toList, "256".toList]

/-- The words of `SIGNLETTER = /(s|u)/`. -/
def signWords : List (List Char) := ["s".toList, "u".toList]

/-- The words of `GENSIZE = /(1|2|4|8|16|32|64|128)/`. -/
def genSizeWords : List (List Char) :=
  ["1".toList, "2".toList, "4".toList, "8".toList, "16".toList, "32".toList, "64".toList,
    "128".toList]

/-- The words of `VSIZE = /(2|4|8|16|32)/`. -/
def vsizeWords : List (List Char) :=
  ["2".toList, "4".toList, "8".toList, "16".toList, "32".toList]

/-- The words of `_utype: /(u8|u16|u32|u64|u128|u256)/`. -/
def utypeWords : List (List Char) :=
  ["u8".toList, "u16".toList, "u32".toList, "u64".toList, "u128".toList, "u256".toList]

def SIZE : Rx := Rx.oneOf sizeWords
def SIGNLETTER : Rx := Rx.oneOf signWords
def GENSIZE : Rx := Rx.oneOf genSizeWords
def VSIZE : Rx := Rx.oneOf vsizeWords

/-- Rule `swsize: token(seq(SIZE, SIGNLETTER))`. -/
def swsize : Rx := .seq SIZE SIGNLETTER

/-- Rule `svsize: token(seq(VSIZE, SIGNLETTER, GENSIZE))`. -/
def svsize : Rx := .seq VSIZE (.seq SIGNLETTER GENSIZE)

/-- Rule `_utype: /(u8|u16|u32|u64|u128|u256)/`. -/
def _utype : Rx := Rx.oneOf utypeWords

/-- Class `/[a-zA-Z_]/`. -/
def isNameStart (c : Char) : Bool := inRange 'a' 'z' c || inRange 'A' 'Z' c || c == '_'

/-- Class `/[a-zA-Z0-9_]/`. -/
def isNameChar (c : Char) : Bool :=
  inRange 'a' 'z' c || inRange 'A' 'Z' c || inRange '0' '9' c || c == '_'

/-- Rule `_nid: token(/[a-zA-Z_][a-zA-Z0-9_]*/)`. -/
def _nid : Rx := .seq (.cls isNameStart) (.repeat_ (.cls isNameChar))

/-- Rule `identifier: /[a-zA-Z_][a-zA-Z0-9_]*(::([a-zA-Z_][a-zA-Z0-9_]*))*/`. -/
def identifier : Rx :=
  .seq (.cls isNameStart) (.seq (.repeat_ (.cls isNameChar))
    (.repeat_ (.seq (Rx.word "::".toList)
      (.seq (.cls isNameStart) (.repeat_ (.cls isNameChar))))))

/-- The strings `SIZE` followed by `SIGNLETTER`. -/
def swsizeWords : List (List Char) :=
  sizeWords.flatMap (fun z => signWords.map (fun g => z ++ g))

/-- The strings `VSIZE` followed by `SIGNLETTER` followed by `GENSIZE`. -/
def svsizeWords : List (List Char) :=
  vsizeWords.flatMap (fun v => signWords.flatMap (fun g => genSizeWords.map (fun z => v ++ (g ++ z))))

/-- Recogniser of a simple name: a letter or underscore followed by letters, digits and
underscores. -/
def isSimpleName : List Char → Bool
  | [] => false
  | c :: t => isNameStart c && t.all isNameChar

/-- The string of the simple names `ms`, each preceded by `::`. -/
def qualified (ms : List (List Char)) : List Char :=
  (ms.map (fun m => ':' :: ':' :: m)).flatten

/-- Every colon of `s` is the first or the second colon of a pair `::` that stands between
two characters other than a colon: `s` has no colon at either end, no single colon and no
run of three or more colons. -/
def colonsPaired (s : List Char) : Prop :=
  ∀ p q, s = p ++ ':' :: q →
    (∃ p1 a b q1, p = p1 ++ [a] ∧ a ≠ ':' ∧ q = ':' :: b :: q1 ∧ b ≠ ':') ∨
    (∃ p1 a b q1, p = p1 ++ [a, ':'] ∧ a ≠ ':' ∧ q = b :: q1 ∧ b ≠ ':')

/-! ## Comments -/

/-- The repetition `a+` of a regular expression (the DSL's `repeat1`): one or more `a`. -/
def Rx.repeat1 (a : Rx) : Rx := .seq a (.repeat_ a)

/-- Class `.` of a regular expression: any character but the line feed. -/
def isNotNewline (c : Char) : Bool := c != '\n'

/-- Class `/[^*]/`. -/
def isNotStar (c : Char) : Bool := c != '*'

/-- Class `/[^/*]/`. -/
def isNotSlashStar (c : Char) : Bool := !(c == '/' || c == '*')

/-- Class `/\*/`. -/
def isStar (c : Char) : Bool := c == '*'

/-- The first alternative of `comment`: `seq("//", /.*/)`. -/
def lineComment : Rx := .seq (Rx.word "//".toList) (.repeat_ (.cls isNotNewline))

/-- The group `([^/*][^*]*\*+)` of the block-comment pattern. -/
def blockGroup : Rx :=
  .seq (.cls isNotSlashStar) (.seq (.repeat_ (.cls isNotStar)) (Rx.repeat1 (.cls isStar)))

/-- The pattern `/[^*]*\*+([^/*][^*]*\*+)*/` of the block comment. -/
def blockBody : Rx :=
  .seq (.repeat_ (.cls isNotStar)) (.seq (Rx.repeat1 (.cls isStar)) (.repeat_ blockGroup))

/-- The second alternative of `comment`: `seq("/*", /[^*]*\*+([^/*][^*]*\*+)*/, "/")`. -/
def blockComment : Rx := .seq (Rx.word "/*".toList) (.seq blockBody (Rx.chr '/'))

/-- Rule `comment: token(choice(seq("//", /.*/), seq("/*", /[^*]*\*+([^/*][^*]*\*+)*/, "/")))`. -/
def comment : Rx := .choice lineComment blockComment

/-- Recogniser of what may follow `/*` in a block comment: reads the string from the left,
`star` telling whether the previous character was a `*`; the comment ends at a `/` that
follows a `*`, and nothing may come after it. -/
def blockTail : Bool → List Char → Bool
  | _, [] => false
  | star, c :: t => if star && c == '/' then t.isEmpty else blockTail (c == '*') t

/-- A string that ends with `*/` and has no other occurrence of `*/`: its first `*/` is the
final one. -/
def endsAtFirstClose (x : List Char) : Prop :=
  (∃ b, x = b ++ ['*', '/']) ∧ ∀ p q, x = p ++ '*' :: '/' :: q → q = []

/-! ## String literals -/

/-- The double quote character. -/
def dquote : Char := Char.ofNat 34

/-- Class `/\s/`: space, tab, line feed, carriage return, form feed, vertical tab. -/
def isSpace (c : Char) : Bool :=
  c == ' ' || c == '\t' || c == '\n' || c == '\r' || c == Char.ofNat 12 || c == Char.ofNat 11

/-- The `extras` of the grammar, `[$.comment, /\s/]`: what may stand before any token that
is not wrapped in `token.immediate`. -/
def extras : Rx := .choice comment (.cls isSpace)

/-- A token that is not `token.immediate`: extras are optional before it. -/
def Rx.afterExtras (r : Rx) : Rx := .seq (.repeat_ extras) r

/-- Class of the pattern of `string_content`: any character but the backslash, the double
quote and the line feed. -/
def isStringChar (c : Char) : Bool := !(c == '\\' || c == dquote || c == '\n')

/-- The `string_content` token: `token.immediate(prec(1, /[^\\"\n]+/))`, aliased
to `$.string_content` (written here with two quotes `"`). -/
def string_content : Rx := Rx.repeat1 (.cls isStringChar)

/-- Rule `string_literal`: a double quote, `repeat(choice(string_content, escape_sequence))`
and a double quote, as the characters of the node from its opening quote on.  The token
`string_content` is `token.immediate`; `escape_sequence` and the closing quote are ordinary
tokens, before which extras may stand. -/
def string_literal : Rx :=
  .seq (Rx.chr dquote)
    (.seq (.repeat_ (.choice string_content (Rx.afterExtras escape_sequence)))
      (Rx.afterExtras (Rx.chr dquote)))

/-! ## Annotations -/

/-- The anonymous token of the double quote that opens and closes a string literal. -/
def quoteTok : Tok := .lit (String.singleton dquote)

/-- One iteration of `repeat(choice(string_content, escape_sequence))` in a string
literal. -/
inductive StringPart
  | string_content (text : String)
  | escape_sequence (text : String)
  deriving DecidableEq, Repr

/-- Token of a piece of a string literal. -/
def StringPart.tok : StringPart → Tok
  | .string_content s => .string_content s
  | .escape_sequence s => .escape_sequence s

/-- Trees of rule `string_literal`: a quote, the repeated pieces, a quote. -/
structure StringLiteral where
  parts : List StringPart
  deriving DecidableEq, Repr

/-- Tokens of a string literal. -/
def StringLiteral.yield (s : StringLiteral) : List Tok :=
  quoteTok :: (s.parts.map StringPart.tok ++ [quoteTok])

/-- Rule `aint: choice($.int_literal, seq("-", $.int_literal))`. -/
inductive Aint
  | pos (text : String)
  | neg (text : String)
  deriving DecidableEq, Repr

/-- Tokens of an `aint`. -/
def Aint.yield : Aint → List Tok
  | .pos n => [.int_literal n]
  | .neg n => [.lit "-", .int_literal n]

/-- Rule `_simple_attribute: choice($.aint, $._nid, $.string_literal, $.keyword,
alias($._utype, $.type))`. -/
inductive SimpleAttribute
  | aint (i : Aint)
  | nid (name : String)
  | string_literal (s : StringLiteral)
  | keyword (k : Keyword)
  | type (t : UType)
  deriving DecidableEq, Repr

/-- Tokens of a simple attribute. -/
def SimpleAttribute.yield : SimpleAttribute → List Tok
  | .aint i => i.yield
  | .nid x => [.nid x]
  | .string_literal s => s.yield
  | .keyword k => [.keyword k]
  | .type t => [.utype t]

/-- Rule `_annotation_label: choice($.identifier, $.keyword, $.string_literal)`. -/
inductive AnnotLabel
  | identifier (name : String)
  | keyword (k : Keyword)
  | string_literal (s : StringLiteral)
  deriving DecidableEq, Repr

/-- Tokens of a label. -/
def AnnotLabel.yield : AnnotLabel → List Tok
  | .identifier x => [.identifier x]
  | .keyword k => [.keyword k]
  | .string_literal s => s.yield

mutual
/-- Rule `_annotation: seq($._annotation_label, optional($._attribute))`. -/
inductive Annot
  | mk (label : AnnotLabel) (value : Attr)
/-- Trees of `optional($._attribute)`, with `_attribute: choice(seq("=", $._simple_attribute),
seq("=", braces(commaSep($._annotation))))`. -/
inductive Attr
  | none
  | simple (a : SimpleAttribute)
  | nested (l : AnnotList)
/-- Trees of `commaSep($._annotation) = optional(commaSep1($._annotation))`. -/
inductive AnnotList
  | none
  | some (a : Annot) (rest : AnnotRest)
/-- Trees of `repeat(seq(",", $._annotation))`, the tail of `commaSep1($._annotation)`. -/
inductive AnnotRest
  | nil
  | cons (a : Annot) (rest : AnnotRest)
end

mutual
/-- Tokens of an annotation. -/
def Annot.yield : Annot → List Tok
  | .mk l v => l.yield ++ v.yield
/-- Tokens of an optional attribute. -/
def Attr.yield : Attr → List Tok
  | .none => []
  | .simple a => .lit "=" :: a.yield
  | .nested l => .lit "=" :: .lit "\x7b" :: (l.yield ++ [.lit "\x7d"])
/-- Tokens of a comma separated list of annotations. -/
def AnnotList.yield : AnnotList → List Tok
  | .none => []
  | .some a rest => a.yield ++ rest.yield
/-- Tokens of the tail of a comma separated list of annotations. -/
def AnnotRest.yield : AnnotRest → List Tok
  | .nil => []
  | .cons a rest => .lit "," :: (a.yield ++ rest.yield)
end

mutual
/-- Number of brace delimited annotation lists around the innermost annotation. -/
def Annot.depth : Annot → Nat
  | .mk _ v => v.depth
/-- Nesting depth of an optional attribute: a nested list adds one level. -/
def Attr.depth : Attr → Nat
  | .none => 0
  | .simple _ => 0
  | .nested l => l.depth + 1
/-- Nesting depth of a list: the deepest of its annotations. -/
def AnnotList.depth : AnnotList → Nat
  | .none => 0
  | .some a rest => max a.depth rest.depth
/-- Nesting depth of the tail of a list. -/
def AnnotRest.depth : AnnotRest → Nat
  | .nil => 0
  | .cons a rest => max a.depth rest.depth
end

/-- The annotations of the tail of a list, in order. -/
def AnnotRest.toList : AnnotRest → List Annot
  | .nil => []
  | .cons a rest => a :: rest.toList

/-- The annotations of a list, in order. -/
def AnnotList.toList : AnnotList → List Annot
  | .none => []
  | .some a rest => a :: rest.toList

/-- Rule `annotations: choice(seq("#", $._annotation),
seq("#", brackets(commaSep($._annotation))))`. -/
inductive Annotations
  | single (a : Annot)
  | list (l : AnnotList)

/-- Tokens of an `annotations` node. -/
def Annotations.yield : Annotations → List Tok
  | .single a => .lit "#" :: a.yield
  | .list l => .lit "#" :: .lit "[" :: (l.yield ++ [.lit "]"])

/-- Nesting depth of an `annotations` node. -/
def Annotations.depth : Annotations → Nat
  | .single a => a.depth
  | .list l => l.depth

/-- The top-level annotations of an `annotations` node. -/
def Annotations.toList : Annotations → List Annot
  | .single a => [a]
  | .list l => l.toList

/-- The annotation `a = { a = { ... a ... } }` with `n` nested lists. -/
def nestAnnot : Nat → Annot
  | 0 => .mk (.identifier "a") .none
  | n + 1 => .mk (.identifier "a") (.nested (.some (nestAnnot n) .nil))

/-- The tokens `# a = { a = { ... a ... } }` with `n` opening and `n` closing braces. -/
def nestToks (n : Nat) : List Tok :=
  .lit "#" :: ((List.replicate n [Tok.identifier "a", .lit "=", .lit "\x7b"]).flatten ++
    .identifier "a" :: List.replicate n (Tok.lit "\x7d"))

/-- The annotation `d=1`. -/
def annotD : Annot := .mk (.identifier "d") (.simple (.aint (.pos "1")))

/-- The annotation `b={c, d=1}`. -/
def annotB : Annot :=
  .mk (.identifier "b")
    (.nested (.some (.mk (.identifier "c") .none) (.cons annotD .nil)))

/-- The tree of `#[a, b={c, d=1}]`. -/
def nestedExample : Annotations :=
  .list (.some (.mk (.identifier "a") .none) (.cons annotB .nil))

/-- The tokens of `#[a, b={c, d=1}]`. -/
def nestedExampleToks : List Tok :=
  [.lit "#", .lit "[", .identifier "a", .lit ",", .identifier "b", .lit "=", .lit "\x7b",
    .identifier "c", .lit ",", .identifier "d", .lit "=", .int_literal "1", .lit "\x7d",
    .lit "]"]

/-- Tokens that can begin a label: an identifier, a keyword or the opening quote. -/
def Tok.startsLabel : Tok → Bool
  | .identifier _ => true
  | .keyword _ => true
  | t => t == quoteTok

/-- The next token is not `=`: what follows an annotation in a list. -/
def noEq (r : List Tok) : Prop := ∀ r0, r ≠ Tok.lit "=" :: r0

/-- The next token closes a list of annotations. -/
def closes (r : List Tok) : Prop :=
  ∃ r0, r = Tok.lit "\x7d" :: r0 ∨ r = Tok.lit "]" :: r0

/-! ## Theorems -/

theorem Peop1.peop1_toks_eq (op : Peop1) : ∃ s c, op.toks = Tok.lit s :: optCastop c ∧
    (s = "!" ∨ s = "-") := by
  cases op with
  | not c => exact ⟨"!", c, rfl, Or.inl rfl⟩
  | neg c => exact ⟨"-", c, rfl, Or.inr rfl⟩

theorem BinOp.toks_ne_nil (op : BinOp) : op.toks ≠ [] := by
  cases op <;> simp [BinOp.toks]

/-- Every yield is non-empty and begins with a token that can start an expression. -/
theorem Expr.yield_head : ∀ e : Expr, ∃ t ts, e.yield = t :: ts ∧ t.startsExpr = true
  | .identifier x => ⟨_, _, rfl, rfl⟩
  | .index_expr x u al ty v len => ⟨_, _, rfl, rfl⟩
  | .true_ => ⟨_, _, rfl, by decide⟩
  | .false_ => ⟨_, _, rfl, by decide⟩
  | .int_literal n => ⟨_, _, rfl, rfl⟩
  | .mem_access ty al x ofs => by
      cases ty with
      | none => exact ⟨_, _, rfl, by decide⟩
      | some t => exact ⟨_, _, rfl, by decide⟩
  | .pack_expr v g z e es => ⟨_, _, rfl, by decide⟩
  | .cast_expr c e => ⟨_, _, rfl, by decide⟩
  | .unary_expr op e => by
      cases op with
      | not c => exact ⟨_, _, rfl, by decide⟩
      | neg c => exact ⟨_, _, rfl, by decide⟩
  | .bin_expr l op r => by
      obtain ⟨t, ts, h, ht⟩ := Expr.yield_head l
      exact ⟨t, ts ++ (op.toks ++ r.yield), by simp [Expr.yield, h], ht⟩
  | .parens_expr e => ⟨_, _, rfl, by decide⟩
  | .call_expr f args => ⟨_, _, rfl, rfl⟩
  | .intrinsic_expr f args => ⟨_, _, rfl, by decide⟩
  | .ternary_expr c a b => by
      obtain ⟨t, ts, h, ht⟩ := Expr.yield_head c
      exact ⟨t, ts ++ (Tok.lit "?" :: (a.yield ++ (Tok.lit ":" :: b.yield))),
        by simp [Expr.yield, h], ht⟩

theorem Expr.yield_length_pos (e : Expr) : 0 < e.yield.length := by
  obtain ⟨t, ts, h, _⟩ := Expr.yield_head e
  simp [h]

theorem Expr.yield_ne_nil (e : Expr) : e.yield ≠ [] := by
  obtain ⟨t, ts, h, _⟩ := Expr.yield_head e
  simp [h]

/-- No yield begins with a token that cannot start an expression. -/
theorem Expr.yield_head_starts (e : Expr) (t : Tok) (ts : List Tok) (us : List Tok)
    (h : e.yield ++ us = t :: ts) : t.startsExpr = true := by
  obtain ⟨t1, ts1, h1, ht⟩ := Expr.yield_head e
  rw [h1] at h
  simp at h
  rw [← h.1]
  exact ht

/-- A yield made of a single identifier token comes from the `identifier` alternative. -/
theorem Expr.yield_eq_identifier (e : Expr) (x : String) (h : e.yield = [Tok.identifier x]) :
    e = .identifier x := by
  have hlen : e.yield.length = 1 := by rw [h]; rfl
  cases e with
  | identifier y => simpa [Expr.yield] using h
  | bin_expr l op r =>
      have h1 := Expr.yield_length_pos l
      have h2 := Expr.yield_length_pos r
      simp [Expr.yield] at hlen
      omega
  | ternary_expr c a b =>
      have h1 := Expr.yield_length_pos c
      simp [Expr.yield] at hlen
      omega
  | unary_expr op e =>
      obtain ⟨s, c, hop, _⟩ := Peop1.peop1_toks_eq op
      simp [Expr.yield, hop] at h
  | mem_access ty al y ofs =>
      cases ty <;> simp [Expr.yield, optParensUtype] at h
  | _ => simp [Expr.yield] at h

/-- The only way a tree followed by further tokens spells `( T ) [ i ]`, `T` a `_utype`
token, is the `mem_access` with type `T`, no alignment, base `i` and no offset, followed by
nothing. -/
theorem Expr.yield_mem_access_inv (t : UType) (i : String) :
    ∀ (e : Expr) (us : List Tok),
      e.yield ++ us = [Tok.lit "(", Tok.utype t, Tok.lit ")", Tok.lit "[", Tok.identifier i,
        Tok.lit "]"] → us = [] ∧ e = .mem_access (some t) none i .none
  | .identifier x, us => by simp [Expr.yield]
  | .index_expr x u al ty v len, us => by simp [Expr.yield]
  | .true_, us => by simp [Expr.yield]
  | .false_, us => by simp [Expr.yield]
  | .int_literal n, us => by simp [Expr.yield]
  | .mem_access ty al x ofs, us => by
      intro h
      cases ty with
      | none => simp [Expr.yield, optParensUtype] at h
      | some t1 =>
          cases al with
          | some a => cases a <;> simp [Expr.yield, optParensUtype, optAlignment, Alignment.tok] at h
          | none =>
              cases ofs with
              | none =>
                  simp [Expr.yield, optParensUtype, optAlignment, MemOfs.yield] at h
                  simp [h]
              | plus e => simp [Expr.yield, optParensUtype, optAlignment, MemOfs.yield] at h
              | minus e => simp [Expr.yield, optParensUtype, optAlignment, MemOfs.yield] at h
  | .pack_expr v g z e es, us => by simp [Expr.yield]
  | .cast_expr c e, us => by cases c <;> simp [Expr.yield, CastType.tok]
  | .unary_expr op e, us => by
      obtain ⟨s, c, hop, hs⟩ := Peop1.peop1_toks_eq op
      rcases hs with rfl | rfl <;> simp [Expr.yield, hop]
  | .bin_expr l op r, us => by
      intro h
      have h1 : l.yield ++ (op.toks ++ (r.yield ++ us)) = [Tok.lit "(", Tok.utype t, Tok.lit ")", Tok.lit "[",
          Tok.identifier i, Tok.lit "]"] := by
        simpa [Expr.yield, List.append_assoc] using h
      have h2 := (Expr.yield_mem_access_inv t i l _ h1).1
      simp [BinOp.toks_ne_nil] at h2
  | .parens_expr e, us => by
      intro h
      have h1 : e.yield ++ (Tok.lit ")" :: us) = Tok.utype t :: [Tok.lit ")", Tok.lit "[",
          Tok.identifier i, Tok.lit "]"] := by
        simpa [Expr.yield, List.append_assoc] using h
      have h2 := Expr.yield_head_starts e _ _ _ h1
      simp [Tok.startsExpr] at h2
  | .call_expr f args, us => by simp [Expr.yield]
  | .intrinsic_expr f args, us => by simp [Expr.yield]
  | .ternary_expr c a b, us => by
      intro h
      have h1 : c.yield ++ (Tok.lit "?" :: (a.yield ++ (Tok.lit ":" :: (b.yield ++ us)))) =
          [Tok.lit "(", Tok.utype t, Tok.lit ")", Tok.lit "[",
          Tok.identifier i, Tok.lit "]"] := by
        simpa [Expr.yield, List.append_assoc] using h
      have h2 := (Expr.yield_mem_access_inv t i c _ h1).1
      simp at h2

theorem CastType.tok_injective (c d : CastType) (h : c.tok = d.tok) : c = d := by
  cases c <;> cases d <;> simp_all [CastType.tok]

theorem CastType.tok_not_starts (c : CastType) : c.tok.startsExpr = false := by
  cases c <;> simp [CastType.tok, Tok.startsExpr]

/-- The only way a tree followed by further tokens spells `( T ) x`, `T` a `_cast` token and
`x` an identifier, is the `cast_expr` of `x` to `T`, followed by nothing. -/
theorem Expr.yield_cast_inv (c : CastType) (x : String) :
    ∀ (e : Expr) (us : List Tok),
      e.yield ++ us = [Tok.lit "(", c.tok, Tok.lit ")", Tok.identifier x] →
        us = [] ∧ e = .cast_expr c (.identifier x)
  | .identifier y, us => by simp [Expr.yield]
  | .index_expr y u al ty v len, us => by simp [Expr.yield]
  | .true_, us => by simp [Expr.yield]
  | .false_, us => by simp [Expr.yield]
  | .int_literal n, us => by simp [Expr.yield]
  | .mem_access ty al y ofs, us => by
      cases ty <;> cases c <;> simp [Expr.yield, optParensUtype, CastType.tok]
  | .pack_expr v g z e es, us => by cases c <;> simp [Expr.yield, CastType.tok]
  | .cast_expr d e, us => by
      intro h
      simp only [Expr.yield, List.cons_append, List.cons.injEq, true_and] at h
      obtain ⟨hd, he⟩ := h
      have hcd := CastType.tok_injective d c hd
      obtain ⟨t1, ts1, h1, _⟩ := Expr.yield_head e
      rw [h1] at he
      simp at he
      obtain ⟨ht, hts, hus⟩ := he
      subst ht hts hus hcd
      exact ⟨rfl, by rw [Expr.yield_eq_identifier e x h1]⟩
  | .unary_expr op e, us => by
      obtain ⟨s, c1, hop, hs⟩ := Peop1.peop1_toks_eq op
      rcases hs with rfl | rfl <;> simp [Expr.yield, hop]
  | .bin_expr l op r, us => by
      intro h
      have h1 : l.yield ++ (op.toks ++ (r.yield ++ us)) =
          [Tok.lit "(", c.tok, Tok.lit ")", Tok.identifier x] := by
        simpa [Expr.yield, List.append_assoc] using h
      have h2 := (Expr.yield_cast_inv c x l _ h1).1
      simp [BinOp.toks_ne_nil] at h2
  | .parens_expr e, us => by
      intro h
      have h1 : e.yield ++ (Tok.lit ")" :: us) = c.tok :: [Tok.lit ")", Tok.identifier x] := by
        simpa [Expr.yield, List.append_assoc] using h
      have h2 := Expr.yield_head_starts e _ _ _ h1
      simp [CastType.tok_not_starts] at h2
  | .call_expr f args, us => by simp [Expr.yield]
  | .intrinsic_expr f args, us => by simp [Expr.yield]
  | .ternary_expr c1 a b, us => by
      intro h
      have h1 : c1.yield ++ (Tok.lit "?" :: (a.yield ++ (Tok.lit ":" :: (b.yield ++ us)))) =
          [Tok.lit "(", c.tok, Tok.lit ")", Tok.identifier x] := by
        simpa [Expr.yield, List.append_assoc] using h
      have h2 := (Expr.yield_cast_inv c x c1 _ h1).1
      simp at h2

/-! ### C1: cast expressions -/

/-- C1, as stated, fails: the token sequence `( u32 ) x`, with `u32` the sized-type token of
`_utype`, is not the yield of any `cast_expr` tree (the parenthesised part of a `cast_expr`
is `_cast`, which is `int` or a `swsize` token such as `32u`). -/
theorem C1_u32_x_not_cast :
    ¬ ∃ (c : CastType) (e : Expr), (Expr.cast_expr c e).yield =
      [Tok.lit "(", Tok.utype .u32, Tok.lit ")", Tok.identifier "x"] := by
  rintro ⟨c, e, h⟩
  cases c <;> simp [Expr.yield, CastType.tok] at h

/-- C1, amended: for every cast type `T` of `_cast` (`int`, or a `swsize` token: a size
8, 16, 32, 64, 128 or 256 followed by `s` or `u`) and every expression `e`, the token
sequence `( T ) e` is the yield of the `cast_expr` whose `cast` field is `T` and whose
`expression` field is `e`; `(32u) x` has exactly one parse, the cast of `x` to `32u`; and
no sized-type token `u8`, ..., `u256` is the type of a `cast_expr`. -/
theorem C1_cast_expr_derivable :
    (∀ (c : CastType) (e : Expr),
      (Expr.cast_expr c e).yield = Tok.lit "(" :: c.tok :: Tok.lit ")" :: e.yield) ∧
    (∀ t : Tok, (∃ c : CastType, c.tok = t) ↔
      (t = Tok.lit "int" ∨ ∃ z g, t = Tok.swsize z g)) ∧
    (∀ e : Expr, e.yield = [Tok.lit "(", Tok.swsize .b32 .u, Tok.lit ")", Tok.identifier "x"] ↔
      e = .cast_expr (.swsize .b32 .u) (.identifier "x")) ∧
    (∀ (t : UType) (c : CastType) (e : Expr) (ts : List Tok),
      (Expr.cast_expr c e).yield ≠ Tok.lit "(" :: Tok.utype t :: ts) := by
  refine ⟨fun c e => rfl, ?_, ?_, ?_⟩
  · intro t
    constructor
    · rintro ⟨c, rfl⟩
      cases c with
      | int => exact Or.inl rfl
      | swsize z g => exact Or.inr ⟨z, g, rfl⟩
    · rintro (rfl | ⟨z, g, rfl⟩)
      · exact ⟨.int, rfl⟩
      · exact ⟨.swsize z g, rfl⟩
  · intro e
    constructor
    · intro h
      have h1 : e.yield ++ [] = [Tok.lit "(", (CastType.swsize .b32 .u).tok, Tok.lit ")",
          Tok.identifier "x"] := by simpa [CastType.tok] using h
      exact (Expr.yield_cast_inv _ _ e [] h1).2
    · rintro rfl
      rfl
  · intro t c e ts
    cases c <;> simp [Expr.yield, CastType.tok]

/-! ### C2: memory access with an explicit type -/

/-- C2: for every identifier `i`, the token sequence `( u32 ) [ i ]` is the yield of the
`mem_access` tree whose `type` field is `u32` and whose address names `i` (no alignment, no
offset), and of no other tree of `_expr`: in particular of no `cast_expr`. -/
theorem C2_mem_access_not_cast (i : String) :
    (Expr.mem_access (some .u32) none i .none).yield =
      [Tok.lit "(", Tok.utype .u32, Tok.lit ")", Tok.lit "[", Tok.identifier i, Tok.lit "]"] ∧
    (∀ e : Expr, e.yield =
        [Tok.lit "(", Tok.utype .u32, Tok.lit ")", Tok.lit "[", Tok.identifier i, Tok.lit "]"] →
      e = .mem_access (some .u32) none i .none) ∧
    (∀ (c : CastType) (e : Expr), (Expr.cast_expr c e).yield ≠
        [Tok.lit "(", Tok.utype .u32, Tok.lit ")", Tok.lit "[", Tok.identifier i, Tok.lit "]"]) := by
  refine ⟨rfl, ?_, ?_⟩
  · intro e h
    exact (Expr.yield_mem_access_inv .u32 i e [] (by simpa using h)).2
  · intro c e h
    have := (Expr.yield_mem_access_inv .u32 i _ [] (by simpa using h)).2
    cases this

theorem optCastop_not_ident (c : Option CastOp) (X : List Tok) (y : String) (Y : List Tok)
    (h : optCastop c ++ X = Tok.identifier y :: Y) : c = none ∧ X = Tok.identifier y :: Y := by
  cases c with
  | none => exact ⟨rfl, by simpa [optCastop] using h⟩
  | some c => cases c <;> simp [optCastop, CastOp.toks] at h

/-- The operator strings of `bin_expr`. -/
theorem BinOp.toks_eq (op : BinOp) : ∃ s c, op.toks = Tok.lit s :: optCastop c ∧
    s ∈ "&&" :: "||" :: (multiplicativeOperators ++ (additiveOperators ++ comparativeOperators)) := by
  cases op with
  | and => exact ⟨"&&", none, rfl, by simp⟩
  | or => exact ⟨"||", none, rfl, by simp⟩
  | mult i c => exact ⟨_, c, rfl, by simp [List.get_mem]⟩
  | add i c => exact ⟨_, c, rfl, by simp [List.get_mem]⟩
  | comp i c => exact ⟨_, c, rfl, by simp [List.get_mem]⟩

theorem BinOp.toks_injective (o1 o2 : BinOp) (h : o1.toks = o2.toks) : o1 = o2 := by
  have hm : ∀ i j : Fin multiplicativeOperators.length,
      multiplicativeOperators.get i = multiplicativeOperators.get j → i = j := by decide
  have ha : ∀ i j : Fin additiveOperators.length,
      additiveOperators.get i = additiveOperators.get j → i = j := by decide
  have hc : ∀ i j : Fin comparativeOperators.length,
      comparativeOperators.get i = comparativeOperators.get j → i = j := by decide
  have hma : ∀ (i : Fin multiplicativeOperators.length) (j : Fin additiveOperators.length),
      multiplicativeOperators.get i ≠ additiveOperators.get j := by decide
  have hmc : ∀ (i : Fin multiplicativeOperators.length) (j : Fin comparativeOperators.length),
      multiplicativeOperators.get i ≠ comparativeOperators.get j := by decide
  have hac : ∀ (i : Fin additiveOperators.length) (j : Fin comparativeOperators.length),
      additiveOperators.get i ≠ comparativeOperators.get j := by decide
  have hm1 : ∀ i : Fin multiplicativeOperators.length,
      multiplicativeOperators.get i ≠ "&&" ∧ multiplicativeOperators.get i ≠ "||" := by decide
  have ha1 : ∀ i : Fin additiveOperators.length,
      additiveOperators.get i ≠ "&&" ∧ additiveOperators.get i ≠ "||" := by decide
  have hc1 : ∀ i : Fin comparativeOperators.length,
      comparativeOperators.get i ≠ "&&" ∧ comparativeOperators.get i ≠ "||" := by decide
  have hopt : ∀ c d : Option CastOp, optCastop c = optCastop d → c = d := by
    intro c d hcd
    cases c with
    | none => cases d with
      | none => rfl
      | some d => cases d <;> simp [optCastop, CastOp.toks] at hcd
    | some c => cases d with
      | none => cases c <;> simp [optCastop, CastOp.toks] at hcd
      | some d => cases c <;> cases d <;> simp_all [optCastop, CastOp.toks]
  cases o1 with
  | and =>
      cases o2 with
      | and => rfl
      | or => simp [BinOp.toks] at h
      | mult j d => simp [BinOp.toks] at h; exact absurd h.1.symm (hm1 j).1
      | add j d => simp [BinOp.toks] at h; exact absurd h.1.symm (ha1 j).1
      | comp j d => simp [BinOp.toks] at h; exact absurd h.1.symm (hc1 j).1
  | or =>
      cases o2 with
      | and => simp [BinOp.toks] at h
      | or => rfl
      | mult j d => simp [BinOp.toks] at h; exact absurd h.1.symm (hm1 j).2
      | add j d => simp [BinOp.toks] at h; exact absurd h.1.symm (ha1 j).2
      | comp j d => simp [BinOp.toks] at h; exact absurd h.1.symm (hc1 j).2
  | mult i c =>
      cases o2 with
      | and => simp [BinOp.toks] at h; exact absurd h.1 (hm1 i).1
      | or => simp [BinOp.toks] at h; exact absurd h.1 (hm1 i).2
      | mult j d =>
          simp only [BinOp.toks, List.cons.injEq, Tok.lit.injEq] at h
          rw [hm i j h.1, hopt c d h.2]
      | add j d =>
          simp only [BinOp.toks, List.cons.injEq, Tok.lit.injEq] at h
          exact absurd h.1 (hma i j)
      | comp j d =>
          simp only [BinOp.toks, List.cons.injEq, Tok.lit.injEq] at h
          exact absurd h.1 (hmc i j)
  | add i c =>
      cases o2 with
      | and => simp [BinOp.toks] at h; exact absurd h.1 (ha1 i).1
      | or => simp [BinOp.toks] at h; exact absurd h.1 (ha1 i).2
      | mult j d =>
          simp only [BinOp.toks, List.cons.injEq, Tok.lit.injEq] at h
          exact absurd h.1.symm (hma j i)
      | add j d =>
          simp only [BinOp.toks, List.cons.injEq, Tok.lit.injEq] at h
          rw [ha i j h.1, hopt c d h.2]
      | comp j d =>
          simp only [BinOp.toks, List.cons.injEq, Tok.lit.injEq] at h
          exact absurd h.1 (hac i j)
  | comp i c =>
      cases o2 with
      | and => simp [BinOp.toks] at h; exact absurd h.1 (hc1 i).1
      | or => simp [BinOp.toks] at h; exact absurd h.1 (hc1 i).2
      | mult j d =>
          simp only [BinOp.toks, List.cons.injEq, Tok.lit.injEq] at h
          exact absurd h.1.symm (hmc j i)
      | add j d =>
          simp only [BinOp.toks, List.cons.injEq, Tok.lit.injEq] at h
          exact absurd h.1.symm (hac j i)
      | comp j d =>
          simp only [BinOp.toks, List.cons.injEq, Tok.lit.injEq] at h
          rw [hc i j h.1, hopt c d h.2]

/-- An operator without a `castop`. -/
theorem BinOp.bare_toks (o : BinOp) (h : o.toks.length = 1) :
    ∃ s, o.toks = [Tok.lit s] ∧ s ≠ "(" ∧ s ≠ "." ∧ s ≠ "[" ∧ s ≠ "?" ∧ s ≠ ":" := by
  obtain ⟨s, c, hs, hmem⟩ := BinOp.toks_eq o
  have hc : optCastop c = [] := by
    rw [hs] at h
    simpa using h
  refine ⟨s, by rw [hs, hc], ?_⟩
  simp only [multiplicativeOperators, additiveOperators, comparativeOperators, List.cons_append,
    List.nil_append, List.mem_cons, List.mem_singleton, List.not_mem_nil, or_false] at hmem
  rcases hmem with h | h | h | h | h | h | h | h | h | h | h | h | h | h | h | h | h | h | h |
    h | h | h | h | h | h | h | h | h | h | h | h <;> subst h <;> decide

/-- Reading an operator without `castop` off the front of a token sequence. -/
theorem BinOp.toks_append_inv (op o : BinOp) (ho : o.toks.length = 1) (X Y : List Tok)
    (y : String) (h : op.toks ++ X = o.toks ++ Tok.identifier y :: Y) :
    op = o ∧ X = Tok.identifier y :: Y := by
  obtain ⟨s, hs, _⟩ := BinOp.bare_toks o ho
  obtain ⟨s1, c, hs1, _⟩ := BinOp.toks_eq op
  rw [hs, hs1] at h
  simp only [List.cons_append, List.nil_append, List.cons.injEq, Tok.lit.injEq] at h
  obtain ⟨hc, hX⟩ := optCastop_not_ident c X y Y h.2
  refine ⟨BinOp.toks_injective _ _ ?_, hX⟩
  rw [hs, hs1, hc, h.1]
  rfl

/-- A tree whose yield begins with an identifier that is followed by no `(`, `.` or `[` is
that identifier, a `bin_expr` or a `ternary_expr`. -/
theorem Expr.yield_ident_cases (e : Expr) (us : List Tok) (x : String) (rest : List Tok)
    (h : e.yield ++ us = Tok.identifier x :: rest)
    (hrest : ∀ t ts, rest = t :: ts → t ≠ Tok.lit "(" ∧ t ≠ Tok.lit "." ∧ t ≠ Tok.lit "[") :
    (e = .identifier x ∧ us = rest) ∨ (∃ l op r, e = .bin_expr l op r) ∨
      (∃ c a b, e = .ternary_expr c a b) := by
  cases e with
  | identifier y =>
      left
      simpa [Expr.yield] using h
  | bin_expr l op r => exact Or.inr (Or.inl ⟨l, op, r, rfl⟩)
  | ternary_expr c a b => exact Or.inr (Or.inr ⟨c, a, b, rfl⟩)
  | index_expr y u al ty v len =>
      exfalso
      cases u
      · simp [Expr.yield] at h
        have := hrest _ _ h.2.symm
        simp at this
      · simp [Expr.yield] at h
        have := hrest _ _ h.2.symm
        simp at this
  | call_expr f args =>
      exfalso
      simp [Expr.yield] at h
      have := hrest _ _ h.2.symm
      simp at this
  | mem_access ty al y ofs => cases ty <;> simp [Expr.yield, optParensUtype] at h
  | unary_expr op e =>
      obtain ⟨s, c, hop, hs⟩ := Peop1.peop1_toks_eq op
      simp [Expr.yield, hop] at h
  | _ => simp [Expr.yield] at h

theorem BinOp.bare_head (o : BinOp) (ho : o.toks.length = 1) (Y : List Tok) :
    ∀ t ts, o.toks ++ Y = t :: ts →
      t ≠ Tok.lit "(" ∧ t ≠ Tok.lit "." ∧ t ≠ Tok.lit "[" ∧ t ≠ Tok.lit "?" := by
  obtain ⟨s, hs, h1, h2, h3, h4, _⟩ := BinOp.bare_toks o ho
  intro t ts h
  rw [hs] at h
  simp only [List.cons_append, List.nil_append, List.cons.injEq] at h
  rw [← h.1]
  simp [h1, h2, h3, h4]

theorem BinOp.bare_head3 (o : BinOp) (ho : o.toks.length = 1) (Y : List Tok) :
    ∀ t ts, o.toks ++ Y = t :: ts →
      t ≠ Tok.lit "(" ∧ t ≠ Tok.lit "." ∧ t ≠ Tok.lit "[" := by
  intro t ts h
  obtain ⟨h1, h2, h3, _⟩ := BinOp.bare_head o ho Y t ts h
  exact ⟨h1, h2, h3⟩

theorem BinOp.bare_ne_qmark (o : BinOp) (ho : o.toks.length = 1) (X Y : List Tok) :
    Tok.lit "?" :: X ≠ o.toks ++ Y := by
  intro h
  exact (BinOp.bare_head o ho Y _ _ h.symm).2.2.2 rfl

theorem Expr.bin_left_length (l r : Expr) (op : BinOp) (n : Nat)
    (h : (Expr.bin_expr l op r).yield.length ≤ n + 1) : l.yield.length ≤ n := by
  have := Expr.yield_length_pos r
  simp [Expr.yield] at h
  omega

theorem Expr.ternary_left_length (c a b : Expr) (n : Nat)
    (h : (Expr.ternary_expr c a b).yield.length ≤ n + 1) : c.yield.length ≤ n := by
  simp [Expr.yield] at h
  omega

theorem Expr.bin_yield_append (l r : Expr) (op : BinOp) (us : List Tok) :
    (Expr.bin_expr l op r).yield ++ us = l.yield ++ (op.toks ++ (r.yield ++ us)) := by
  simp [Expr.yield, List.append_assoc]

theorem Expr.ternary_yield_append (c a b : Expr) (us : List Tok) :
    (Expr.ternary_expr c a b).yield ++ us =
      c.yield ++ (Tok.lit "?" :: (a.yield ++ (Tok.lit ":" :: (b.yield ++ us)))) := by
  simp [Expr.yield, List.append_assoc]

/-- Trees spelling a prefix of `x`. -/
theorem Expr.inv1 (x : String) (e : Expr) (us : List Tok)
    (h : e.yield ++ us = [Tok.identifier x]) : e = .identifier x ∧ us = [] := by
  obtain ⟨t, ts, ht, _⟩ := Expr.yield_head e
  rw [ht] at h
  simp at h
  obtain ⟨h1, h2, h3⟩ := h
  subst h1 h2 h3
  exact ⟨Expr.yield_eq_identifier e x ht, rfl⟩

/-- Trees spelling a prefix of `x o y`. -/
theorem Expr.inv3 (x y : String) (o : BinOp) (ho : o.toks.length = 1) :
    ∀ (n : Nat) (e : Expr) (us : List Tok), e.yield.length ≤ n →
      e.yield ++ us = Tok.identifier x :: (o.toks ++ [Tok.identifier y]) →
      (e, us) ∈ [(Expr.identifier x, o.toks ++ [Tok.identifier y]),
        (Expr.bin_expr (.identifier x) o (.identifier y), [])] := by
  intro n
  induction n with
  | zero =>
      intro e us hn
      have := Expr.yield_length_pos e
      omega
  | succ n ih =>
      intro e us hn h
      rcases Expr.yield_ident_cases e us x _ h (BinOp.bare_head3 o ho _) with
        ⟨rfl, rfl⟩ | ⟨l, op, r, rfl⟩ | ⟨c, a, b, rfl⟩
      · simp
      · rw [Expr.bin_yield_append] at h
        have h0 := ih l _ (Expr.bin_left_length l r op n hn) h
        simp only [List.mem_cons, Prod.mk.injEq, List.mem_singleton, List.not_mem_nil,
          or_false] at h0
        rcases h0 with ⟨rfl, h2⟩ | ⟨rfl, h2⟩
        · obtain ⟨rfl, h3⟩ := BinOp.toks_append_inv op o ho _ _ _ h2
          obtain ⟨rfl, rfl⟩ := Expr.inv1 y r us h3
          simp
        · simp [BinOp.toks_ne_nil] at h2
      · rw [Expr.ternary_yield_append] at h
        have h0 := ih c _ (Expr.ternary_left_length c a b n hn) h
        simp only [List.mem_cons, Prod.mk.injEq, List.mem_singleton, List.not_mem_nil,
          or_false] at h0
        rcases h0 with ⟨rfl, h2⟩ | ⟨rfl, h2⟩
        · exact absurd h2 (BinOp.bare_ne_qmark o ho _ _)
        · simp at h2

/-- Trees spelling a prefix of `x o1 y o2 z`. -/
theorem Expr.inv5 (x y z : String) (o1 o2 : BinOp) (ho1 : o1.toks.length = 1)
    (ho2 : o2.toks.length = 1) :
    ∀ (n : Nat) (e : Expr) (us : List Tok), e.yield.length ≤ n →
      e.yield ++ us =
        Tok.identifier x :: (o1.toks ++ Tok.identifier y :: (o2.toks ++ [Tok.identifier z])) →
      (e, us) ∈ [
        (Expr.identifier x, o1.toks ++ Tok.identifier y :: (o2.toks ++ [Tok.identifier z])),
        (Expr.bin_expr (.identifier x) o1 (.identifier y), o2.toks ++ [Tok.identifier z]),
        (Expr.bin_expr (.identifier x) o1 (.bin_expr (.identifier y) o2 (.identifier z)), []),
        (Expr.bin_expr (.bin_expr (.identifier x) o1 (.identifier y)) o2 (.identifier z), [])] := by
  intro n
  induction n with
  | zero =>
      intro e us hn
      have := Expr.yield_length_pos e
      omega
  | succ n ih =>
      intro e us hn h
      rcases Expr.yield_ident_cases e us x _ h (BinOp.bare_head3 o1 ho1 _) with
        ⟨rfl, rfl⟩ | ⟨l, op, r, rfl⟩ | ⟨c, a, b, rfl⟩
      · simp
      · rw [Expr.bin_yield_append] at h
        have h0 := ih l _ (Expr.bin_left_length l r op n hn) h
        simp only [List.mem_cons, Prod.mk.injEq, List.mem_singleton, List.not_mem_nil,
          or_false] at h0
        rcases h0 with ⟨rfl, h2⟩ | ⟨rfl, h2⟩ | ⟨rfl, h2⟩ | ⟨rfl, h2⟩
        · obtain ⟨rfl, h3⟩ := BinOp.toks_append_inv op o1 ho1 _ _ _ h2
          have h4 := Expr.inv3 y z o2 ho2 _ r us (le_refl _) h3
          simp only [List.mem_cons, Prod.mk.injEq, List.mem_singleton, List.not_mem_nil,
            or_false] at h4
          rcases h4 with ⟨rfl, rfl⟩ | ⟨rfl, rfl⟩ <;> simp
        · obtain ⟨rfl, h3⟩ := BinOp.toks_append_inv op o2 ho2 _ _ _ h2
          obtain ⟨rfl, rfl⟩ := Expr.inv1 z r us h3
          simp
        · simp [BinOp.toks_ne_nil] at h2
        · simp [BinOp.toks_ne_nil] at h2
      · rw [Expr.ternary_yield_append] at h
        have h0 := ih c _ (Expr.ternary_left_length c a b n hn) h
        simp only [List.mem_cons, Prod.mk.injEq, List.mem_singleton, List.not_mem_nil,
          or_false] at h0
        rcases h0 with ⟨rfl, h2⟩ | ⟨rfl, h2⟩ | ⟨rfl, h2⟩ | ⟨rfl, h2⟩
        · exact absurd h2 (BinOp.bare_ne_qmark o1 ho1 _ _)
        · exact absurd h2 (BinOp.bare_ne_qmark o2 ho2 _ _)
        · simp at h2
        · simp at h2

/-- Trees spelling a prefix of `x1 o1 x2 o2 x3 o3 x4`. -/
theorem Expr.inv7 (x1 x2 x3 x4 : String) (o1 o2 o3 : BinOp) (ho1 : o1.toks.length = 1)
    (ho2 : o2.toks.length = 1) (ho3 : o3.toks.length = 1) :
    ∀ (n : Nat) (e : Expr) (us : List Tok), e.yield.length ≤ n →
      e.yield ++ us = (Tok.identifier x1 :: (o1.toks ++ (Tok.identifier x2 :: (o2.toks ++ (Tok.identifier x3 :: (o3.toks ++ [Tok.identifier x4])))))) →
      (e, us) ∈ [
        ((Expr.identifier x1), (o1.toks ++ (Tok.identifier x2 :: (o2.toks ++ (Tok.identifier x3 :: (o3.toks ++ [Tok.identifier x4])))))),
        ((Expr.bin_expr (.identifier x1) o1 (.identifier x2)), (o2.toks ++ (Tok.identifier x3 :: (o3.toks ++ [Tok.identifier x4])))),
        ((Expr.bin_expr (.identifier x1) o1 (.bin_expr (.identifier x2) o2 (.identifier x3))), (o3.toks ++ [Tok.identifier x4])),
        ((Expr.bin_expr (.bin_expr (.identifier x1) o1 (.identifier x2)) o2 (.identifier x3)), (o3.toks ++ [Tok.identifier x4])),
        ((Expr.bin_expr (.identifier x1) o1 (.bin_expr (.identifier x2) o2 (.bin_expr (.identifier x3) o3 (.identifier x4)))), []),
        ((Expr.bin_expr (.identifier x1) o1 (.bin_expr (.bin_expr (.identifier x2) o2 (.identifier x3)) o3 (.identifier x4))), []),
        ((Expr.bin_expr (.bin_expr (.identifier x1) o1 (.identifier x2)) o2 (.bin_expr (.identifier x3) o3 (.identifier x4))), []),
        ((Expr.bin_expr (.bin_expr (.identifier x1) o1 (.bin_expr (.identifier x2) o2 (.identifier x3))) o3 (.identifier x4)), []),
        ((Expr.bin_expr (.bin_expr (.bin_expr (.identifier x1) o1 (.identifier x2)) o2 (.identifier x3)) o3 (.identifier x4)), [])] := by
  intro n
  induction n with
  | zero =>
      intro e us hn
      have := Expr.yield_length_pos e
      omega
  | succ n ih =>
      intro e us hn h
      rcases Expr.yield_ident_cases e us x1 _ h (BinOp.bare_head3 o1 ho1 _) with
        ⟨rfl, rfl⟩ | ⟨l, op, r, rfl⟩ | ⟨c, a, b, rfl⟩
      · simp
      · rw [Expr.bin_yield_append] at h
        have h0 := ih l _ (Expr.bin_left_length l r op n hn) h
        simp only [List.mem_cons, Prod.mk.injEq, List.mem_singleton, List.not_mem_nil,
          or_false] at h0
        rcases h0 with ⟨rfl, h2⟩ | ⟨rfl, h2⟩ | ⟨rfl, h2⟩ | ⟨rfl, h2⟩ | ⟨rfl, h2⟩ | ⟨rfl, h2⟩ |
          ⟨rfl, h2⟩ | ⟨rfl, h2⟩ | ⟨rfl, h2⟩
        · obtain ⟨rfl, h3⟩ := BinOp.toks_append_inv op o1 ho1 _ _ _ h2
          have h4 := Expr.inv5 x2 x3 x4 o2 o3 ho2 ho3 _ r us (le_refl _) h3
          simp only [List.mem_cons, Prod.mk.injEq, List.mem_singleton, List.not_mem_nil,
          or_false] at h4
          rcases h4 with ⟨rfl, rfl⟩ | ⟨rfl, rfl⟩ | ⟨rfl, rfl⟩ | ⟨rfl, rfl⟩ <;> simp
        · obtain ⟨rfl, h3⟩ := BinOp.toks_append_inv op o2 ho2 _ _ _ h2
          have h4 := Expr.inv3 x3 x4 o3 ho3 _ r us (le_refl _) h3
          simp only [List.mem_cons, Prod.mk.injEq, List.mem_singleton, List.not_mem_nil,
          or_false] at h4
          rcases h4 with ⟨rfl, rfl⟩ | ⟨rfl, rfl⟩ <;> simp
        · obtain ⟨rfl, h3⟩ := BinOp.toks_append_inv op o3 ho3 _ _ _ h2
          obtain ⟨rfl, rfl⟩ := Expr.inv1 x4 r us h3
          simp
        · obtain ⟨rfl, h3⟩ := BinOp.toks_append_inv op o3 ho3 _ _ _ h2
          obtain ⟨rfl, rfl⟩ := Expr.inv1 x4 r us h3
          simp
        all_goals simp [BinOp.toks_ne_nil] at h2
      · rw [Expr.ternary_yield_append] at h
        have h0 := ih c _ (Expr.ternary_left_length c a b n hn) h
        simp only [List.mem_cons, Prod.mk.injEq, List.mem_singleton, List.not_mem_nil,
          or_false] at h0
        rcases h0 with ⟨rfl, h2⟩ | ⟨rfl, h2⟩ | ⟨rfl, h2⟩ | ⟨rfl, h2⟩ | ⟨rfl, h2⟩ | ⟨rfl, h2⟩ |
          ⟨rfl, h2⟩ | ⟨rfl, h2⟩ | ⟨rfl, h2⟩
        · exact absurd h2 (BinOp.bare_ne_qmark o1 ho1 _ _)
        · exact absurd h2 (BinOp.bare_ne_qmark o2 ho2 _ _)
        · exact absurd h2 (BinOp.bare_ne_qmark o3 ho3 _ _)
        · exact absurd h2 (BinOp.bare_ne_qmark o3 ho3 _ _)
        all_goals simp at h2

/-- No operator of `bin_expr` begins with `?` or `:`. -/
theorem BinOp.toks_head (op : BinOp) (X : List Tok) (t : Tok) (Y : List Tok)
    (h : op.toks ++ X = t :: Y) : t ≠ Tok.lit "?" ∧ t ≠ Tok.lit ":" := by
  obtain ⟨s, c, hs, hmem⟩ := BinOp.toks_eq op
  rw [hs] at h
  simp only [List.cons_append, List.cons.injEq] at h
  rw [← h.1]
  simp only [multiplicativeOperators, additiveOperators, comparativeOperators, List.cons_append,
    List.nil_append, List.mem_cons, List.mem_singleton, List.not_mem_nil, or_false] at hmem
  rcases hmem with h | h | h | h | h | h | h | h | h | h | h | h | h | h | h | h | h | h | h |
    h | h | h | h | h | h | h | h | h | h | h | h <;> subst h <;> decide

/-- An identifier followed by `:` is a complete operand: no tree extends over the `:`. -/
theorem Expr.inv_colon (x : String) (R : List Tok) :
    ∀ (n : Nat) (e : Expr) (us : List Tok), e.yield.length ≤ n →
      e.yield ++ us = Tok.identifier x :: Tok.lit ":" :: R →
      e = .identifier x ∧ us = Tok.lit ":" :: R := by
  intro n
  induction n with
  | zero =>
      intro e us hn
      have := Expr.yield_length_pos e
      omega
  | succ n ih =>
      intro e us hn h
      rcases Expr.yield_ident_cases e us x _ h (by intro t ts ht; simp at ht; rw [← ht.1]; simp)
        with ⟨rfl, rfl⟩ | ⟨l, op, r, rfl⟩ | ⟨c, a, b, rfl⟩
      · exact ⟨rfl, rfl⟩
      · rw [Expr.bin_yield_append] at h
        obtain ⟨rfl, h2⟩ := ih l _ (Expr.bin_left_length l r op n hn) h
        exact absurd rfl (BinOp.toks_head op _ _ _ h2).2
      · rw [Expr.ternary_yield_append] at h
        obtain ⟨rfl, h2⟩ := ih c _ (Expr.ternary_left_length c a b n hn) h
        simp at h2

/-- Trees spelling a prefix of `v ? w : z`. -/
theorem Expr.inv_ternary (v w z : String) :
    ∀ (n : Nat) (e : Expr) (us : List Tok), e.yield.length ≤ n →
      e.yield ++ us = [Tok.identifier v, Tok.lit "?", Tok.identifier w, Tok.lit ":",
        Tok.identifier z] →
      (e, us) ∈ [
        (Expr.identifier v, [Tok.lit "?", Tok.identifier w, Tok.lit ":", Tok.identifier z]),
        (Expr.ternary_expr (.identifier v) (.identifier w) (.identifier z), [])] := by
  intro n
  induction n with
  | zero =>
      intro e us hn
      have := Expr.yield_length_pos e
      omega
  | succ n ih =>
      intro e us hn h
      rcases Expr.yield_ident_cases e us v _ h (by intro t ts ht; simp at ht; rw [← ht.1]; simp)
        with ⟨rfl, rfl⟩ | ⟨l, op, r, rfl⟩ | ⟨c, a, b, rfl⟩
      · simp
      · rw [Expr.bin_yield_append] at h
        have h0 := ih l _ (Expr.bin_left_length l r op n hn) h
        simp only [List.mem_cons, Prod.mk.injEq, List.mem_singleton, List.not_mem_nil,
          or_false] at h0
        rcases h0 with ⟨rfl, h2⟩ | ⟨rfl, h2⟩
        · exact absurd rfl (BinOp.toks_head op _ _ _ h2).1
        · simp [BinOp.toks_ne_nil] at h2
      · rw [Expr.ternary_yield_append] at h
        have h0 := ih c _ (Expr.ternary_left_length c a b n hn) h
        simp only [List.mem_cons, Prod.mk.injEq, List.mem_singleton, List.not_mem_nil,
          or_false] at h0
        rcases h0 with ⟨rfl, h2⟩ | ⟨rfl, h2⟩
        · simp only [List.cons.injEq, true_and] at h2
          obtain ⟨rfl, h3⟩ := Expr.inv_colon w _ _ a _ (le_refl _) h2
          simp only [List.cons.injEq, true_and] at h3
          obtain ⟨rfl, rfl⟩ := Expr.inv1 z b us h3
          simp
        · simp at h2

/-- Trees spelling a prefix of `v1 ? v2 : v3 ? v4 : v5`. -/
theorem Expr.inv_ternary2 (v1 v2 v3 v4 v5 : String) :
    ∀ (n : Nat) (e : Expr) (us : List Tok), e.yield.length ≤ n →
      e.yield ++ us = [Tok.identifier v1, Tok.lit "?", Tok.identifier v2, Tok.lit ":",
        Tok.identifier v3, Tok.lit "?", Tok.identifier v4, Tok.lit ":", Tok.identifier v5] →
      (e, us) ∈ [
        (Expr.identifier v1, [Tok.lit "?", Tok.identifier v2, Tok.lit ":",
          Tok.identifier v3, Tok.lit "?", Tok.identifier v4, Tok.lit ":", Tok.identifier v5]),
        (Expr.ternary_expr (.identifier v1) (.identifier v2) (.identifier v3),
          [Tok.lit "?", Tok.identifier v4, Tok.lit ":", Tok.identifier v5]),
        (Expr.ternary_expr (.identifier v1) (.identifier v2)
          (.ternary_expr (.identifier v3) (.identifier v4) (.identifier v5)), []),
        (Expr.ternary_expr (.ternary_expr (.identifier v1) (.identifier v2) (.identifier v3))
          (.identifier v4) (.identifier v5), [])] := by
  intro n
  induction n with
  | zero =>
      intro e us hn
      have := Expr.yield_length_pos e
      omega
  | succ n ih =>
      intro e us hn h
      rcases Expr.yield_ident_cases e us v1 _ h (by intro t ts ht; simp at ht; rw [← ht.1]; simp)
        with ⟨rfl, rfl⟩ | ⟨l, op, r, rfl⟩ | ⟨c, a, b, rfl⟩
      · simp
      · rw [Expr.bin_yield_append] at h
        have h0 := ih l _ (Expr.bin_left_length l r op n hn) h
        simp only [List.mem_cons, Prod.mk.injEq, List.mem_singleton, List.not_mem_nil,
          or_false] at h0
        rcases h0 with ⟨rfl, h2⟩ | ⟨rfl, h2⟩ | ⟨rfl, h2⟩ | ⟨rfl, h2⟩
        · exact absurd rfl (BinOp.toks_head op _ _ _ h2).1
        · exact absurd rfl (BinOp.toks_head op _ _ _ h2).1
        · simp [BinOp.toks_ne_nil] at h2
        · simp [BinOp.toks_ne_nil] at h2
      · rw [Expr.ternary_yield_append] at h
        have h0 := ih c _ (Expr.ternary_left_length c a b n hn) h
        simp only [List.mem_cons, Prod.mk.injEq, List.mem_singleton, List.not_mem_nil,
          or_false] at h0
        rcases h0 with ⟨rfl, h2⟩ | ⟨rfl, h2⟩ | ⟨rfl, h2⟩ | ⟨rfl, h2⟩
        · simp only [List.cons.injEq, true_and] at h2
          obtain ⟨rfl, h3⟩ := Expr.inv_colon v2 _ _ a _ (le_refl _) h2
          simp only [List.cons.injEq, true_and] at h3
          have h4 := Expr.inv_ternary v3 v4 v5 _ b us (le_refl _) h3
          simp only [List.mem_cons, Prod.mk.injEq, List.mem_singleton, List.not_mem_nil,
          or_false] at h4
          rcases h4 with ⟨rfl, rfl⟩ | ⟨rfl, rfl⟩ <;> simp
        · simp only [List.cons.injEq, true_and] at h2
          obtain ⟨rfl, h3⟩ := Expr.inv_colon v4 _ _ a _ (le_refl _) h2
          simp only [List.cons.injEq, true_and] at h3
          obtain ⟨rfl, rfl⟩ := Expr.inv1 v5 b us h3
          simp
        · simp at h2
        · simp at h2

/-- Trees spelling a prefix of `x o y ? v : w`. -/
theorem Expr.inv_bin_ternary (x y v w : String) (o : BinOp) (ho : o.toks.length = 1) :
    ∀ (n : Nat) (e : Expr) (us : List Tok), e.yield.length ≤ n →
      e.yield ++ us = Tok.identifier x :: (o.toks ++ [Tok.identifier y, Tok.lit "?",
        Tok.identifier v, Tok.lit ":", Tok.identifier w]) →
      (e, us) ∈ [
        (Expr.identifier x, o.toks ++ [Tok.identifier y, Tok.lit "?",
          Tok.identifier v, Tok.lit ":", Tok.identifier w]),
        (Expr.bin_expr (.identifier x) o (.identifier y),
          [Tok.lit "?", Tok.identifier v, Tok.lit ":", Tok.identifier w]),
        (Expr.ternary_expr (.bin_expr (.identifier x) o (.identifier y)) (.identifier v)
          (.identifier w), []),
        (Expr.bin_expr (.identifier x) o
          (.ternary_expr (.identifier y) (.identifier v) (.identifier w)), [])] := by
  intro n
  induction n with
  | zero =>
      intro e us hn
      have := Expr.yield_length_pos e
      omega
  | succ n ih =>
      intro e us hn h
      rcases Expr.yield_ident_cases e us x _ h (BinOp.bare_head3 o ho _) with
        ⟨rfl, rfl⟩ | ⟨l, op, r, rfl⟩ | ⟨c, a, b, rfl⟩
      · simp
      · rw [Expr.bin_yield_append] at h
        have h0 := ih l _ (Expr.bin_left_length l r op n hn) h
        simp only [List.mem_cons, Prod.mk.injEq, List.mem_singleton, List.not_mem_nil,
          or_false] at h0
        rcases h0 with ⟨rfl, h2⟩ | ⟨rfl, h2⟩ | ⟨rfl, h2⟩ | ⟨rfl, h2⟩
        · obtain ⟨rfl, h3⟩ := BinOp.toks_append_inv op o ho _ _ _ h2
          have h4 := Expr.inv_ternary y v w _ r us (le_refl _) h3
          simp only [List.mem_cons, Prod.mk.injEq, List.mem_singleton, List.not_mem_nil,
          or_false] at h4
          rcases h4 with ⟨rfl, rfl⟩ | ⟨rfl, rfl⟩ <;> simp
        · exact absurd rfl (BinOp.toks_head op _ _ _ h2).1
        · simp [BinOp.toks_ne_nil] at h2
        · simp [BinOp.toks_ne_nil] at h2
      · rw [Expr.ternary_yield_append] at h
        have h0 := ih c _ (Expr.ternary_left_length c a b n hn) h
        simp only [List.mem_cons, Prod.mk.injEq, List.mem_singleton, List.not_mem_nil,
          or_false] at h0
        rcases h0 with ⟨rfl, h2⟩ | ⟨rfl, h2⟩ | ⟨rfl, h2⟩ | ⟨rfl, h2⟩
        · exact absurd h2 (BinOp.bare_ne_qmark o ho _ _)
        · simp only [List.cons.injEq, true_and] at h2
          obtain ⟨rfl, h3⟩ := Expr.inv_colon v _ _ a _ (le_refl _) h2
          simp only [List.cons.injEq, true_and] at h3
          obtain ⟨rfl, rfl⟩ := Expr.inv1 w b us h3
          simp
        · simp at h2
        · simp at h2

/-! ### Conflict resolution -/

theorem resolve_shift_of_lt (r s : Prec) (h : r.value < s.value) : resolve r s = .shift := by
  unfold resolve
  rw [if_neg (not_lt.mpr (le_of_lt h)), if_pos h]

theorem resolve_reduce_of_gt (r s : Prec) (h : s.value < r.value) : resolve r s = .reduce := by
  unfold resolve
  rw [if_pos h]

theorem resolve_eq_left (r s : Prec) (h : r.value = s.value) (hl : r.assoc = .left) :
    resolve r s = .reduce := by
  unfold resolve
  rw [if_neg (by omega), if_neg (by omega), hl]

theorem resolve_eq_right (r s : Prec) (h : r.value = s.value) (hl : r.assoc = .right) :
    resolve r s = .shift := by
  unfold resolve
  rw [if_neg (by omega), if_neg (by omega), hl]

theorem BinOp.prec_assoc (op : BinOp) : op.prec.assoc = .left := by
  cases op <;> rfl

theorem BinOp.prec_value_pos (op : BinOp) : 0 < op.prec.value := by
  cases op <;> simp [BinOp.prec, PREC.and, PREC.or, PREC.multiplicative, PREC.additive,
    PREC.comparative]

/-- Every rule beginning at the left edge of a tree is shifted into after `:` of a
conditional: none of them has a precedence below `PREC.conditional`, and the conditional
is right-associative. -/
theorem Expr.shiftedInto_ternary : ∀ e : Expr, shiftedInto ternary_expr_prec e.leftOpen = true
  | .bin_expr l op r => by
      have h := Expr.shiftedInto_ternary l
      have h1 : resolve ternary_expr_prec op.prec = .shift :=
        resolve_shift_of_lt _ _ (lt_trans (by decide) (BinOp.prec_value_pos op))
      simp only [shiftedInto, List.all_eq_true, decide_eq_true_eq] at h ⊢
      intro q hq
      simp only [Expr.leftOpen, List.mem_cons] at hq
      rcases hq with rfl | hq
      · exact h1
      · exact h q hq
  | .ternary_expr c a b => by
      have h := Expr.shiftedInto_ternary c
      simp only [shiftedInto, List.all_eq_true, decide_eq_true_eq] at h ⊢
      intro q hq
      simp only [Expr.leftOpen, List.mem_cons] at hq
      rcases hq with rfl | hq
      · decide
      · exact h q hq
  | .identifier _ => rfl
  | .index_expr _ _ _ _ _ _ => rfl
  | .true_ => rfl
  | .false_ => rfl
  | .int_literal _ => rfl
  | .mem_access _ _ _ _ => rfl
  | .pack_expr _ _ _ _ _ => rfl
  | .cast_expr _ _ => rfl
  | .unary_expr _ _ => rfl
  | .parens_expr _ => rfl
  | .call_expr _ _ => rfl
  | .intrinsic_expr _ _ => rfl

/-- A `bin_expr` whose first operand is an unparenthesised `bin_expr` of a looser class is
not what the parser builds. -/
theorem Expr.bin_left_lower (o1 o2 : BinOp) (a b c : Expr) (h : o1.prec.value < o2.prec.value) :
    (Expr.bin_expr (.bin_expr a o1 b) o2 c).conflictFree = false := by
  have h1 := resolve_shift_of_lt _ _ h
  simp [Expr.conflictFree, Expr.rightOpen, reducedBefore, h1]

/-- A `bin_expr` whose last operand is an unparenthesised `bin_expr` of a looser or of the
same class is not what the parser builds. -/
theorem Expr.bin_right_lower (o1 o2 : BinOp) (a b c : Expr) (h : o1.prec.value ≤ o2.prec.value) :
    (Expr.bin_expr a o2 (.bin_expr b o1 c)).conflictFree = false := by
  have h1 : resolve o2.prec o1.prec = .reduce := by
    rcases lt_or_eq_of_le h with h | h
    · exact resolve_reduce_of_gt _ _ h
    · exact resolve_eq_left _ _ h.symm (BinOp.prec_assoc o2)
  simp [Expr.conflictFree, Expr.leftOpen, shiftedInto, h1]

/-! ### C3: binary operators -/

/-- C3: every alternative of `bin_expr` is left-associative and carries the precedence of
its operator class, the classes being ordered multiplicative (`* / % << >> >>r <<r >>s <<s
>>u &`) above additive (`+ - | ^`) above comparative above `&&` above `||`.  Hence, for two
operators of different classes, the conflict between them is resolved for the higher class
whichever comes first, and a tree in which the looser operator is an unparenthesised operand
of the tighter one is never built; for two operators of the same class the earlier one is
reduced first (grouping to the left).  For identifiers as operands, `x o1 y o2 z` has exactly
one parse the parser builds: `x o1 (y o2 z)` if `o2` is of a higher class, `(x o1 y) o2 z`
otherwise; in particular `a + b * c` is `a + (b * c)`, and the only parse of
`a < b && c < d` is the `&&` of the two comparisons. -/
theorem C3_bin_expr_precedence :
    (∀ op : BinOp, op.prec.assoc = Assoc.left) ∧
    (∀ i c, (BinOp.mult i c).prec.value = PREC.multiplicative) ∧
    (∀ i c, (BinOp.add i c).prec.value = PREC.additive) ∧
    (∀ i c, (BinOp.comp i c).prec.value = PREC.comparative) ∧
    BinOp.and.prec.value = PREC.and ∧ BinOp.or.prec.value = PREC.or ∧
    multiplicativeOperators =
      ["*", "/", "%", "<<", ">>", ">>r", "<<r", ">>s", "<<s", ">>u", "&"] ∧
    additiveOperators = ["+", "-", "|", "^"] ∧
    (PREC.additive < PREC.multiplicative ∧ PREC.comparative < PREC.additive ∧
      PREC.and < PREC.comparative ∧ PREC.or < PREC.and) ∧
    (∀ o1 o2 : BinOp, o1.prec.value < o2.prec.value →
      resolve o1.prec o2.prec = .shift ∧ resolve o2.prec o1.prec = .reduce ∧
      ∀ a b c : Expr, (Expr.bin_expr (.bin_expr a o1 b) o2 c).conflictFree = false ∧
        (Expr.bin_expr a o2 (.bin_expr b o1 c)).conflictFree = false) ∧
    (∀ o1 o2 : BinOp, o1.prec.value = o2.prec.value →
      resolve o1.prec o2.prec = .reduce ∧
      ∀ a b c : Expr, (Expr.bin_expr a o1 (.bin_expr b o2 c)).conflictFree = false) ∧
    (∀ (o1 o2 : BinOp) (x y z : String) (e : Expr),
      o1.toks.length = 1 → o2.toks.length = 1 →
      ((e.yield = Tok.identifier x :: (o1.toks ++ Tok.identifier y ::
          (o2.toks ++ [Tok.identifier z])) ∧ e.conflictFree = true) ↔
        e = (if o1.prec.value < o2.prec.value
          then Expr.bin_expr (.identifier x) o1 (.bin_expr (.identifier y) o2 (.identifier z))
          else Expr.bin_expr (.bin_expr (.identifier x) o1 (.identifier y)) o2
            (.identifier z)))) ∧
    (∀ (a b c : String) (e : Expr),
      (e.yield = [Tok.identifier a, Tok.lit "+", Tok.identifier b, Tok.lit "*",
          Tok.identifier c] ∧ e.conflictFree = true) ↔
        e = .bin_expr (.identifier a) .plus (.bin_expr (.identifier b) .times (.identifier c))) ∧
    (∀ (a b c d : String) (e : Expr),
      (e.yield = [Tok.identifier a, Tok.lit "<", Tok.identifier b, Tok.lit "&&",
          Tok.identifier c, Tok.lit "<", Tok.identifier d] ∧ e.conflictFree = true) ↔
        e = .bin_expr (.bin_expr (.identifier a) .lt (.identifier b)) .and
          (.bin_expr (.identifier c) .lt (.identifier d))) := by
  have key : ∀ (o1 o2 : BinOp) (x y z : String) (e : Expr),
      o1.toks.length = 1 → o2.toks.length = 1 →
      ((e.yield = Tok.identifier x :: (o1.toks ++ Tok.identifier y ::
          (o2.toks ++ [Tok.identifier z])) ∧ e.conflictFree = true) ↔
        e = (if o1.prec.value < o2.prec.value
          then Expr.bin_expr (.identifier x) o1 (.bin_expr (.identifier y) o2 (.identifier z))
          else Expr.bin_expr (.bin_expr (.identifier x) o1 (.identifier y)) o2
            (.identifier z))) := by
    intro o1 o2 x y z e ho1 ho2
    by_cases hlt : o1.prec.value < o2.prec.value
    · rw [if_pos hlt]
      constructor
      · rintro ⟨hy, hcf⟩
        have h := Expr.inv5 x y z o1 o2 ho1 ho2 _ e [] (le_refl _) (by simpa using hy)
        simp only [List.mem_cons, Prod.mk.injEq, List.mem_singleton, List.not_mem_nil,
          or_false] at h
        rcases h with ⟨_, h⟩ | ⟨_, h⟩ | ⟨rfl, _⟩ | ⟨rfl, _⟩
        · simp at h
        · simp at h
        · rfl
        · rw [Expr.bin_left_lower o1 o2 _ _ _ hlt] at hcf
          cases hcf
      · rintro rfl
        refine ⟨by simp [Expr.yield], ?_⟩
        simp [Expr.conflictFree, Expr.rightOpen, Expr.leftOpen, reducedBefore, shiftedInto,
          resolve_shift_of_lt _ _ hlt]
    · rw [if_neg hlt]
      have hle : o2.prec.value ≤ o1.prec.value := not_lt.mp hlt
      constructor
      · rintro ⟨hy, hcf⟩
        have h := Expr.inv5 x y z o1 o2 ho1 ho2 _ e [] (le_refl _) (by simpa using hy)
        simp only [List.mem_cons, Prod.mk.injEq, List.mem_singleton, List.not_mem_nil,
          or_false] at h
        rcases h with ⟨_, h⟩ | ⟨_, h⟩ | ⟨rfl, _⟩ | ⟨rfl, _⟩
        · simp at h
        · simp at h
        · rw [Expr.bin_right_lower o2 o1 _ _ _ hle] at hcf
          cases hcf
        · rfl
      · rintro rfl
        refine ⟨by simp [Expr.yield], ?_⟩
        have h1 : resolve o1.prec o2.prec = .reduce := by
          rcases lt_or_eq_of_le hle with h | h
          · exact resolve_reduce_of_gt _ _ h
          · exact resolve_eq_left _ _ h.symm (BinOp.prec_assoc o1)
        simp [Expr.conflictFree, Expr.rightOpen, Expr.leftOpen, reducedBefore, shiftedInto, h1]
  refine ⟨BinOp.prec_assoc, fun _ _ => rfl, fun _ _ => rfl, fun _ _ => rfl, rfl, rfl, rfl, rfl,
    by decide, ?_, ?_, key, ?_, ?_⟩
  · intro o1 o2 h
    exact ⟨resolve_shift_of_lt _ _ h, resolve_reduce_of_gt _ _ h, fun a b c =>
      ⟨Expr.bin_left_lower o1 o2 a b c h, Expr.bin_right_lower o1 o2 a b c (le_of_lt h)⟩⟩
  · intro o1 o2 h
    exact ⟨resolve_eq_left _ _ h (BinOp.prec_assoc o1), fun a b c =>
      Expr.bin_right_lower o2 o1 a b c (le_of_eq h.symm)⟩
  · intro a b c e
    have := key .plus .times a b c e rfl rfl
    simpa [BinOp.plus, BinOp.times, BinOp.toks, BinOp.prec, additiveOperators,
      multiplicativeOperators, optCastop, PREC.additive, PREC.multiplicative] using this
  · intro a b c d e
    constructor
    · rintro ⟨hy, hcf⟩
      have h := Expr.inv7 a b c d .lt .and .lt rfl rfl rfl _ e [] (le_refl _)
        (by simpa [BinOp.lt, BinOp.toks, comparativeOperators, optCastop] using hy)
      simp only [List.mem_cons, Prod.mk.injEq, List.mem_singleton, List.not_mem_nil,
        or_false] at h
      rcases h with ⟨_, h⟩ | ⟨_, h⟩ | ⟨_, h⟩ | ⟨_, h⟩ | ⟨rfl, _⟩ | ⟨rfl, _⟩ | ⟨rfl, _⟩ |
        ⟨rfl, _⟩ | ⟨rfl, _⟩
      · simp [BinOp.lt, BinOp.toks] at h
      · simp [BinOp.toks] at h
      · simp [BinOp.lt, BinOp.toks] at h
      · simp [BinOp.lt, BinOp.toks] at h
      · exact absurd hcf (Bool.false_ne_true)
      · exact absurd hcf (Bool.false_ne_true)
      · rfl
      · exact absurd hcf (Bool.false_ne_true)
      · exact absurd hcf (Bool.false_ne_true)
    · rintro rfl
      exact ⟨rfl, rfl⟩

/-! ### C4: the conditional -/

theorem resolve_ternary_ternary : resolve ternary_expr_prec ternary_expr_prec = .shift := by
  decide

theorem BinOp.resolve_ternary (op : BinOp) : resolve op.prec ternary_expr_prec = .reduce :=
  resolve_reduce_of_gt _ _ (lt_trans (by decide) (BinOp.prec_value_pos op))

/-- The last operand of a conditional puts no condition on the conditional. -/
theorem Expr.ternary_conflictFree (c a b : Expr) :
    (Expr.ternary_expr c a b).conflictFree =
      (c.conflictFree && a.conflictFree && b.conflictFree &&
        reducedBefore c.rightOpen ternary_expr_prec) := by
  show (c.conflictFree && a.conflictFree && b.conflictFree &&
    reducedBefore c.rightOpen ternary_expr_prec && shiftedInto ternary_expr_prec b.leftOpen) = _
  rw [Expr.shiftedInto_ternary, Bool.and_true]

/-- A conditional whose condition is an unparenthesised conditional is never built. -/
theorem Expr.ternary_left_nested (a b c d e : Expr) :
    (Expr.ternary_expr (.ternary_expr a b c) d e).conflictFree = false := by
  simp [Expr.conflictFree, Expr.rightOpen, reducedBefore, resolve_ternary_ternary]

/-- A binary operator whose last operand is an unparenthesised conditional is never built. -/
theorem Expr.bin_right_ternary (op : BinOp) (a b c d : Expr) :
    (Expr.bin_expr a op (.ternary_expr b c d)).conflictFree = false := by
  simp [Expr.conflictFree, Expr.leftOpen, shiftedInto, BinOp.resolve_ternary]

/-- C4: `ternary_expr` is right-associative with precedence `PREC.conditional`, strictly
below every alternative of `bin_expr`, below `unary_expr`, `_peop1` and `cast_expr`, and
strictly above `assign`.  Hence a conditional met after the alternative of another
conditional is shifted into: for all expressions `a b c d e`, the left-nested tree
`(a ? b : c) ? d : e` is never built without parentheses, while nesting in the alternative,
`a ? b : (c ? d : e)`, puts no condition on the two conditionals; and a conditional is never
the unparenthesised last operand of a binary or unary operator or of a cast, so that in
`a op b ? c : d` the condition is the whole `a op b`.  For identifiers as operands,
`a ? b : c ? d : e` has exactly one parse the parser builds, `a ? b : (c ? d : e)`, and
`a || b ? c : d` exactly one, the conditional on `a || b`. -/
theorem C4_ternary_precedence :
    ternary_expr_prec.assoc = Assoc.right ∧
    ternary_expr_prec.value = PREC.conditional ∧
    (∀ op : BinOp, ternary_expr_prec.value < op.prec.value) ∧
    ternary_expr_prec.value < unary_expr_prec.value ∧
    ternary_expr_prec.value < peop1_prec.value ∧
    ternary_expr_prec.value < cast_expr_prec.value ∧
    assign_prec.value < ternary_expr_prec.value ∧
    resolve ternary_expr_prec ternary_expr_prec = .shift ∧
    (∀ a b c d e : Expr,
      (Expr.ternary_expr (.ternary_expr a b c) d e).conflictFree = false) ∧
    (∀ a b c d e : Expr,
      (Expr.ternary_expr a b (.ternary_expr c d e)).conflictFree =
        (a.conflictFree && b.conflictFree && (Expr.ternary_expr c d e).conflictFree &&
          reducedBefore a.rightOpen ternary_expr_prec)) ∧
    (∀ (v1 v2 v3 v4 v5 : String) (t : Expr),
      (t.yield = [Tok.identifier v1, Tok.lit "?", Tok.identifier v2, Tok.lit ":",
          Tok.identifier v3, Tok.lit "?", Tok.identifier v4, Tok.lit ":", Tok.identifier v5] ∧
        t.conflictFree = true) ↔
      t = .ternary_expr (.identifier v1) (.identifier v2)
        (.ternary_expr (.identifier v3) (.identifier v4) (.identifier v5))) ∧
    (∀ (op : BinOp) (a b c d : Expr),
      resolve op.prec ternary_expr_prec = .reduce ∧
      (Expr.bin_expr a op (.ternary_expr b c d)).conflictFree = false) ∧
    (∀ (op : Peop1) (b c d : Expr),
      (Expr.unary_expr op (.ternary_expr b c d)).conflictFree = false) ∧
    (∀ (ty : CastType) (b c d : Expr),
      (Expr.cast_expr ty (.ternary_expr b c d)).conflictFree = false) ∧
    (∀ (o : BinOp) (x y v w : String) (t : Expr), o.toks.length = 1 →
      ((t.yield = Tok.identifier x :: (o.toks ++ [Tok.identifier y, Tok.lit "?",
          Tok.identifier v, Tok.lit ":", Tok.identifier w]) ∧ t.conflictFree = true) ↔
        t = .ternary_expr (.bin_expr (.identifier x) o (.identifier y)) (.identifier v)
          (.identifier w))) ∧
    (∀ (a b c d : String) (t : Expr),
      (t.yield = [Tok.identifier a, Tok.lit "||", Tok.identifier b, Tok.lit "?",
          Tok.identifier c, Tok.lit ":", Tok.identifier d] ∧ t.conflictFree = true) ↔
        t = .ternary_expr (.bin_expr (.identifier a) .or (.identifier b)) (.identifier c)
          (.identifier d)) := by
  have key : ∀ (o : BinOp) (x y v w : String) (t : Expr), o.toks.length = 1 →
      ((t.yield = Tok.identifier x :: (o.toks ++ [Tok.identifier y, Tok.lit "?",
          Tok.identifier v, Tok.lit ":", Tok.identifier w]) ∧ t.conflictFree = true) ↔
        t = .ternary_expr (.bin_expr (.identifier x) o (.identifier y)) (.identifier v)
          (.identifier w)) := by
    intro o x y v w t ho
    constructor
    · rintro ⟨hy, hcf⟩
      have h := Expr.inv_bin_ternary x y v w o ho _ t [] (le_refl _) (by simpa using hy)
      simp only [List.mem_cons, Prod.mk.injEq, List.mem_singleton, List.not_mem_nil,
        or_false] at h
      rcases h with ⟨_, h⟩ | ⟨_, h⟩ | ⟨rfl, _⟩ | ⟨rfl, _⟩
      · simp at h
      · simp at h
      · rfl
      · rw [Expr.bin_right_ternary] at hcf
        cases hcf
    · rintro rfl
      refine ⟨by simp [Expr.yield], ?_⟩
      simp [Expr.conflictFree, Expr.rightOpen, Expr.leftOpen, reducedBefore, shiftedInto,
        BinOp.resolve_ternary]
  refine ⟨rfl, rfl, fun op => lt_trans (by decide) (BinOp.prec_value_pos op), by decide,
    by decide, by decide, by decide, resolve_ternary_ternary, Expr.ternary_left_nested,
    fun a b c d e => Expr.ternary_conflictFree a b _, ?_, ?_, ?_, ?_, key, ?_⟩
  · intro v1 v2 v3 v4 v5 t
    constructor
    · rintro ⟨hy, hcf⟩
      have h := Expr.inv_ternary2 v1 v2 v3 v4 v5 _ t [] (le_refl _) (by simpa using hy)
      simp only [List.mem_cons, Prod.mk.injEq, List.mem_singleton, List.not_mem_nil,
        or_false] at h
      rcases h with ⟨_, h⟩ | ⟨_, h⟩ | ⟨rfl, _⟩ | ⟨rfl, _⟩
      · simp at h
      · simp at h
      · rfl
      · rw [Expr.ternary_left_nested] at hcf
        cases hcf
    · rintro rfl
      exact ⟨rfl, rfl⟩
  · intro op a b c d
    exact ⟨BinOp.resolve_ternary op, Expr.bin_right_ternary op a b c d⟩
  · intro op b c d
    have h : resolve unary_expr_prec ternary_expr_prec = .reduce := by decide
    simp [Expr.conflictFree, Expr.leftOpen, shiftedInto, h]
  · intro ty b c d
    have h : resolve cast_expr_prec ternary_expr_prec = .reduce := by decide
    simp [Expr.conflictFree, Expr.leftOpen, shiftedInto, h]
  · intro a b c d t
    have := key .or a b c d t rfl
    simpa [BinOp.toks] using this

/-! ### C5: the intrinsic call -/

/-- C5 (evaluation of the code): the wrapper of `intrinsic_expr` is
`prec.left(PREC.call, _)`, so its precedence is 15, the precedence of `call_expr`: it is
not below `PREC.access` (8).  The level `PREC.intrinsicary` (7) that the table declares
strictly between `PREC.unary` (6) and `PREC.access` (8) is the precedence of no rule. -/
theorem C5_intrinsic_expr_prec :
    intrinsic_expr_prec.value = PREC.call ∧
    intrinsic_expr_prec = call_expr_prec ∧
    ¬ (intrinsic_expr_prec.value < PREC.access) ∧
    ¬ (intrinsic_expr_prec.value < PREC.call) ∧
    (PREC.unary < PREC.intrinsicary ∧ PREC.intrinsicary < PREC.access ∧
      PREC.intrinsicary < PREC.call) ∧
    intrinsic_expr_prec.value ≠ PREC.intrinsicary ∧
    (∀ e : Expr, e.prec.value ≠ PREC.intrinsicary) ∧
    (∀ (f : String) (args : Args), (Expr.intrinsic_expr f args).prec.value = 15) := by
  refine ⟨rfl, rfl, by decide, by decide, by decide, by decide, ?_, fun _ _ => rfl⟩
  intro e
  cases e with
  | bin_expr l op r => cases op <;> simp [Expr.prec, BinOp.prec, PREC.intrinsicary, PREC.and,
      PREC.or, PREC.multiplicative, PREC.additive, PREC.comparative]
  | _ => simp [Expr.prec, PREC.intrinsicary, PREC.access, PREC.unary, PREC.call,
      PREC.conditional, index_expr_prec, mem_access_prec, cast_expr_prec, unary_expr_prec,
      call_expr_prec, intrinsic_expr_prec, ternary_expr_prec]

/-! ### Patterns: the matcher decides the language -/

namespace Rx

theorem not_matches_never (s : List Char) : ¬ never.Matches s := by
  simp [never, Matches]

theorem nullable_iff : ∀ r : Rx, r.nullable = true ↔ r.Matches []
  | .blank => by simp [nullable, Matches]
  | .cls p => by simp [nullable, Matches]
  | .seq a b => by
      simp only [nullable, Matches, Bool.and_eq_true, nullable_iff a, nullable_iff b]
      constructor
      · rintro ⟨ha, hb⟩
        exact ⟨[], [], rfl, ha, hb⟩
      · rintro ⟨u, v, huv, ha, hb⟩
        have h := List.append_eq_nil.mp huv.symm
        rw [h.1] at ha
        rw [h.2] at hb
        exact ⟨ha, hb⟩
  | .choice a b => by
      simp only [nullable, Matches, Bool.or_eq_true, nullable_iff a, nullable_iff b]
  | .repeat_ a => by
      simp only [nullable, Matches, true_iff]
      exact ⟨[], rfl, by simp⟩

/-- Peeling the first character off a repetition. -/
theorem matches_repeat_cons (a : Rx) (c : Char) (s : List Char) :
    (Rx.repeat_ a).Matches (c :: s) ↔
      ∃ u v, s = u ++ v ∧ a.Matches (c :: u) ∧ (Rx.repeat_ a).Matches v := by
  constructor
  · rintro ⟨ps, hs, hps⟩
    induction ps with
    | nil => simp at hs
    | cons p ps ih =>
        cases p with
        | nil =>
            apply ih
            · simpa using hs
            · intro q hq
              exact hps q (List.mem_cons_of_mem _ hq)
        | cons d u =>
            simp only [List.flatten_cons, List.cons_append, List.cons.injEq] at hs
            refine ⟨u, ps.flatten, hs.2, ?_, ps, rfl, ?_⟩
            · rw [hs.1]
              exact hps _ (List.mem_cons_self _ _)
            · intro q hq
              exact hps q (List.mem_cons_of_mem _ hq)
  · rintro ⟨u, v, rfl, hu, ps, rfl, hps⟩
    refine ⟨(c :: u) :: ps, by simp, ?_⟩
    intro q hq
    rcases List.mem_cons.mp hq with rfl | hq
    · exact hu
    · exact hps q hq

theorem deriv_iff (c : Char) : ∀ (r : Rx) (s : List Char),
    (r.deriv c).Matches s ↔ r.Matches (c :: s)
  | .blank, s => by simp [deriv, Matches, never]
  | .cls p, s => by
      by_cases hp : p c = true
      · simp only [deriv, hp, if_true, Matches]
        constructor
        · rintro rfl
          exact ⟨c, rfl, hp⟩
        · rintro ⟨d, hd, _⟩
          simp only [List.cons.injEq] at hd
          exact hd.2
      · simp only [deriv, hp, Bool.false_eq_true, if_false]
        constructor
        · intro h
          exact absurd h (not_matches_never s)
        · rintro ⟨d, hd, hpd⟩
          simp only [List.cons.injEq] at hd
          rw [← hd.1] at hpd
          exact absurd hpd hp
  | .seq a b, s => by
      have key : (Rx.seq a b).Matches (c :: s) ↔
          (∃ u v, s = u ++ v ∧ a.Matches (c :: u) ∧ b.Matches v) ∨
            (a.Matches [] ∧ b.Matches (c :: s)) := by
        constructor
        · rintro ⟨u, v, huv, ha, hb⟩
          cases u with
          | nil =>
              right
              simp only [List.nil_append] at huv
              rw [huv]
              exact ⟨ha, hb⟩
          | cons d u =>
              left
              simp only [List.cons_append, List.cons.injEq] at huv
              refine ⟨u, v, huv.2, ?_, hb⟩
              rw [huv.1]
              exact ha
        · rintro (⟨u, v, rfl, ha, hb⟩ | ⟨ha, hb⟩)
          · exact ⟨c :: u, v, rfl, ha, hb⟩
          · exact ⟨[], c :: s, rfl, ha, hb⟩
      rw [key]
      by_cases hn : a.nullable = true
      · simp only [deriv, hn, if_true, Matches, deriv_iff c a, deriv_iff c b]
        rw [← nullable_iff a]
        simp [hn]
      · simp only [deriv, hn, Bool.false_eq_true, if_false, Matches, deriv_iff c a]
        rw [← nullable_iff a]
        simp [hn]
  | .choice a b, s => by
      simp only [deriv, Matches, deriv_iff c a, deriv_iff c b]
  | .repeat_ a, s => by
      rw [matches_repeat_cons]
      simp only [deriv, Matches, deriv_iff c a]

/-- The matcher accepts exactly the strings of the pattern's language. -/
theorem accepts_iff (r : Rx) (s : List Char) : r.accepts s = true ↔ r.Matches s := by
  induction s generalizing r with
  | nil => exact nullable_iff r
  | cons c s ih => rw [accepts, ih, deriv_iff]

end Rx

/-! ### Patterns: shapes -/

namespace Rx

theorem matches_chr (c : Char) (s : List Char) : (chr c).Matches s ↔ s = [c] := by
  simp only [chr, Matches, beq_iff_eq]
  constructor
  · rintro ⟨d, rfl, rfl⟩
    rfl
  · rintro rfl
    exact ⟨c, rfl, rfl⟩

theorem matches_optional (a : Rx) (s : List Char) :
    (optional a).Matches s ↔ a.Matches s ∨ s = [] := by
  simp only [optional, Matches]

theorem matches_seq_cls (p : Char → Bool) (b : Rx) (s : List Char) :
    (Rx.seq (.cls p) b).Matches s ↔ ∃ c t, s = c :: t ∧ p c = true ∧ b.Matches t := by
  simp only [Matches]
  constructor
  · rintro ⟨u, v, rfl, ⟨c, rfl, hc⟩, hv⟩
    exact ⟨c, v, rfl, hc, hv⟩
  · rintro ⟨c, t, rfl, hc, ht⟩
    exact ⟨[c], t, rfl, ⟨c, rfl, hc⟩, ht⟩

theorem matches_seq_chr (c : Char) (b : Rx) (s : List Char) :
    (Rx.seq (chr c) b).Matches s ↔ ∃ t, s = c :: t ∧ b.Matches t := by
  rw [chr, matches_seq_cls]
  simp only [beq_iff_eq]
  constructor
  · rintro ⟨d, t, rfl, rfl, ht⟩
    exact ⟨t, rfl, ht⟩
  · rintro ⟨t, rfl, ht⟩
    exact ⟨c, t, rfl, rfl, ht⟩

/-- A repetition of a character class matches the strings all of whose characters are in
the class. -/
theorem matches_repeat_cls (p : Char → Bool) (s : List Char) :
    (Rx.repeat_ (.cls p)).Matches s ↔ ∀ c ∈ s, p c = true := by
  induction s with
  | nil =>
      simp only [List.not_mem_nil, false_implies, implies_true, iff_true]
      exact ⟨[], rfl, by simp⟩
  | cons c s ih =>
      rw [matches_repeat_cons]
      constructor
      · rintro ⟨u, v, rfl, ⟨d, hd, hp⟩, hv⟩
        simp only [List.cons.injEq] at hd
        obtain ⟨rfl, rfl⟩ := hd
        intro e he
        rcases List.mem_cons.mp he with rfl | he
        · exact hp
        · exact ih.mp hv e (by simpa using he)
      · intro h
        refine ⟨[], s, rfl, ⟨c, rfl, h c (List.mem_cons_self _ _)⟩, ih.mpr ?_⟩
        intro e he
        exact h e (List.mem_cons_of_mem _ he)

/-- The bounded repetition `{n}` of a character class matches the strings of length `n` all
of whose characters are in the class. -/
theorem matches_exactly_cls (p : Char → Bool) : ∀ (n : Nat) (s : List Char),
    (exactly n (.cls p)).Matches s ↔ s.length = n ∧ ∀ c ∈ s, p c = true
  | 0, s => by
      simp only [exactly, Matches, List.length_eq_zero]
      constructor
      · rintro rfl
        simp
      · exact fun h => h.1
  | n + 1, s => by
      rw [exactly, matches_seq_cls]
      constructor
      · rintro ⟨c, t, rfl, hc, ht⟩
        obtain ⟨hl, hall⟩ := (matches_exactly_cls p n t).mp ht
        refine ⟨by simp [hl], ?_⟩
        intro e he
        rcases List.mem_cons.mp he with rfl | he
        · exact hc
        · exact hall e he
      · rintro ⟨hl, hall⟩
        cases s with
        | nil => simp at hl
        | cons c t =>
            refine ⟨c, t, rfl, hall c (List.mem_cons_self _ _), ?_⟩
            apply (matches_exactly_cls p n t).mpr
            exact ⟨by simpa using hl, fun e he => hall e (List.mem_cons_of_mem _ he)⟩

end Rx

/-! ### Digit groups -/

theorem sepTail_true_cons (d : Char → Bool) (c : Char) (t : List Char) :
    sepTail d true (c :: t) = (decide (c ≠ '_') && d c && sepTail d false t) := by
  by_cases h : c = '_'
  · simp [sepTail, h]
  · simp [sepTail, h]

theorem sepTail_false_underscore (d : Char → Bool) (t : List Char) :
    sepTail d false ('_' :: t) = sepTail d true t := by
  simp [sepTail]

theorem sepTail_digit (d : Char → Bool) (hd : d '_' = false) (u : Bool) (c : Char)
    (t : List Char) (hc : d c = true) : sepTail d u (c :: t) = sepTail d false t := by
  have h : c ≠ '_' := by
    rintro rfl
    rw [hd] at hc
    cases hc
  simp [sepTail, h, hc]

/-- The pieces of `repeat(seq(optional("_"), digit))`. -/
theorem matches_group (d : Char → Bool) (p : List Char) :
    (Rx.seq (Rx.optional (Rx.chr '_')) (.cls d)).Matches p ↔
      ∃ c, d c = true ∧ (p = [c] ∨ p = ['_', c]) := by
  simp only [Rx.Matches, Rx.optional, Rx.chr, beq_iff_eq]
  constructor
  · rintro ⟨u, v, rfl, (⟨x, rfl, rfl⟩ | rfl), ⟨c, rfl, hc⟩⟩
    · exact ⟨c, hc, Or.inr rfl⟩
    · exact ⟨c, hc, Or.inl rfl⟩
  · rintro ⟨c, hc, (rfl | rfl)⟩
    · exact ⟨[], [c], rfl, Or.inr rfl, ⟨c, rfl, hc⟩⟩
    · exact ⟨['_'], [c], rfl, Or.inl ⟨'_', rfl, rfl⟩, ⟨c, rfl, hc⟩⟩

/-- The pattern `repeat(seq(optional("_"), digit))` accepts what `sepTail` recognises. -/
theorem matches_sepTail (d : Char → Bool) (hd : d '_' = false) (s : List Char) :
    (Rx.repeat_ (Rx.seq (Rx.optional (Rx.chr '_')) (.cls d))).Matches s ↔
      sepTail d false s = true := by
  constructor
  · rintro ⟨ps, rfl, hps⟩
    induction ps with
    | nil => rfl
    | cons p ps ih =>
        have ih1 := ih (fun q hq => hps q (List.mem_cons_of_mem _ hq))
        obtain ⟨c, hc, (rfl | rfl)⟩ := (matches_group d p).mp (hps p (List.mem_cons_self _ _))
        · simpa [sepTail_digit d hd false c _ hc] using ih1
        · simp only [List.flatten_cons, List.cons_append, List.nil_append]
          rw [sepTail_false_underscore, sepTail_digit d hd true c _ hc]
          exact ih1
  · intro h
    have key : ∀ (n : Nat) (s : List Char), s.length ≤ n → sepTail d false s = true →
        (Rx.repeat_ (Rx.seq (Rx.optional (Rx.chr '_')) (.cls d))).Matches s := by
      intro n
      induction n with
      | zero =>
          intro s hs _
          have : s = [] := List.length_eq_zero.mp (Nat.le_zero.mp hs)
          subst this
          exact ⟨[], rfl, by simp⟩
      | succ n ih =>
          intro s hs h
          cases s with
          | nil => exact ⟨[], rfl, by simp⟩
          | cons c t =>
              by_cases hc : c = '_'
              · subst hc
                rw [sepTail_false_underscore] at h
                cases t with
                | nil => simp [sepTail] at h
                | cons c1 t1 =>
                    rw [sepTail_true_cons] at h
                    simp only [Bool.and_eq_true, decide_eq_true_eq] at h
                    simp only [List.length_cons] at hs
                    obtain ⟨ps, hps, hall⟩ := ih t1 (by omega) h.2
                    refine ⟨['_', c1] :: ps, by simp [hps], ?_⟩
                    intro q hq
                    rcases List.mem_cons.mp hq with rfl | hq
                    · exact (matches_group d _).mpr ⟨c1, h.1.2, Or.inr rfl⟩
                    · exact hall q hq
              · simp only [sepTail, hc, if_false, Bool.and_eq_true] at h
                simp only [List.length_cons] at hs
                obtain ⟨ps, hps, hall⟩ := ih t (by omega) h.2
                refine ⟨[c] :: ps, by simp [hps], ?_⟩
                intro q hq
                rcases List.mem_cons.mp hq with rfl | hq
                · exact (matches_group d _).mpr ⟨c, h.1, Or.inl rfl⟩
                · exact hall q hq
    exact key s.length s (le_refl _) h

theorem matches_digitsOf (d : Char → Bool) (hd : d '_' = false) (s : List Char) :
    (digitsOf (.cls d)).Matches s ↔ ∃ c t, s = c :: t ∧ d c = true ∧ sepTail d false t = true := by
  rw [digitsOf, Rx.matches_seq_cls]
  simp only [matches_sepTail d hd]

/-- The pattern `seq(optional("_"), digits)` accepts what `sepDigits` recognises. -/
theorem matches_sepDigits (d : Char → Bool) (hd : d '_' = false) (s : List Char) :
    (Rx.seq (Rx.optional (Rx.chr '_')) (digitsOf (.cls d))).Matches s ↔
      sepDigits d s = true := by
  simp only [Rx.Matches, Rx.optional, sepDigits, Bool.and_eq_true, Bool.not_eq_true',
    List.isEmpty_eq_false]
  constructor
  · rintro ⟨u, v, rfl, hu, hv⟩
    obtain ⟨c, t, rfl, hc, ht⟩ := (matches_digitsOf d hd v).mp hv
    rcases hu with hu | rfl
    · rw [(Rx.matches_chr '_' u).mp hu]
      refine ⟨by simp, ?_⟩
      simp only [List.cons_append, List.nil_append]
      rw [sepTail_false_underscore, sepTail_digit d hd true c t hc]
      exact ht
    · refine ⟨by simp, ?_⟩
      simp only [List.nil_append]
      rw [sepTail_digit d hd false c t hc]
      exact ht
  · rintro ⟨hne, h⟩
    cases s with
    | nil => simp at hne
    | cons c t =>
        by_cases hc : c = '_'
        · subst hc
          rw [sepTail_false_underscore] at h
          cases t with
          | nil => simp [sepTail] at h
          | cons c1 t1 =>
              rw [sepTail_true_cons] at h
              simp only [Bool.and_eq_true, decide_eq_true_eq] at h
              exact ⟨['_'], c1 :: t1, rfl, Or.inl ((Rx.matches_chr _ _).mpr rfl),
                (matches_digitsOf d hd _).mpr ⟨c1, t1, rfl, h.1.2, h.2⟩⟩
        · simp only [sepTail, hc, if_false, Bool.and_eq_true] at h
          exact ⟨[], c :: t, rfl, Or.inr rfl, (matches_digitsOf d hd _).mpr ⟨c, t, rfl, h.1, h.2⟩⟩

theorem isHexDigit_underscore : isHexDigit '_' = false := by decide
theorem isOctalDigit_underscore : isOctalDigit '_' = false := by decide
theorem isDecimalDigit_underscore : isDecimalDigit '_' = false := by decide
theorem isBinaryDigit_underscore : isBinaryDigit '_' = false := by decide

/-- The shape of `hexLiteral` and of `binaryLiteral`. -/
theorem accepts_prefixed (lo up : Char) (d : Char → Bool) (hd : d '_' = false) (s : List Char) :
    (Rx.seq (Rx.chr '0') (.seq (.choice (Rx.chr lo) (Rx.chr up))
      (.seq (Rx.optional (Rx.chr '_')) (digitsOf (.cls d))))).accepts s =
      isPrefixedLiteral lo up d s := by
  rw [Bool.eq_iff_iff, Rx.accepts_iff, Rx.matches_seq_chr]
  constructor
  · rintro ⟨t, rfl, u, v, rfl, hu, hv⟩
    rw [matches_sepDigits d hd] at hv
    rcases hu with hu | hu
    · rw [(Rx.matches_chr _ _).mp hu]
      simp [isPrefixedLiteral, hv]
    · rw [(Rx.matches_chr _ _).mp hu]
      simp [isPrefixedLiteral, hv]
  · intro h
    cases s with
    | nil => simp [isPrefixedLiteral] at h
    | cons c s1 =>
        cases s1 with
        | nil => simp [isPrefixedLiteral] at h
        | cons x t =>
            simp only [isPrefixedLiteral, Bool.and_eq_true, Bool.or_eq_true, beq_iff_eq] at h
            obtain ⟨⟨rfl, hx⟩, ht⟩ := h
            refine ⟨x :: t, rfl, [x], t, rfl, ?_, (matches_sepDigits d hd t).mpr ht⟩
            rcases hx with rfl | rfl
            · exact Or.inl ((Rx.matches_chr _ _).mpr rfl)
            · exact Or.inr ((Rx.matches_chr _ _).mpr rfl)

theorem accepts_hexLiteral (s : List Char) :
    hexLiteral.accepts s = isPrefixedLiteral 'x' 'X' isHexDigit s :=
  accepts_prefixed 'x' 'X' isHexDigit isHexDigit_underscore s

theorem accepts_binaryLiteral (s : List Char) :
    binaryLiteral.accepts s = isPrefixedLiteral 'b' 'B' isBinaryDigit s :=
  accepts_prefixed 'b' 'B' isBinaryDigit isBinaryDigit_underscore s

theorem accepts_octalLiteral (s : List Char) : octalLiteral.accepts s = isOctalLiteral s := by
  rw [Bool.eq_iff_iff, Rx.accepts_iff, octalLiteral, Rx.matches_seq_chr]
  constructor
  · rintro ⟨t, rfl, u, v, rfl, hu, hv⟩
    rw [octalDigits, octalDigit, matches_sepDigits _ isOctalDigit_underscore] at hv
    rw [Rx.matches_optional] at hu
    rcases hu with (hu | hu) | rfl
    · rw [(Rx.matches_chr _ _).mp hu]
      simp [isOctalLiteral, isOctalBody, hv]
    · rw [(Rx.matches_chr _ _).mp hu]
      simp [isOctalLiteral, isOctalBody, hv]
    · cases v with
      | nil => simp [sepDigits] at hv
      | cons x t => simp [isOctalLiteral, isOctalBody, hv]
  · intro h
    cases s with
    | nil => simp [isOctalLiteral] at h
    | cons c t =>
        simp only [isOctalLiteral, Bool.and_eq_true, beq_iff_eq] at h
        obtain ⟨rfl, h⟩ := h
        refine ⟨t, rfl, ?_⟩
        cases t with
        | nil => simp [isOctalBody] at h
        | cons x t1 =>
            simp only [isOctalBody, Bool.or_eq_true, Bool.and_eq_true, beq_iff_eq] at h
            rcases h with h | ⟨hx, h⟩
            · exact ⟨[], x :: t1, rfl, (Rx.matches_optional _ _).mpr (Or.inr rfl),
                (matches_sepDigits _ isOctalDigit_underscore _).mpr h⟩
            · refine ⟨[x], t1, rfl, (Rx.matches_optional _ _).mpr (Or.inl ?_),
                (matches_sepDigits _ isOctalDigit_underscore t1).mpr h⟩
              rcases hx with rfl | rfl
              · exact Or.inl ((Rx.matches_chr _ _).mpr rfl)
              · exact Or.inr ((Rx.matches_chr _ _).mpr rfl)

theorem accepts_decimalLiteral (s : List Char) :
    decimalLiteral.accepts s = isDecimalLiteral s := by
  rw [Bool.eq_iff_iff, Rx.accepts_iff, decimalLiteral]
  simp only [Rx.Matches.eq_4, Rx.matches_chr, Rx.matches_seq_cls, Rx.matches_optional,
    decimalDigits, decimalDigit, matches_sepDigits _ isDecimalDigit_underscore]
  constructor
  · rintro (rfl | ⟨c, t, rfl, hc, (ht | rfl)⟩)
    · rfl
    · simp only [sepDigits, Bool.and_eq_true] at ht
      simp [isDecimalLiteral, hc, ht.2]
    · simp [isDecimalLiteral, hc, sepTail]
  · intro h
    cases s with
    | nil => simp [isDecimalLiteral] at h
    | cons c t =>
        simp only [isDecimalLiteral, Bool.or_eq_true, Bool.and_eq_true, beq_iff_eq,
          List.isEmpty_iff] at h
        rcases h with ⟨rfl, rfl⟩ | ⟨hc, ht⟩
        · exact Or.inl rfl
        · right
          refine ⟨c, t, rfl, hc, ?_⟩
          cases t with
          | nil => exact Or.inr rfl
          | cons c1 t1 =>
              left
              simp [sepDigits, ht]

/-- The matcher of `int_literal` in terms of the four recognisers. -/
theorem accepts_intLiteral (s : List Char) :
    intLiteral.accepts s =
      (isPrefixedLiteral 'b' 'B' isBinaryDigit s || (isDecimalLiteral s ||
        (isOctalLiteral s || isPrefixedLiteral 'x' 'X' isHexDigit s))) := by
  rw [← accepts_binaryLiteral, ← accepts_decimalLiteral, ← accepts_octalLiteral,
    ← accepts_hexLiteral]
  rw [Bool.eq_iff_iff]
  simp only [Bool.or_eq_true, Rx.accepts_iff, intLiteral, Rx.Matches]

/-! ### Underscores in digit groups -/

theorem sepTail_cons_elim (d : Char → Bool) (u : Bool) (c : Char) (t : List Char)
    (h : sepTail d u (c :: t) = true) :
    (c = '_' ∧ u = false ∧ sepTail d true t = true) ∨
      (c ≠ '_' ∧ d c = true ∧ sepTail d false t = true) := by
  by_cases hc : c = '_'
  · left
    simp only [sepTail, hc, if_true, Bool.and_eq_true, Bool.not_eq_true'] at h
    exact ⟨hc, h.1, h.2⟩
  · right
    simp only [sepTail, hc, if_false, Bool.and_eq_true] at h
    exact ⟨hc, h.1, h.2⟩

theorem sepTail_mono (d e : Char → Bool) (hde : ∀ c, c ≠ '_' → d c = true → e c = true) :
    ∀ (s : List Char) (u : Bool), sepTail d u s = true → sepTail e u s = true
  | [], u, h => by simpa [sepTail] using h
  | c :: t, u, h => by
      rcases sepTail_cons_elim d u c t h with ⟨rfl, rfl, ht⟩ | ⟨hc, hd, ht⟩
      · simpa [sepTail] using sepTail_mono d e hde t true ht
      · simpa [sepTail, hc, hde c hc hd] using sepTail_mono d e hde t false ht

/-- No string of digit groups ends with an underscore. -/
theorem sepTail_no_trailing (d : Char → Bool) :
    ∀ (s : List Char) (u : Bool), sepTail d u s = true → ∀ p, s ≠ p ++ ['_']
  | [], u, _, p => by simp
  | c :: t, u, h, p => by
      intro hs
      rcases sepTail_cons_elim d u c t h with ⟨rfl, rfl, ht⟩ | ⟨hc, hd, ht⟩
      · cases p with
        | nil =>
            simp only [List.nil_append, List.cons.injEq, true_and] at hs
            subst hs
            simp [sepTail] at ht
        | cons a p1 =>
            simp only [List.cons_append, List.cons.injEq] at hs
            exact sepTail_no_trailing d t true ht p1 hs.2
      · cases p with
        | nil =>
            simp only [List.nil_append, List.cons.injEq] at hs
            exact hc hs.1
        | cons a p1 =>
            simp only [List.cons_append, List.cons.injEq] at hs
            exact sepTail_no_trailing d t false ht p1 hs.2

/-- No string of digit groups contains two consecutive underscores. -/
theorem sepTail_no_double (d : Char → Bool) :
    ∀ (s : List Char) (u : Bool), sepTail d u s = true → ∀ p q, s ≠ p ++ '_' :: '_' :: q
  | [], u, _, p, q => by simp
  | c :: t, u, h, p, q => by
      intro hs
      rcases sepTail_cons_elim d u c t h with ⟨rfl, rfl, ht⟩ | ⟨hc, hd, ht⟩
      · cases p with
        | nil =>
            simp only [List.nil_append, List.cons.injEq, true_and] at hs
            subst hs
            simp [sepTail] at ht
        | cons a p1 =>
            simp only [List.cons_append, List.cons.injEq] at hs
            exact sepTail_no_double d t true ht p1 q hs.2
      · cases p with
        | nil =>
            simp only [List.nil_append, List.cons.injEq] at hs
            exact hc hs.1
        | cons a p1 =>
            simp only [List.cons_append, List.cons.injEq] at hs
            exact sepTail_no_double d t false ht p1 q hs.2

/-- In a string of digit groups every underscore is followed by a digit. -/
theorem sepTail_underscore_next (d : Char → Bool) :
    ∀ (s : List Char) (u : Bool), sepTail d u s = true → ∀ p q, s = p ++ '_' :: q →
      ∃ c q1, q = c :: q1 ∧ d c = true
  | [], u, _, p, q => by simp
  | c :: t, u, h, p, q => by
      intro hs
      cases p with
      | nil =>
          simp only [List.nil_append, List.cons.injEq] at hs
          obtain ⟨rfl, rfl⟩ := hs
          rcases sepTail_cons_elim d u _ t h with ⟨_, _, ht⟩ | ⟨hc, _, _⟩
          · cases t with
            | nil => simp [sepTail] at ht
            | cons c1 t1 =>
                rw [sepTail_true_cons] at ht
                simp only [Bool.and_eq_true] at ht
                exact ⟨c1, t1, rfl, ht.1.2⟩
          · exact absurd rfl hc
      | cons a p1 =>
          simp only [List.cons_append, List.cons.injEq] at hs
          rcases sepTail_cons_elim d u c t h with ⟨_, _, ht⟩ | ⟨_, _, ht⟩
          · exact sepTail_underscore_next d t true ht p1 q hs.2
          · exact sepTail_underscore_next d t false ht p1 q hs.2

/-- In a string of digit groups every underscore but a leading one is preceded by a
digit. -/
theorem sepTail_underscore_prev (d : Char → Bool) :
    ∀ (s : List Char) (u : Bool), sepTail d u s = true → ∀ p q, s = p ++ '_' :: q →
      p = [] ∨ ∃ p1 c, p = p1 ++ [c] ∧ d c = true
  | [], u, _, p, q => by simp
  | c :: t, u, h, p, q => by
      intro hs
      cases p with
      | nil => exact Or.inl rfl
      | cons a p1 =>
          right
          simp only [List.cons_append, List.cons.injEq] at hs
          obtain ⟨hca, hs⟩ := hs
          subst hca
          rcases sepTail_cons_elim d u c t h with ⟨rfl, _, ht⟩ | ⟨_, hd, ht⟩
          · cases p1 with
            | nil =>
                subst hs
                simp [sepTail] at ht
            | cons b p2 =>
                rcases sepTail_underscore_prev d t true ht (b :: p2) q hs with h1 | ⟨p3, e, h1, he⟩
                · cases h1
                · exact ⟨'_' :: p3, e, by rw [h1]; rfl, he⟩
          · rcases sepTail_underscore_prev d t false ht p1 q hs with rfl | ⟨p3, e, rfl, he⟩
            · exact ⟨[], c, rfl, hd⟩
            · exact ⟨c :: p3, e, rfl, he⟩

/-- Inserting an underscore between two adjacent digits of a string of digit groups. -/
theorem sepTail_insert (d : Char → Bool) (hd : d '_' = false) (c1 c2 : Char)
    (h1 : d c1 = true) (h2 : d c2 = true) (q : List Char) :
    ∀ (p : List Char) (u : Bool), sepTail d u (p ++ c1 :: c2 :: q) = true →
      sepTail d u (p ++ c1 :: '_' :: c2 :: q) = true
  | [], u, h => by
      simp only [List.nil_append] at h ⊢
      rw [sepTail_digit d hd u c1 _ h1] at h ⊢
      rw [sepTail_false_underscore, sepTail_digit d hd true c2 _ h2]
      rw [sepTail_digit d hd false c2 _ h2] at h
      exact h
  | c :: p, u, h => by
      simp only [List.cons_append] at h ⊢
      rcases sepTail_cons_elim d u c _ h with ⟨rfl, rfl, ht⟩ | ⟨hc, hdc, ht⟩
      · rw [sepTail_false_underscore]
        exact sepTail_insert d hd c1 c2 h1 h2 q p true ht
      · rw [sepTail_digit d hd u c _ hdc]
        exact sepTail_insert d hd c1 c2 h1 h2 q p false ht

/-- Inserting an underscore in front of a string of digit groups that begins with a
digit. -/
theorem sepTail_insert_front (d : Char → Bool) (hd : d '_' = false) (c2 : Char)
    (h2 : d c2 = true) (q : List Char) (h : sepTail d false (c2 :: q) = true) :
    sepTail d false ('_' :: c2 :: q) = true := by
  rw [sepTail_false_underscore, sepTail_digit d hd true c2 _ h2]
  rw [sepTail_digit d hd false c2 _ h2] at h
  exact h

theorem filter_cons_keep (c : Char) (t : List Char) (hc : c ≠ '_') :
    (c :: t).filter (fun c => c != '_') = c :: t.filter (fun c => c != '_') :=
  List.filter_cons_of_pos (by simp [hc])

/-- Deleting the underscores of a string of digit groups. -/
theorem sepTail_strip (d : Char → Bool) (hd : d '_' = false) :
    ∀ (s : List Char) (u : Bool), sepTail d u s = true →
      sepTail d false (s.filter (fun c => c != '_')) = true
  | [], u, _ => rfl
  | c :: t, u, h => by
      rcases sepTail_cons_elim d u c t h with ⟨rfl, _, ht⟩ | ⟨hc, hdc, ht⟩
      · simpa using sepTail_strip d hd t true ht
      · rw [filter_cons_keep c t hc, sepTail_digit d hd false c _ hdc]
        exact sepTail_strip d hd t false ht

theorem sepDigits_strip (d : Char → Bool) (hd : d '_' = false) (s : List Char)
    (h : sepDigits d s = true) : sepDigits d (s.filter (fun c => c != '_')) = true := by
  simp only [sepDigits, Bool.and_eq_true, Bool.not_eq_true', List.isEmpty_eq_false] at h ⊢
  refine ⟨?_, sepTail_strip d hd s false h.2⟩
  cases s with
  | nil => exact absurd rfl h.1
  | cons c t =>
      rcases sepTail_cons_elim d false c t h.2 with ⟨rfl, _, ht⟩ | ⟨hc, _, _⟩
      · cases t with
        | nil => simp [sepTail] at ht
        | cons c1 t1 =>
            rw [sepTail_true_cons] at ht
            simp only [Bool.and_eq_true, decide_eq_true_eq] at ht
            have : ('_' :: c1 :: t1).filter (fun c => c != '_') =
                c1 :: t1.filter (fun c => c != '_') := by
              rw [List.filter_cons_of_neg (by simp), filter_cons_keep c1 t1 ht.1.1]
            rw [this]
            simp
      · rw [filter_cons_keep c t hc]
        simp

theorem sepTail_all (d : Char → Bool) :
    ∀ (s : List Char) (u : Bool), sepTail d u s = true → ∀ c ∈ s, c ≠ '_' → d c = true
  | [], u, _, c, hc, _ => by simp at hc
  | a :: t, u, h, c, hc, hne => by
      rcases List.mem_cons.mp hc with rfl | hc
      · rcases sepTail_cons_elim d u c t h with ⟨rfl, _, _⟩ | ⟨_, hd, _⟩
        · exact absurd rfl hne
        · exact hd
      · rcases sepTail_cons_elim d u a t h with ⟨_, _, ht⟩ | ⟨_, _, ht⟩
        · exact sepTail_all d t true ht c hc hne
        · exact sepTail_all d t false ht c hc hne

theorem sepTail_of_all (d e : Char → Bool) :
    ∀ (s : List Char) (u : Bool), sepTail d u s = true →
      (∀ c ∈ s, c ≠ '_' → e c = true) → sepTail e u s = true
  | [], u, h, _ => by simpa [sepTail] using h
  | c :: t, u, h, hall => by
      have hall1 : ∀ a ∈ t, a ≠ '_' → e a = true :=
        fun a ha => hall a (List.mem_cons_of_mem _ ha)
      rcases sepTail_cons_elim d u c t h with ⟨rfl, rfl, ht⟩ | ⟨hc, hd, ht⟩
      · simpa [sepTail] using sepTail_of_all d e t true ht hall1
      · simpa [sepTail, hc, hall c (List.mem_cons_self _ _) hc] using
          sepTail_of_all d e t false ht hall1

theorem sepDigits_insert (d : Char → Bool) (hd : d '_' = false) (c1 c2 : Char)
    (h1 : d c1 = true) (h2 : d c2 = true) (p q : List Char)
    (h : sepDigits d (p ++ c1 :: c2 :: q) = true) :
    sepDigits d (p ++ c1 :: '_' :: c2 :: q) = true := by
  simp only [sepDigits, Bool.and_eq_true, Bool.not_eq_true', List.isEmpty_eq_false] at h ⊢
  exact ⟨by simp, sepTail_insert d hd c1 c2 h1 h2 q p false h.2⟩

theorem sepDigits_insert_front (d : Char → Bool) (hd : d '_' = false) (c2 : Char)
    (h2 : d c2 = true) (q : List Char) (h : sepDigits d (c2 :: q) = true) :
    sepDigits d ('_' :: c2 :: q) = true := by
  simp only [sepDigits, Bool.and_eq_true, Bool.not_eq_true', List.isEmpty_eq_false] at h ⊢
  exact ⟨by simp, sepTail_insert_front d hd c2 h2 q h.2⟩

/-! ### Shapes of the four radix forms -/

theorem isPrefixedLiteral_cons (lo up : Char) (d : Char → Bool) (s : List Char)
    (h : isPrefixedLiteral lo up d s = true) :
    ∃ x t, s = '0' :: x :: t ∧ (x = lo ∨ x = up) ∧ sepDigits d t = true := by
  cases s with
  | nil => simp [isPrefixedLiteral] at h
  | cons c s1 =>
      cases s1 with
      | nil => simp [isPrefixedLiteral] at h
      | cons x t =>
          simp only [isPrefixedLiteral, Bool.and_eq_true, Bool.or_eq_true, beq_iff_eq] at h
          obtain ⟨⟨rfl, hx⟩, ht⟩ := h
          exact ⟨x, t, rfl, hx, ht⟩

theorem isPrefixedLiteral_mk (lo up : Char) (d : Char → Bool) (x : Char) (t : List Char)
    (hx : x = lo ∨ x = up) (ht : sepDigits d t = true) :
    isPrefixedLiteral lo up d ('0' :: x :: t) = true := by
  simp only [isPrefixedLiteral, Bool.and_eq_true, Bool.or_eq_true, beq_iff_eq]
  exact ⟨⟨trivial, hx⟩, ht⟩

theorem isOctalLiteral_cons (s : List Char) (h : isOctalLiteral s = true) :
    ∃ x t, s = '0' :: x :: t ∧ (sepDigits isOctalDigit (x :: t) = true ∨
      ((x = 'o' ∨ x = 'O') ∧ sepDigits isOctalDigit t = true)) := by
  cases s with
  | nil => simp [isOctalLiteral] at h
  | cons c s1 =>
      cases s1 with
      | nil => simp [isOctalLiteral, isOctalBody] at h
      | cons x t =>
          simp only [isOctalLiteral, isOctalBody, Bool.and_eq_true, Bool.or_eq_true,
            beq_iff_eq] at h
          obtain ⟨rfl, h⟩ := h
          exact ⟨x, t, rfl, h⟩

theorem isOctalLiteral_mk (x : Char) (t : List Char)
    (h : sepDigits isOctalDigit (x :: t) = true ∨
      ((x = 'o' ∨ x = 'O') ∧ sepDigits isOctalDigit t = true)) :
    isOctalLiteral ('0' :: x :: t) = true := by
  simp only [isOctalLiteral, isOctalBody, Bool.and_eq_true, Bool.or_eq_true, beq_iff_eq]
  exact ⟨trivial, h⟩

theorem isDecimalLiteral_cons (s : List Char) (h : isDecimalLiteral s = true) :
    s = ['0'] ∨ ∃ c t, s = c :: t ∧ inRange '1' '9' c = true ∧
      sepTail isDecimalDigit false t = true := by
  cases s with
  | nil => simp [isDecimalLiteral] at h
  | cons c t =>
      simp only [isDecimalLiteral, Bool.or_eq_true, Bool.and_eq_true, beq_iff_eq,
        List.isEmpty_iff] at h
      rcases h with ⟨rfl, rfl⟩ | ⟨hc, ht⟩
      · exact Or.inl rfl
      · exact Or.inr ⟨c, t, rfl, hc, ht⟩

theorem isDecimalLiteral_mk (c : Char) (t : List Char) (hc : inRange '1' '9' c = true)
    (ht : sepTail isDecimalDigit false t = true) : isDecimalLiteral (c :: t) = true := by
  simp only [isDecimalLiteral, Bool.or_eq_true, Bool.and_eq_true]
  exact Or.inr ⟨hc, ht⟩

theorem inRange_ne_underscore (lo hi c : Char) (hhi : hi.toNat < 95)
    (h : inRange lo hi c = true) : c ≠ '_' := by
  rintro rfl
  simp only [inRange, Bool.and_eq_true, decide_eq_true_eq] at h
  have : ('_' : Char).toNat = 95 := by decide
  omega

theorem inRange_one_nine_decimal (c : Char) (h : inRange '1' '9' c = true) :
    isDecimalDigit c = true := by
  simp only [inRange, isDecimalDigit, Bool.and_eq_true, decide_eq_true_eq] at h ⊢
  have h1 : ('1' : Char).toNat = 49 := by decide
  have h0 : ('0' : Char).toNat = 48 := by decide
  omega

/-! ### C6: inserting and stripping underscores -/

theorem isPrefixedLiteral_insert (lo up : Char) (d : Char → Bool) (hd : d '_' = false)
    (hlo : d lo = false) (hup : d up = false) (c1 c2 : Char) (h1 : d c1 = true)
    (h2 : d c2 = true) (p q : List Char)
    (h : isPrefixedLiteral lo up d (p ++ c1 :: c2 :: q) = true) :
    isPrefixedLiteral lo up d (p ++ c1 :: '_' :: c2 :: q) = true := by
  obtain ⟨x, t, hs, hx, ht⟩ := isPrefixedLiteral_cons lo up d _ h
  cases p with
  | nil =>
      simp only [List.nil_append, List.cons.injEq] at hs
      obtain ⟨_, rfl, _⟩ := hs
      rcases hx with rfl | rfl
      · rw [hlo] at h2
        cases h2
      · rw [hup] at h2
        cases h2
  | cons a p1 =>
      cases p1 with
      | nil =>
          simp only [List.cons_append, List.nil_append, List.cons.injEq] at hs
          obtain ⟨_, rfl, _⟩ := hs
          rcases hx with rfl | rfl
          · rw [hlo] at h1
            cases h1
          · rw [hup] at h1
            cases h1
      | cons b p2 =>
          simp only [List.cons_append, List.cons.injEq] at hs
          obtain ⟨rfl, rfl, rfl⟩ := hs
          exact isPrefixedLiteral_mk lo up d _ _ hx (sepDigits_insert d hd c1 c2 h1 h2 p2 q ht)

theorem isOctalLiteral_insert (c1 c2 : Char) (h1 : isOctalDigit c1 = true)
    (h2 : isOctalDigit c2 = true) (p q : List Char)
    (h : isOctalLiteral (p ++ c1 :: c2 :: q) = true) :
    isOctalLiteral (p ++ c1 :: '_' :: c2 :: q) = true := by
  have ho : ∀ c, isOctalDigit c = true → ¬ (c = 'o' ∨ c = 'O') := by
    rintro c hc (rfl | rfl) <;> revert hc <;> decide
  obtain ⟨x, t, hs, hx⟩ := isOctalLiteral_cons _ h
  cases p with
  | nil =>
      simp only [List.nil_append, List.cons.injEq] at hs
      obtain ⟨rfl, rfl, rfl⟩ := hs
      rcases hx with hx | ⟨hx, _⟩
      · exact isOctalLiteral_mk _ _
          (Or.inl (sepDigits_insert_front _ isOctalDigit_underscore _ h2 _ hx))
      · exact absurd hx (ho _ h2)
  | cons a p1 =>
      cases p1 with
      | nil =>
          simp only [List.cons_append, List.nil_append, List.cons.injEq] at hs
          obtain ⟨rfl, rfl, rfl⟩ := hs
          rcases hx with hx | ⟨hx, _⟩
          · exact isOctalLiteral_mk _ _
              (Or.inl (sepDigits_insert _ isOctalDigit_underscore c1 c2 h1 h2 [] q hx))
          · exact absurd hx (ho _ h1)
      | cons b p2 =>
          simp only [List.cons_append, List.cons.injEq] at hs
          obtain ⟨rfl, rfl, rfl⟩ := hs
          rcases hx with hx | ⟨hx, ht⟩
          · exact isOctalLiteral_mk _ _
              (Or.inl (sepDigits_insert _ isOctalDigit_underscore c1 c2 h1 h2 (b :: p2) q hx))
          · exact isOctalLiteral_mk _ _
              (Or.inr ⟨hx, sepDigits_insert _ isOctalDigit_underscore c1 c2 h1 h2 p2 q ht⟩)

theorem isDecimalLiteral_insert (c1 c2 : Char) (h1 : isDecimalDigit c1 = true)
    (h2 : isDecimalDigit c2 = true) (p q : List Char)
    (h : isDecimalLiteral (p ++ c1 :: c2 :: q) = true) :
    isDecimalLiteral (p ++ c1 :: '_' :: c2 :: q) = true := by
  rcases isDecimalLiteral_cons _ h with hs | ⟨c, t, hs, hc, ht⟩
  · cases p with
    | nil => simp at hs
    | cons a p1 => simp at hs
  · cases p with
    | nil =>
        simp only [List.nil_append, List.cons.injEq] at hs
        obtain ⟨rfl, rfl⟩ := hs
        exact isDecimalLiteral_mk _ _ hc
          (sepTail_insert_front _ isDecimalDigit_underscore _ h2 _ ht)
    | cons a p1 =>
        simp only [List.cons_append, List.cons.injEq] at hs
        obtain ⟨rfl, rfl⟩ := hs
        exact isDecimalLiteral_mk _ _ hc
          (sepTail_insert _ isDecimalDigit_underscore c1 c2 h1 h2 q p1 false ht)

theorem isPrefixedLiteral_strip (lo up : Char) (d : Char → Bool) (hd : d '_' = false)
    (hlo : lo ≠ '_') (hup : up ≠ '_') (s : List Char)
    (h : isPrefixedLiteral lo up d s = true) :
    isPrefixedLiteral lo up d (s.filter (fun c => c != '_')) = true := by
  obtain ⟨x, t, rfl, hx, ht⟩ := isPrefixedLiteral_cons lo up d _ h
  have hx1 : x ≠ '_' := by
    rcases hx with rfl | rfl
    · exact hlo
    · exact hup
  rw [filter_cons_keep '0' _ (by decide), filter_cons_keep x _ hx1]
  exact isPrefixedLiteral_mk lo up d _ _ hx (sepDigits_strip d hd t ht)

theorem isOctalLiteral_strip (s : List Char) (h : isOctalLiteral s = true) :
    isOctalLiteral (s.filter (fun c => c != '_')) = true := by
  obtain ⟨x, t, rfl, hx⟩ := isOctalLiteral_cons _ h
  rw [filter_cons_keep '0' _ (by decide)]
  rcases hx with hx | ⟨hx, ht⟩
  · have h1 := sepDigits_strip _ isOctalDigit_underscore _ hx
    cases hf : (x :: t).filter (fun c => c != '_') with
    | nil =>
        rw [hf] at h1
        simp [sepDigits] at h1
    | cons y t1 =>
        rw [hf] at h1
        exact isOctalLiteral_mk _ _ (Or.inl h1)
  · have hx1 : x ≠ '_' := by
      rcases hx with rfl | rfl <;> decide
    rw [filter_cons_keep x _ hx1]
    exact isOctalLiteral_mk _ _ (Or.inr ⟨hx, sepDigits_strip _ isOctalDigit_underscore _ ht⟩)

theorem isDecimalLiteral_strip (s : List Char) (h : isDecimalLiteral s = true) :
    isDecimalLiteral (s.filter (fun c => c != '_')) = true := by
  rcases isDecimalLiteral_cons _ h with rfl | ⟨c, t, rfl, hc, ht⟩
  · decide
  · rw [filter_cons_keep c _ (inRange_ne_underscore _ _ _ (by decide) hc)]
    exact isDecimalLiteral_mk _ _ hc (sepTail_strip _ isDecimalDigit_underscore t false ht)

/-- C6, as stated, fails: `1_0` is accepted by the decimal alternative, its digit sequence
is the whole literal, and inserting one underscore between its adjacent characters `1` and
`_` gives `1__0`, which `int_literal` rejects; likewise `0xF_F` and `0xF__F`. -/
theorem C6_insert_next_to_underscore :
    decimalLiteral.accepts "1_0".toList = true ∧
    "1_0".toList = ['1'] ++ ['_', '0'] ∧
    int_literal.accepts (['1'] ++ '_' :: ['_', '0']) = false ∧
    hexLiteral.accepts "0xF_F".toList = true ∧
    "0xF_F".toList = ['0', 'x'] ++ (['F'] ++ ['_', 'F']) ∧
    int_literal.accepts (['0', 'x'] ++ (['F'] ++ '_' :: ['_', 'F'])) = false := by
  decide

/-- C6, amended: each of the four radix alternatives of `int_literal` is closed under
inserting one underscore between two adjacent digits of the radix (two characters of the
literal that are both digits and stand next to each other), and under deleting all
underscores; so is `int_literal` itself under deletion.  Witnesses: `1_000` and `1000`,
`0xFF_FF` and `0xFFFF` are all accepted, the second of each pair being the first without
underscores. -/
theorem C6_underscore_closure :
    (∀ (p q : List Char) (c1 c2 : Char),
      isBinaryDigit c1 = true → isBinaryDigit c2 = true →
      binaryLiteral.accepts (p ++ c1 :: c2 :: q) = true →
      binaryLiteral.accepts (p ++ c1 :: '_' :: c2 :: q) = true) ∧
    (∀ (p q : List Char) (c1 c2 : Char),
      isDecimalDigit c1 = true → isDecimalDigit c2 = true →
      decimalLiteral.accepts (p ++ c1 :: c2 :: q) = true →
      decimalLiteral.accepts (p ++ c1 :: '_' :: c2 :: q) = true) ∧
    (∀ (p q : List Char) (c1 c2 : Char),
      isOctalDigit c1 = true → isOctalDigit c2 = true →
      octalLiteral.accepts (p ++ c1 :: c2 :: q) = true →
      octalLiteral.accepts (p ++ c1 :: '_' :: c2 :: q) = true) ∧
    (∀ (p q : List Char) (c1 c2 : Char),
      isHexDigit c1 = true → isHexDigit c2 = true →
      hexLiteral.accepts (p ++ c1 :: c2 :: q) = true →
      hexLiteral.accepts (p ++ c1 :: '_' :: c2 :: q) = true) ∧
    (∀ s : List Char,
      (binaryLiteral.accepts s = true →
        binaryLiteral.accepts (s.filter (fun c => c != '_')) = true) ∧
      (decimalLiteral.accepts s = true →
        decimalLiteral.accepts (s.filter (fun c => c != '_')) = true) ∧
      (octalLiteral.accepts s = true →
        octalLiteral.accepts (s.filter (fun c => c != '_')) = true) ∧
      (hexLiteral.accepts s = true →
        hexLiteral.accepts (s.filter (fun c => c != '_')) = true) ∧
      (int_literal.accepts s = true →
        int_literal.accepts (s.filter (fun c => c != '_')) = true)) ∧
    (int_literal.accepts "1_000".toList = true ∧ int_literal.accepts "1000".toList = true ∧
      "1_000".toList.filter (fun c => c != '_') = "1000".toList ∧
      decimalLiteral.accepts "1_000".toList = true ∧
      decimalLiteral.accepts "1000".toList = true) ∧
    (int_literal.accepts "0xFF_FF".toList = true ∧ int_literal.accepts "0xFFFF".toList = true ∧
      "0xFF_FF".toList.filter (fun c => c != '_') = "0xFFFF".toList ∧
      hexLiteral.accepts "0xFF_FF".toList = true ∧
      hexLiteral.accepts "0xFFFF".toList = true) := by
  have hb := isPrefixedLiteral_strip 'b' 'B' isBinaryDigit isBinaryDigit_underscore
    (by decide) (by decide)
  have hx := isPrefixedLiteral_strip 'x' 'X' isHexDigit isHexDigit_underscore
    (by decide) (by decide)
  refine ⟨?_, ?_, ?_, ?_, ?_, by decide, by decide⟩
  · intro p q c1 c2 h1 h2
    rw [accepts_binaryLiteral, accepts_binaryLiteral]
    exact isPrefixedLiteral_insert 'b' 'B' isBinaryDigit isBinaryDigit_underscore (by decide)
      (by decide) c1 c2 h1 h2 p q
  · intro p q c1 c2 h1 h2
    rw [accepts_decimalLiteral, accepts_decimalLiteral]
    exact isDecimalLiteral_insert c1 c2 h1 h2 p q
  · intro p q c1 c2 h1 h2
    rw [accepts_octalLiteral, accepts_octalLiteral]
    exact isOctalLiteral_insert c1 c2 h1 h2 p q
  · intro p q c1 c2 h1 h2
    rw [accepts_hexLiteral, accepts_hexLiteral]
    exact isPrefixedLiteral_insert 'x' 'X' isHexDigit isHexDigit_underscore (by decide)
      (by decide) c1 c2 h1 h2 p q
  · intro s
    refine ⟨?_, ?_, ?_, ?_, ?_⟩
    · rw [accepts_binaryLiteral, accepts_binaryLiteral]
      exact hb s
    · rw [accepts_decimalLiteral, accepts_decimalLiteral]
      exact isDecimalLiteral_strip s
    · rw [accepts_octalLiteral, accepts_octalLiteral]
      exact isOctalLiteral_strip s
    · rw [accepts_hexLiteral, accepts_hexLiteral]
      exact hx s
    · rw [int_literal, accepts_intLiteral, accepts_intLiteral]
      simp only [Bool.or_eq_true]
      rintro (h | h | h | h)
      · exact Or.inl (hb s h)
      · exact Or.inr (Or.inl (isDecimalLiteral_strip s h))
      · exact Or.inr (Or.inr (Or.inl (isOctalLiteral_strip s h)))
      · exact Or.inr (Or.inr (Or.inr (hx s h)))

/-! ### C7: no trailing and no doubled underscore -/

/-- Read as a string of groups of characters other than `_`, each optionally preceded by one
underscore, an accepted literal is well-formed as a whole. -/
theorem intLiteral_sep (s : List Char) (h : intLiteral.accepts s = true) :
    sepTail notUnderscore false s = true := by
  have hnu : notUnderscore '_' = false := by decide
  have hmono : ∀ (d : Char → Bool) (t : List Char) (u : Bool), sepTail d u t = true →
      sepTail notUnderscore u t = true := by
    intro d t u ht
    exact sepTail_mono d notUnderscore (fun c hc _ => by simp [notUnderscore, hc]) t u ht
  have hpre : ∀ (lo up : Char) (d : Char → Bool), lo ≠ '_' → up ≠ '_' →
      isPrefixedLiteral lo up d s = true → sepTail notUnderscore false s = true := by
    intro lo up d hlo hup hs
    obtain ⟨x, t, rfl, hx, ht⟩ := isPrefixedLiteral_cons lo up d _ hs
    have hx1 : x ≠ '_' := by
      rcases hx with rfl | rfl
      · exact hlo
      · exact hup
    simp only [sepDigits, Bool.and_eq_true] at ht
    rw [sepTail_digit notUnderscore hnu false '0' _ (by decide),
      sepTail_digit notUnderscore hnu false x _ (by simp [notUnderscore, hx1])]
    exact hmono d t false ht.2
  rw [accepts_intLiteral] at h
  simp only [Bool.or_eq_true] at h
  rcases h with h | h | h | h
  · exact hpre 'b' 'B' _ (by decide) (by decide) h
  · rcases isDecimalLiteral_cons _ h with rfl | ⟨c, t, rfl, hc, ht⟩
    · decide
    · rw [sepTail_digit notUnderscore hnu false c _
        (by simp [notUnderscore, inRange_ne_underscore _ _ _ (by decide) hc])]
      exact hmono _ t false ht
  · obtain ⟨x, t, rfl, hx⟩ := isOctalLiteral_cons _ h
    rw [sepTail_digit notUnderscore hnu false '0' _ (by decide)]
    rcases hx with hx | ⟨hx, ht⟩
    · simp only [sepDigits, Bool.and_eq_true] at hx
      exact hmono _ _ false hx.2
    · have hx1 : x ≠ '_' := by
        rcases hx with rfl | rfl <;> decide
      simp only [sepDigits, Bool.and_eq_true] at ht
      rw [sepTail_digit notUnderscore hnu false x _ (by simp [notUnderscore, hx1])]
      exact hmono _ t false ht.2
  · exact hpre 'x' 'X' _ (by decide) (by decide) h

/-- C7: no string accepted by `int_literal` ends with an underscore, and none contains two
consecutive underscores, whatever the radix form; `1_`, `0x1_`, `1__0` and `0b1__0` are
rejected. -/
theorem C7_no_trailing_no_double_underscore :
    (∀ s : List Char, int_literal.accepts s = true →
      (∀ p, s ≠ p ++ ['_']) ∧ (∀ p q, s ≠ p ++ '_' :: '_' :: q)) ∧
    int_literal.accepts "1_".toList = false ∧
    int_literal.accepts "0x1_".toList = false ∧
    int_literal.accepts "1__0".toList = false ∧
    int_literal.accepts "0b1__0".toList = false := by
  refine ⟨?_, by decide, by decide, by decide, by decide⟩
  intro s h
  have hs := intLiteral_sep s h
  exact ⟨sepTail_no_trailing _ s false hs, sepTail_no_double _ s false hs⟩

/-! ### C8: where an underscore may stand -/

/-- C8, as stated, fails: `0x_FF` and `0b_1` are accepted by `int_literal`, and in both the
character that immediately follows the radix prefix is the underscore; the underscore of
`0x_FF` stands after `x`, which is not a digit. -/
theorem C8_underscore_after_radix_accepted :
    int_literal.accepts "0x_FF".toList = true ∧
    int_literal.accepts "0b_1".toList = true ∧
    "0x_FF".toList = ['0', 'x'] ++ '_' :: ['F', 'F'] ∧
    "0b_1".toList = ['0', 'b'] ++ '_' :: ['1'] ∧
    isHexDigit 'x' = false ∧ isBinaryDigit 'b' = false ∧
    ¬ (∀ s : List Char, int_literal.accepts s = true → ∀ p q, s = p ++ '_' :: q →
      ∃ p1 c1 c2 q1, p = p1 ++ [c1] ∧ q = c2 :: q1 ∧ isHexDigit c1 = true ∧
        isHexDigit c2 = true) := by
  refine ⟨by decide, by decide, by decide, by decide, by decide, by decide, ?_⟩
  intro h
  obtain ⟨p1, c1, c2, q1, hp, _, hc1, _⟩ :=
    h "0x_FF".toList (by decide) ['0', 'x'] ['F', 'F'] (by decide)
  have hp1 : p1 ++ [c1] = ['0'] ++ ['x'] := hp.symm
  have := List.append_inj' hp1 rfl
  simp only [List.cons.injEq, and_true] at this
  rw [this.2] at hc1
  revert hc1
  decide

theorem isPrefixedLiteral_underscore (lo up : Char) (d : Char → Bool) (hlo : lo ≠ '_')
    (hup : up ≠ '_') (s p q : List Char) (h : isPrefixedLiteral lo up d s = true)
    (hs : s = p ++ '_' :: q) :
    (∃ c q1, q = c :: q1 ∧ d c = true) ∧
      ((p = ['0', lo] ∨ p = ['0', up]) ∨ ∃ p1 c, p = p1 ++ [c] ∧ d c = true) := by
  obtain ⟨x, t, rfl, hx, ht⟩ := isPrefixedLiteral_cons lo up d _ h
  have hx1 : x ≠ '_' := by
    rcases hx with rfl | rfl
    · exact hlo
    · exact hup
  simp only [sepDigits, Bool.and_eq_true] at ht
  cases p with
  | nil => simp at hs
  | cons a p1 =>
      cases p1 with
      | nil =>
          simp only [List.cons_append, List.nil_append, List.cons.injEq] at hs
          exact absurd hs.2.1 hx1
      | cons b p2 =>
          simp only [List.cons_append, List.cons.injEq] at hs
          obtain ⟨rfl, rfl, rfl⟩ := hs
          refine ⟨sepTail_underscore_next d _ false ht.2 p2 q rfl, ?_⟩
          rcases sepTail_underscore_prev d _ false ht.2 p2 q rfl with rfl | ⟨p3, c, rfl, hc⟩
          · left
            rcases hx with rfl | rfl
            · exact Or.inl rfl
            · exact Or.inr rfl
          · exact Or.inr ⟨'0' :: x :: p3, c, rfl, hc⟩

/-- C8, amended: in every string accepted by `int_literal`, every underscore is immediately
followed by a digit of the radix, and immediately preceded by a digit of the radix or by
the radix prefix (`0b`/`0B`, `0o`/`0O` or the bare leading `0` of an octal literal,
`0x`/`0X`): one underscore may stand between the prefix and the first digit, so `0x_FF`,
`0b_1`, `0o_7` and `0_7` are accepted.  An underscore never begins a literal. -/
theorem C8_underscore_position :
    (∀ s p q : List Char, binaryLiteral.accepts s = true → s = p ++ '_' :: q →
      (∃ c q1, q = c :: q1 ∧ isBinaryDigit c = true) ∧
      ((p = ['0', 'b'] ∨ p = ['0', 'B']) ∨ ∃ p1 c, p = p1 ++ [c] ∧ isBinaryDigit c = true)) ∧
    (∀ s p q : List Char, decimalLiteral.accepts s = true → s = p ++ '_' :: q →
      (∃ c q1, q = c :: q1 ∧ isDecimalDigit c = true) ∧
      (∃ p1 c, p = p1 ++ [c] ∧ isDecimalDigit c = true)) ∧
    (∀ s p q : List Char, octalLiteral.accepts s = true → s = p ++ '_' :: q →
      (∃ c q1, q = c :: q1 ∧ isOctalDigit c = true) ∧
      ((p = ['0', 'o'] ∨ p = ['0', 'O']) ∨ ∃ p1 c, p = p1 ++ [c] ∧ isOctalDigit c = true)) ∧
    (∀ s p q : List Char, hexLiteral.accepts s = true → s = p ++ '_' :: q →
      (∃ c q1, q = c :: q1 ∧ isHexDigit c = true) ∧
      ((p = ['0', 'x'] ∨ p = ['0', 'X']) ∨ ∃ p1 c, p = p1 ++ [c] ∧ isHexDigit c = true)) ∧
    (∀ s : List Char, int_literal.accepts s = true → ∀ q, s ≠ '_' :: q) ∧
    (int_literal.accepts "0x_FF".toList = true ∧ int_literal.accepts "0b_1".toList = true ∧
      int_literal.accepts "0o_7".toList = true ∧ int_literal.accepts "0_7".toList = true ∧
      int_literal.accepts "_1".toList = false ∧ int_literal.accepts "0x__FF".toList = false) := by
  refine ⟨?_, ?_, ?_, ?_, ?_, by decide⟩
  · intro s p q h hs
    rw [accepts_binaryLiteral] at h
    exact isPrefixedLiteral_underscore 'b' 'B' _ (by decide) (by decide) s p q h hs
  · intro s p q h hs
    rw [accepts_decimalLiteral] at h
    rcases isDecimalLiteral_cons _ h with rfl | ⟨c, t, rfl, hc, ht⟩
    · cases p with
      | nil => simp at hs
      | cons a p1 => simp at hs
    · cases p with
      | nil =>
          simp only [List.nil_append, List.cons.injEq] at hs
          exact absurd hs.1 (inRange_ne_underscore _ _ _ (by decide) hc)
      | cons a p1 =>
          simp only [List.cons_append, List.cons.injEq] at hs
          obtain ⟨rfl, rfl⟩ := hs
          refine ⟨sepTail_underscore_next _ _ false ht p1 q rfl, ?_⟩
          rcases sepTail_underscore_prev _ _ false ht p1 q rfl with rfl | ⟨p3, e, rfl, he⟩
          · exact ⟨[], c, rfl, inRange_one_nine_decimal c hc⟩
          · exact ⟨c :: p3, e, rfl, he⟩
  · intro s p q h hs
    rw [accepts_octalLiteral] at h
    obtain ⟨x, t, rfl, hx⟩ := isOctalLiteral_cons _ h
    cases p with
    | nil => simp at hs
    | cons a p1 =>
        simp only [List.cons_append, List.cons.injEq] at hs
        obtain ⟨rfl, hs⟩ := hs
        rcases hx with hx | ⟨hx, ht⟩
        · simp only [sepDigits, Bool.and_eq_true] at hx
          refine ⟨sepTail_underscore_next _ _ false hx.2 p1 q hs, ?_⟩
          rcases sepTail_underscore_prev _ _ false hx.2 p1 q hs with rfl | ⟨p3, e, rfl, he⟩
          · exact Or.inr ⟨[], '0', rfl, by decide⟩
          · exact Or.inr ⟨'0' :: p3, e, rfl, he⟩
        · have hx1 : x ≠ '_' := by
            rcases hx with rfl | rfl <;> decide
          simp only [sepDigits, Bool.and_eq_true] at ht
          cases p1 with
          | nil =>
              simp only [List.nil_append, List.cons.injEq] at hs
              exact absurd hs.1 hx1
          | cons b p2 =>
              simp only [List.cons_append, List.cons.injEq] at hs
              obtain ⟨rfl, rfl⟩ := hs
              refine ⟨sepTail_underscore_next _ _ false ht.2 p2 q rfl, ?_⟩
              rcases sepTail_underscore_prev _ _ false ht.2 p2 q rfl with rfl | ⟨p3, e, rfl, he⟩
              · left
                rcases hx with rfl | rfl
                · exact Or.inl rfl
                · exact Or.inr rfl
              · exact Or.inr ⟨'0' :: x :: p3, e, rfl, he⟩
  · intro s p q h hs
    rw [accepts_hexLiteral] at h
    exact isPrefixedLiteral_underscore 'x' 'X' _ (by decide) (by decide) s p q h hs
  · intro s h q hs
    have h1 := intLiteral_sep s h
    rw [hs] at h1
    rw [int_literal, accepts_intLiteral] at h
    subst hs
    simp only [Bool.or_eq_true] at h
    rcases h with h | h | h | h
    · obtain ⟨x, t, hs, _⟩ := isPrefixedLiteral_cons _ _ _ _ h
      simp at hs
    · rcases isDecimalLiteral_cons _ h with hs | ⟨c, t, hs, hc, _⟩
      · simp at hs
      · simp only [List.cons.injEq] at hs
        exact inRange_ne_underscore _ _ _ (by decide) hc hs.1.symm
    · obtain ⟨x, t, hs, _⟩ := isOctalLiteral_cons _ h
      simp at hs
    · obtain ⟨x, t, hs, _⟩ := isPrefixedLiteral_cons _ _ _ _ h
      simp at hs

/-! ### C9: a leading zero -/

/-- The matcher of `decimalDigits`. -/
theorem accepts_decimalDigits (t : List Char) :
    decimalDigits.accepts t = true ↔
      ∃ c t1, t = c :: t1 ∧ isDecimalDigit c = true ∧ sepTail isDecimalDigit false t1 = true := by
  rw [Rx.accepts_iff, decimalDigits, decimalDigit,
    matches_digitsOf _ isDecimalDigit_underscore]

/-- After a leading `0` and a decimal digit only the octal alternative remains. -/
theorem intLiteral_zero_digit (c : Char) (t : List Char) (hc : isDecimalDigit c = true) :
    intLiteral.accepts ('0' :: c :: t) = sepTail isOctalDigit false (c :: t) ∧
    octalLiteral.accepts ('0' :: c :: t) = sepTail isOctalDigit false (c :: t) ∧
    binaryLiteral.accepts ('0' :: c :: t) = false ∧
    decimalLiteral.accepts ('0' :: c :: t) = false ∧
    hexLiteral.accepts ('0' :: c :: t) = false := by
  have hb : c ≠ 'b' ∧ c ≠ 'B' ∧ c ≠ 'x' ∧ c ≠ 'X' ∧ c ≠ 'o' ∧ c ≠ 'O' := by
    refine ⟨?_, ?_, ?_, ?_, ?_, ?_⟩ <;> rintro rfl <;> revert hc <;> decide
  obtain ⟨h1, h2, h3, h4, h5, h6⟩ := hb
  have e1 : binaryLiteral.accepts ('0' :: c :: t) = false := by
    rw [accepts_binaryLiteral]
    simp [isPrefixedLiteral, h1, h2]
  have e2 : decimalLiteral.accepts ('0' :: c :: t) = false := by
    rw [accepts_decimalLiteral]
    have : inRange '1' '9' '0' = false := by decide
    simp [isDecimalLiteral, this]
  have e3 : octalLiteral.accepts ('0' :: c :: t) = sepTail isOctalDigit false (c :: t) := by
    rw [accepts_octalLiteral]
    simp [isOctalLiteral, isOctalBody, sepDigits, h5, h6]
  have e4 : hexLiteral.accepts ('0' :: c :: t) = false := by
    rw [accepts_hexLiteral]
    simp [isPrefixedLiteral, h3, h4]
  refine ⟨?_, e3, e1, e2, e4⟩
  rw [accepts_intLiteral, ← accepts_binaryLiteral, ← accepts_decimalLiteral,
    ← accepts_octalLiteral, ← accepts_hexLiteral, e1, e2, e3, e4]
  simp

/-- C9: the only string beginning with `0` that the decimal alternative accepts is `0`
itself; a `0` followed directly by decimal digits (single underscores allowed between
them) is accepted by `int_literal` exactly when all those digits are octal digits, and then
by the octal alternative and by no other.  So `017` is accepted, as octal, and `091` is
rejected. -/
theorem C9_leading_zero :
    (∀ s : List Char, decimalLiteral.accepts ('0' :: s) = true → s = []) ∧
    decimalLiteral.accepts ['0'] = true ∧
    (∀ t : List Char, decimalDigits.accepts t = true →
      ((int_literal.accepts ('0' :: t) = true ↔ ∀ c ∈ t, c ≠ '_' → isOctalDigit c = true) ∧
        int_literal.accepts ('0' :: t) = octalLiteral.accepts ('0' :: t) ∧
        binaryLiteral.accepts ('0' :: t) = false ∧
        decimalLiteral.accepts ('0' :: t) = false ∧
        hexLiteral.accepts ('0' :: t) = false)) ∧
    (decimalDigits.accepts "17".toList = true ∧ int_literal.accepts "017".toList = true ∧
      octalLiteral.accepts "017".toList = true ∧ decimalLiteral.accepts "017".toList = false) ∧
    (decimalDigits.accepts "91".toList = true ∧ int_literal.accepts "091".toList = false) := by
  refine ⟨?_, by decide, ?_, by decide, by decide⟩
  · intro s h
    rw [accepts_decimalLiteral] at h
    have h0 : inRange '1' '9' '0' = false := by decide
    simpa [isDecimalLiteral, h0] using h
  · intro t ht
    obtain ⟨c, t1, rfl, hc, ht1⟩ := (accepts_decimalDigits t).mp ht
    obtain ⟨e0, e3, e1, e2, e4⟩ := intLiteral_zero_digit c t1 hc
    refine ⟨?_, by rw [int_literal, e0, e3], e1, e2, e4⟩
    rw [int_literal, e0]
    have hdec : sepTail isDecimalDigit false (c :: t1) = true := by
      rw [sepTail_digit _ isDecimalDigit_underscore false c _ hc]
      exact ht1
    constructor
    · intro h
      exact sepTail_all _ _ false h
    · intro h
      exact sepTail_of_all isDecimalDigit isOctalDigit _ false hdec h

/-! ### C10: escape sequences -/

theorem escapeSingle_iff (rest : List Char) :
    escapeSingle rest = true ↔
      ∃ c, rest = [c] ∧ (!(c == 'x' || c == 'u' || c == 'U')) = true := by
  cases rest with
  | nil => simp [escapeSingle]
  | cons c t =>
      cases t with
      | nil => simp [escapeSingle]
      | cons c1 t1 => simp [escapeSingle]

theorem escapeAfter_iff (l : Char) (count : Nat → Bool) (rest : List Char) :
    escapeAfter l count rest = true ↔
      ∃ t, rest = l :: t ∧ count t.length = true ∧ ∀ c ∈ t, isHexDigit c = true := by
  cases rest with
  | nil => simp [escapeAfter]
  | cons c t =>
      simp only [escapeAfter, Bool.and_eq_true, beq_iff_eq, List.all_eq_true, List.cons.injEq]
      constructor
      · rintro ⟨⟨rfl, hn⟩, hall⟩
        exact ⟨t, ⟨rfl, rfl⟩, hn, hall⟩
      · rintro ⟨t1, ⟨rfl, rfl⟩, hn, hall⟩
        exact ⟨⟨rfl, hn⟩, hall⟩

/-- The matcher of `escape_sequence` against the shape `escapeShape isDecimalDigit`. -/
theorem accepts_escape_sequence (s : List Char) :
    escape_sequence.accepts s = escapeShape isDecimalDigit s := by
  have h2 : ∀ (p : Char → Bool) (v : List Char),
      (Rx.seq (Rx.exactly 2 (.cls p)) (Rx.optional (.cls p))).Matches v ↔
        (v.length = 2 ∨ v.length = 3) ∧ ∀ c ∈ v, p c = true := by
    intro p v
    simp only [Rx.Matches.eq_3, Rx.matches_exactly_cls, Rx.matches_optional, Rx.Matches.eq_2]
    constructor
    · rintro ⟨u, w, rfl, ⟨hu, hall⟩, (⟨c, rfl, hc⟩ | rfl)⟩
      · refine ⟨Or.inr (by simp [hu]), ?_⟩
        intro e he
        rcases List.mem_append.mp he with he | he
        · exact hall e he
        · simp only [List.mem_singleton] at he
          rw [he]
          exact hc
      · exact ⟨Or.inl (by simp [hu]), by simpa using hall⟩
    · rintro ⟨hl, hall⟩
      refine ⟨v.take 2, v.drop 2, (List.take_append_drop 2 v).symm,
        ⟨by rw [List.length_take]; omega, fun c hc => hall c (List.mem_of_mem_take hc)⟩, ?_⟩
      rcases hl with hl | hl
      · right
        exact List.drop_eq_nil_of_le (by omega)
      · left
        match v, hl, hall with
        | [a, b, c], _, hall => exact ⟨c, rfl, hall c (by simp)⟩
  have hx : ∀ v : List Char,
      (Rx.seq (Rx.exactly 2 (.cls isHexDigit)) (.repeat_ (.cls isHexDigit))).Matches v ↔
        2 ≤ v.length ∧ ∀ c ∈ v, isHexDigit c = true := by
    intro v
    simp only [Rx.Matches.eq_3, Rx.matches_exactly_cls, Rx.matches_repeat_cls]
    constructor
    · rintro ⟨u, w, rfl, ⟨hu, hall⟩, hw⟩
      refine ⟨by simp [hu], ?_⟩
      intro e he
      rcases List.mem_append.mp he with he | he
      · exact hall e he
      · exact hw e he
    · rintro ⟨hl, hall⟩
      exact ⟨v.take 2, v.drop 2, (List.take_append_drop 2 v).symm,
        ⟨by rw [List.length_take]; omega, fun c hc => hall c (List.mem_of_mem_take hc)⟩,
        fun c hc => hall c (List.mem_of_mem_drop hc)⟩
  rw [Bool.eq_iff_iff, Rx.accepts_iff, escape_sequence, Rx.matches_seq_chr]
  simp only [Rx.Matches.eq_4, Rx.matches_seq_chr, decimalDigit, h2, hx, hexDigit,
    Rx.matches_exactly_cls, Rx.Matches.eq_2]
  cases s with
  | nil => simp [escapeShape]
  | cons b rest =>
      by_cases hb : b = '\\'
      · subst hb
        simp only [List.cons.injEq, true_and, exists_eq_left', escapeShape, beq_self_eq_true,
          Bool.true_and, Bool.or_eq_true, Bool.and_eq_true, List.all_eq_true,
          decide_eq_true_eq, escapeSingle_iff, escapeAfter_iff]
      · simp only [List.cons.injEq, escapeShape, Bool.and_eq_true, beq_iff_eq, hb, false_and,
          iff_false, not_exists, not_and]
        intro t ht
        exact ht.elim

/-- C10, as stated, fails: `\89` is accepted by `escape_sequence`, though `8` and `9` are
not octal digits, so it is a multi-digit numeric escape that is not of the stated shape. -/
theorem C10_decimal_escape_accepted :
    escape_sequence.accepts ['\\', '8', '9'] = true ∧
    escapeShape isOctalDigit ['\\', '8', '9'] = false ∧
    isOctalDigit '8' = false ∧ isOctalDigit '9' = false := by
  decide

/-- C10, amended: `escape_sequence` matches exactly the strings made of a backslash followed
by one of: a single character other than `x`, `u`, `U`; two or three decimal digits (0-9);
`x` followed by two or more hexadecimal digits; `u` followed by exactly four hexadecimal
digits; `U` followed by exactly eight hexadecimal digits.  Every string of the shape with
octal digits is among them. -/
theorem C10_escape_sequence_shape :
    (∀ s : List Char, escape_sequence.accepts s = escapeShape isDecimalDigit s) ∧
    (∀ s : List Char, escape_sequence.accepts s = true ↔
      ∃ rest, s = '\\' :: rest ∧
        ((∃ c, rest = [c] ∧ c ≠ 'x' ∧ c ≠ 'u' ∧ c ≠ 'U') ∨
          ((rest.length = 2 ∨ rest.length = 3) ∧ ∀ c ∈ rest, isDecimalDigit c = true) ∨
          (∃ t, rest = 'x' :: t ∧ 2 ≤ t.length ∧ ∀ c ∈ t, isHexDigit c = true) ∨
          (∃ t, rest = 'u' :: t ∧ t.length = 4 ∧ ∀ c ∈ t, isHexDigit c = true) ∨
          (∃ t, rest = 'U' :: t ∧ t.length = 8 ∧ ∀ c ∈ t, isHexDigit c = true))) ∧
    (∀ s : List Char, escapeShape isOctalDigit s = true → escape_sequence.accepts s = true) ∧
    (escape_sequence.accepts "\\n".toList = true ∧ escape_sequence.accepts "\\012".toList = true ∧
      escape_sequence.accepts "\\x1F".toList = true ∧
      escape_sequence.accepts "\\u12aB".toList = true ∧
      escape_sequence.accepts "\\U0001F600".toList = true ∧
      escape_sequence.accepts "\\89".toList = true) ∧
    (escape_sequence.accepts "\\x".toList = false ∧ escape_sequence.accepts "\\x1".toList = false ∧
      escape_sequence.accepts "\\u123".toList = false ∧
      escape_sequence.accepts "\\u12345".toList = false ∧
      escape_sequence.accepts "\\U1234567".toList = false ∧
      escape_sequence.accepts "\\0123".toList = false ∧
      escape_sequence.accepts "n".toList = false) := by
  have shape : ∀ (digit : Char → Bool) (s : List Char), escapeShape digit s = true ↔
      ∃ rest, s = '\\' :: rest ∧
        ((∃ c, rest = [c] ∧ c ≠ 'x' ∧ c ≠ 'u' ∧ c ≠ 'U') ∨
          ((rest.length = 2 ∨ rest.length = 3) ∧ ∀ c ∈ rest, digit c = true) ∨
          (∃ t, rest = 'x' :: t ∧ 2 ≤ t.length ∧ ∀ c ∈ t, isHexDigit c = true) ∨
          (∃ t, rest = 'u' :: t ∧ t.length = 4 ∧ ∀ c ∈ t, isHexDigit c = true) ∨
          (∃ t, rest = 'U' :: t ∧ t.length = 8 ∧ ∀ c ∈ t, isHexDigit c = true)) := by
    intro digit s
    cases s with
    | nil => simp [escapeShape]
    | cons b rest =>
        simp only [escapeShape, Bool.and_eq_true, beq_iff_eq, Bool.or_eq_true,
          List.all_eq_true, decide_eq_true_eq, escapeSingle_iff, escapeAfter_iff,
          List.cons.injEq, Bool.not_eq_true', Bool.or_eq_false_iff, beq_eq_false_iff_ne]
        constructor
        · rintro ⟨rfl, h⟩
          refine ⟨rest, ⟨rfl, rfl⟩, ?_⟩
          simpa [and_assoc] using h
        · rintro ⟨r, ⟨rfl, rfl⟩, h⟩
          refine ⟨rfl, ?_⟩
          simpa [and_assoc] using h
  refine ⟨accepts_escape_sequence, ?_, ?_, by decide, by decide⟩
  · intro s
    rw [accepts_escape_sequence]
    exact shape isDecimalDigit s
  · intro s h
    rw [accepts_escape_sequence, shape]
    obtain ⟨rest, hs, h⟩ := (shape isOctalDigit s).mp h
    refine ⟨rest, hs, ?_⟩
    rcases h with h | ⟨hl, hall⟩ | h
    · exact Or.inl h
    · refine Or.inr (Or.inl ⟨hl, fun c hc => ?_⟩)
      have := hall c hc
      simp only [isOctalDigit, isDecimalDigit, inRange, Bool.and_eq_true,
        decide_eq_true_eq] at this ⊢
      have h7 : ('7' : Char).toNat = 55 := by decide
      have h9 : ('9' : Char).toNat = 57 := by decide
      omega
    · exact Or.inr (Or.inr h)

/-! ### C11: digit counts of the `x`, `u` and `U` escapes -/

/-- After a backslash and the letter `l`, one of `x`, `u`, `U`, only the alternative of that
letter can match. -/
theorem escapeShape_letter (l : Char) (hl : l = 'x' ∨ l = 'u' ∨ l = 'U') (w : List Char) :
    escapeShape isDecimalDigit ('\\' :: l :: w) =
      (escapeAfter 'x' (fun n => decide (2 ≤ n)) (l :: w) ||
        (escapeAfter 'u' (fun n => decide (n = 4)) (l :: w) ||
          escapeAfter 'U' (fun n => decide (n = 8)) (l :: w))) := by
  have h1 : escapeSingle (l :: w) = false := by
    cases w with
    | nil => rcases hl with rfl | rfl | rfl <;> decide
    | cons c t => rfl
  have h2 : (l :: w).all isDecimalDigit = false := by
    have : isDecimalDigit l = false := by
      rcases hl with rfl | rfl | rfl <;> decide
    simp [this]
  simp only [escapeShape, beq_self_eq_true, Bool.true_and, h1, h2, Bool.and_false,
    Bool.false_or]

/-- C11: a string `\x` + w is matched by `escape_sequence` iff w is two or more hexadecimal
digits, `\u` + w iff w is exactly four hexadecimal digits, and `\U` + w iff w is exactly
eight hexadecimal digits; `\x`, `\xA`, `\u123`, `\u12345` and `\U1234567` are rejected. -/
theorem C11_escape_digit_count :
    (∀ w : List Char, escape_sequence.accepts ('\\' :: 'x' :: w) = true ↔
      (2 ≤ w.length ∧ ∀ c ∈ w, isHexDigit c = true)) ∧
    (∀ w : List Char, escape_sequence.accepts ('\\' :: 'u' :: w) = true ↔
      (w.length = 4 ∧ ∀ c ∈ w, isHexDigit c = true)) ∧
    (∀ w : List Char, escape_sequence.accepts ('\\' :: 'U' :: w) = true ↔
      (w.length = 8 ∧ ∀ c ∈ w, isHexDigit c = true)) ∧
    (escape_sequence.accepts "\\x".toList = false ∧
      escape_sequence.accepts "\\xA".toList = false ∧
      escape_sequence.accepts "\\u123".toList = false ∧
      escape_sequence.accepts "\\u12345".toList = false ∧
      escape_sequence.accepts "\\U1234567".toList = false) ∧
    (escape_sequence.accepts "\\xAB".toList = true ∧
      escape_sequence.accepts "\\xABC".toList = true ∧
      escape_sequence.accepts "\\u1234".toList = true ∧
      escape_sequence.accepts "\\U12345678".toList = true) := by
  refine ⟨?_, ?_, ?_, by decide, by decide⟩
  · intro w
    rw [accepts_escape_sequence, escapeShape_letter 'x' (Or.inl rfl)]
    simp [escapeAfter]
  · intro w
    rw [accepts_escape_sequence, escapeShape_letter 'u' (Or.inr (Or.inl rfl))]
    simp [escapeAfter]
  · intro w
    rw [accepts_escape_sequence, escapeShape_letter 'U' (Or.inr (Or.inr rfl))]
    simp [escapeAfter]

/-! ### C19: the radix alternatives are disjoint -/

/-- C19: the binary, decimal, octal and hexadecimal alternatives of `int_literal` are
pairwise disjoint, so every accepted literal is accepted by exactly one of them; the bare
string `0` is accepted by the decimal alternative and by no other, the octal alternative
requiring at least one octal digit after the leading `0`. -/
theorem C19_radix_disjoint :
    (∀ s : List Char, ¬ (binaryLiteral.accepts s = true ∧ decimalLiteral.accepts s = true)) ∧
    (∀ s : List Char, ¬ (binaryLiteral.accepts s = true ∧ octalLiteral.accepts s = true)) ∧
    (∀ s : List Char, ¬ (binaryLiteral.accepts s = true ∧ hexLiteral.accepts s = true)) ∧
    (∀ s : List Char, ¬ (decimalLiteral.accepts s = true ∧ octalLiteral.accepts s = true)) ∧
    (∀ s : List Char, ¬ (decimalLiteral.accepts s = true ∧ hexLiteral.accepts s = true)) ∧
    (∀ s : List Char, ¬ (octalLiteral.accepts s = true ∧ hexLiteral.accepts s = true)) ∧
    (∀ s : List Char, int_literal.accepts s = true ↔
      (binaryLiteral.accepts s = true ∨ decimalLiteral.accepts s = true ∨
        octalLiteral.accepts s = true ∨ hexLiteral.accepts s = true)) ∧
    (decimalLiteral.accepts ['0'] = true ∧ octalLiteral.accepts ['0'] = false ∧
      binaryLiteral.accepts ['0'] = false ∧ hexLiteral.accepts ['0'] = false) ∧
    (∀ s : List Char, octalLiteral.accepts s = true →
      ∃ p c t, s = '0' :: (p ++ c :: t) ∧ isOctalDigit c = true) := by
  have hoct : ∀ x t, sepDigits isOctalDigit (x :: t) = true →
      x = '_' ∨ isOctalDigit x = true := by
    intro x t h
    simp only [sepDigits, Bool.and_eq_true] at h
    rcases sepTail_cons_elim _ false x t h.2 with ⟨hx, _, _⟩ | ⟨_, hx, _⟩
    · exact Or.inl hx
    · exact Or.inr hx
  have hdig : ∀ (d : Char → Bool) (t : List Char), sepDigits d t = true →
      ∃ p c t1, t = p ++ c :: t1 ∧ d c = true := by
    intro d t h
    simp only [sepDigits, Bool.and_eq_true, Bool.not_eq_true', List.isEmpty_eq_false] at h
    cases t with
    | nil => exact absurd rfl h.1
    | cons x t1 =>
        rcases sepTail_cons_elim _ false x t1 h.2 with ⟨rfl, _, ht⟩ | ⟨_, hx, _⟩
        · cases t1 with
          | nil => simp [sepTail] at ht
          | cons c t2 =>
              rw [sepTail_true_cons] at ht
              simp only [Bool.and_eq_true] at ht
              exact ⟨['_'], c, t2, rfl, ht.1.2⟩
        · exact ⟨[], x, t1, rfl, hx⟩
  refine ⟨?_, ?_, ?_, ?_, ?_, ?_, ?_, by decide, ?_⟩
  · rintro s ⟨hb, hd⟩
    rw [accepts_binaryLiteral] at hb
    rw [accepts_decimalLiteral] at hd
    obtain ⟨x, t, rfl, hx, _⟩ := isPrefixedLiteral_cons _ _ _ _ hb
    rcases isDecimalLiteral_cons _ hd with h | ⟨c, t1, h, hc, _⟩
    · simp at h
    · simp only [List.cons.injEq] at h
      rw [← h.1] at hc
      revert hc
      decide
  · rintro s ⟨hb, ho⟩
    rw [accepts_binaryLiteral] at hb
    rw [accepts_octalLiteral] at ho
    obtain ⟨x, t, rfl, hx, _⟩ := isPrefixedLiteral_cons _ _ _ _ hb
    obtain ⟨y, t1, h, hy⟩ := isOctalLiteral_cons _ ho
    simp only [List.cons.injEq, true_and] at h
    obtain ⟨rfl, rfl⟩ := h
    rcases hy with hy | ⟨hy, _⟩
    · rcases hoct _ _ hy with h1 | h1 <;> rcases hx with rfl | rfl <;> revert h1 <;> decide
    · rcases hy with h1 | h1 <;> rcases hx with rfl | rfl <;> revert h1 <;> decide
  · rintro s ⟨hb, hh⟩
    rw [accepts_binaryLiteral] at hb
    rw [accepts_hexLiteral] at hh
    obtain ⟨x, t, rfl, hx, _⟩ := isPrefixedLiteral_cons _ _ _ _ hb
    obtain ⟨y, t1, h, hy, _⟩ := isPrefixedLiteral_cons _ _ _ _ hh
    simp only [List.cons.injEq, true_and] at h
    obtain ⟨rfl, rfl⟩ := h
    rcases hy with h1 | h1 <;> rcases hx with rfl | rfl <;> revert h1 <;> decide
  · rintro s ⟨hd, ho⟩
    rw [accepts_decimalLiteral] at hd
    rw [accepts_octalLiteral] at ho
    obtain ⟨y, t1, rfl, _⟩ := isOctalLiteral_cons _ ho
    rcases isDecimalLiteral_cons _ hd with h | ⟨c, t2, h, hc, _⟩
    · simp at h
    · simp only [List.cons.injEq] at h
      rw [← h.1] at hc
      revert hc
      decide
  · rintro s ⟨hd, hh⟩
    rw [accepts_decimalLiteral] at hd
    rw [accepts_hexLiteral] at hh
    obtain ⟨y, t1, rfl, _⟩ := isPrefixedLiteral_cons _ _ _ _ hh
    rcases isDecimalLiteral_cons _ hd with h | ⟨c, t2, h, hc, _⟩
    · simp at h
    · simp only [List.cons.injEq] at h
      rw [← h.1] at hc
      revert hc
      decide
  · rintro s ⟨ho, hh⟩
    rw [accepts_octalLiteral] at ho
    rw [accepts_hexLiteral] at hh
    obtain ⟨x, t, rfl, hx, _⟩ := isPrefixedLiteral_cons _ _ _ _ hh
    obtain ⟨y, t1, h, hy⟩ := isOctalLiteral_cons _ ho
    simp only [List.cons.injEq, true_and] at h
    obtain ⟨rfl, rfl⟩ := h
    rcases hy with hy | ⟨hy, _⟩
    · rcases hoct _ _ hy with h1 | h1 <;> rcases hx with rfl | rfl <;> revert h1 <;> decide
    · rcases hy with h1 | h1 <;> rcases hx with rfl | rfl <;> revert h1 <;> decide
  · intro s
    rw [int_literal, ← Bool.or_eq_true, ← Bool.or_eq_true, ← Bool.or_eq_true,
      accepts_intLiteral, accepts_binaryLiteral, accepts_decimalLiteral, accepts_octalLiteral,
      accepts_hexLiteral]
  · intro s ho
    rw [accepts_octalLiteral] at ho
    obtain ⟨y, t1, rfl, hy⟩ := isOctalLiteral_cons _ ho
    rcases hy with hy | ⟨_, hy⟩
    · obtain ⟨p, c, t2, h, hc⟩ := hdig _ _ hy
      exact ⟨p, c, t2, by rw [h], hc⟩
    · obtain ⟨p, c, t2, h, hc⟩ := hdig _ _ hy
      exact ⟨y :: p, c, t2, by rw [h]; rfl, hc⟩

/-! ### C14: storage qualifiers -/

/-- Every tree of `storage` is one of ten. -/
theorem Storage.cases_ten (s : Storage) :
    s = .reg none ∨ s = .reg (some ⟨none⟩) ∨ s = .reg (some ⟨some .const⟩) ∨
      s = .reg (some ⟨some .mut⟩) ∨ s = .stack none ∨ s = .stack (some ⟨none⟩) ∨
      s = .stack (some ⟨some .const⟩) ∨ s = .stack (some ⟨some .mut⟩) ∨
      s = .inline ∨ s = .global := by
  rcases s with (_ | ⟨⟨_ | (_ | _)⟩⟩) | (_ | ⟨⟨_ | (_ | _)⟩⟩) | _ | _ <;> simp

theorem Storage.yield_mem (s : Storage) : s.yield ∈ storageSequences := by
  rcases Storage.cases_ten s with h | h | h | h | h | h | h | h | h | h <;> subst h <;> decide

/-- C14: the `storage` rule derives exactly the ten token sequences `reg`, `reg ptr`,
`reg const ptr`, `reg mut ptr`, `stack`, `stack ptr`, `stack const ptr`, `stack mut ptr`,
`inline`, `global`, all different; hence in every derivation `ptr` is the last token and
the first is `reg` or `stack`, and `const` or `mut` stands directly after `reg` or `stack`
and directly before the final `ptr`. -/
theorem C14_storage_sequences :
    (∀ ts : List Tok, (∃ s : Storage, s.yield = ts) ↔ ts ∈ storageSequences) ∧
    storageSequences.length = 10 ∧ storageSequences.Nodup ∧
    (∀ (s : Storage) (p q : List Tok), s.yield = p ++ Tok.lit "ptr" :: q →
      q = [] ∧ ∃ p1, p = Tok.lit "reg" :: p1 ∨ p = Tok.lit "stack" :: p1) ∧
    (∀ (s : Storage) (p q : List Tok) (w : String), w = "const" ∨ w = "mut" →
      s.yield = p ++ Tok.lit w :: q →
      q = [Tok.lit "ptr"] ∧ (p = [Tok.lit "reg"] ∨ p = [Tok.lit "stack"])) ∧
    (∀ s : Storage, s.yield ≠ [] ∧ s.yield.length ≤ 3) := by
  refine ⟨?_, by decide, by decide, ?_, ?_, ?_⟩
  · intro ts
    constructor
    · rintro ⟨s, rfl⟩
      exact Storage.yield_mem s
    · intro h
      simp only [storageSequences, List.mem_cons, List.mem_singleton, List.not_mem_nil,
        or_false] at h
      rcases h with h | h | h | h | h | h | h | h | h | h
      · exact ⟨.reg none, h.symm⟩
      · exact ⟨.reg (some ⟨none⟩), h.symm⟩
      · exact ⟨.reg (some ⟨some .const⟩), h.symm⟩
      · exact ⟨.reg (some ⟨some .mut⟩), h.symm⟩
      · exact ⟨.stack none, h.symm⟩
      · exact ⟨.stack (some ⟨none⟩), h.symm⟩
      · exact ⟨.stack (some ⟨some .const⟩), h.symm⟩
      · exact ⟨.stack (some ⟨some .mut⟩), h.symm⟩
      · exact ⟨.inline, h.symm⟩
      · exact ⟨.global, h.symm⟩
  · intro s p q h
    rcases Storage.cases_ten s with hs | hs | hs | hs | hs | hs | hs | hs | hs | hs <;>
      subst hs <;>
      rcases p with _ | ⟨a, _ | ⟨b, _ | ⟨c, p⟩⟩⟩ <;>
      simp [Storage.yield, optPointer, Pointer.yield, optWritable, Writable.tok] at h ⊢ <;>
      simp_all
  · intro s p q w hw h
    rcases Storage.cases_ten s with hs | hs | hs | hs | hs | hs | hs | hs | hs | hs <;>
      subst hs <;>
      rcases p with _ | ⟨a, _ | ⟨b, _ | ⟨c, p⟩⟩⟩ <;>
      rcases hw with rfl | rfl <;>
      simp [Storage.yield, optPointer, Pointer.yield, optWritable, Writable.tok] at h ⊢ <;>
      simp_all
  · intro s
    rcases Storage.cases_ten s with hs | hs | hs | hs | hs | hs | hs | hs | hs | hs <;>
      subst hs <;> decide

/-! ### C18: cast suffix of binary operators -/

theorem CastOp.toks_not_starts (c : CastOp) (X : List Tok) (t : Tok) (Y : List Tok)
    (h : c.toks ++ X = t :: Y) : t.startsExpr = false := by
  cases c <;> simp only [CastOp.toks, List.cons_append, List.nil_append, List.cons.injEq] at h <;>
    rw [← h.1] <;> rfl

/-- No operator of `bin_expr` begins with `(`, `.` or `[`. -/
theorem BinOp.toks_head_open (op : BinOp) (X : List Tok) (t : Tok) (Y : List Tok)
    (h : op.toks ++ X = t :: Y) :
    t ≠ Tok.lit "(" ∧ t ≠ Tok.lit "." ∧ t ≠ Tok.lit "[" := by
  obtain ⟨s, c, hs, hmem⟩ := BinOp.toks_eq op
  rw [hs] at h
  simp only [List.cons_append, List.cons.injEq] at h
  rw [← h.1]
  simp only [multiplicativeOperators, additiveOperators, comparativeOperators, List.cons_append,
    List.nil_append, List.mem_cons, List.mem_singleton, List.not_mem_nil, or_false] at hmem
  rcases hmem with h | h | h | h | h | h | h | h | h | h | h | h | h | h | h | h | h | h | h |
    h | h | h | h | h | h | h | h | h | h | h | h <;> subst h <;> decide

/-- Reading an operator, with or without `castop`, off the front of a token sequence that
continues with an expression. -/
theorem BinOp.toks_append_expr_inv (op o : BinOp) (r : Expr) (us Y : List Tok) (y : String)
    (h : op.toks ++ (r.yield ++ us) = o.toks ++ Tok.identifier y :: Y) :
    op = o ∧ r.yield ++ us = Tok.identifier y :: Y := by
  obtain ⟨s, c, hs, _⟩ := BinOp.toks_eq o
  obtain ⟨s1, c1, hs1, _⟩ := BinOp.toks_eq op
  rw [hs, hs1] at h
  simp only [List.cons_append, List.cons.injEq, Tok.lit.injEq] at h
  obtain ⟨hss, h⟩ := h
  obtain ⟨t, ts, hr, hst⟩ := Expr.yield_head r
  have key : optCastop c1 = optCastop c ∧ r.yield ++ us = Tok.identifier y :: Y := by
    cases c1 with
    | none =>
        cases c with
        | none => exact ⟨rfl, by simpa [optCastop] using h⟩
        | some c =>
            exfalso
            simp only [optCastop, List.nil_append, hr, List.cons_append] at h
            have := CastOp.toks_not_starts c _ _ _ h.symm
            rw [this] at hst
            cases hst
    | some c1 =>
        cases c with
        | none => cases c1 <;> simp [optCastop, CastOp.toks] at h
        | some c =>
            cases c1 <;> cases c <;>
              simp only [optCastop, CastOp.toks, List.cons_append, List.nil_append,
                List.cons.injEq, Tok.swsize.injEq, Tok.svsize.injEq, reduceCtorEq,
                false_and] at h ⊢
            · obtain ⟨⟨rfl, rfl⟩, h⟩ := h
              exact ⟨⟨⟨rfl, rfl⟩, trivial⟩, h⟩
            · obtain ⟨⟨rfl, rfl, rfl⟩, h⟩ := h
              exact ⟨⟨⟨rfl, rfl, rfl⟩, trivial⟩, h⟩
  refine ⟨BinOp.toks_injective _ _ ?_, key.2⟩
  rw [hs, hs1, hss, key.1]

/-- Trees spelling a prefix of `x o y`, for any operator `o`, with or without `castop`. -/
theorem Expr.inv3_any (x y : String) (o : BinOp) :
    ∀ (n : Nat) (e : Expr) (us : List Tok), e.yield.length ≤ n →
      e.yield ++ us = Tok.identifier x :: (o.toks ++ [Tok.identifier y]) →
      (e, us) ∈ [(Expr.identifier x, o.toks ++ [Tok.identifier y]),
        (Expr.bin_expr (.identifier x) o (.identifier y), [])] := by
  intro n
  induction n with
  | zero =>
      intro e us hn
      have := Expr.yield_length_pos e
      omega
  | succ n ih =>
      intro e us hn h
      rcases Expr.yield_ident_cases e us x _ h (BinOp.toks_head_open o _) with
        ⟨rfl, rfl⟩ | ⟨l, op, r, rfl⟩ | ⟨c, a, b, rfl⟩
      · simp
      · rw [Expr.bin_yield_append] at h
        have h0 := ih l _ (Expr.bin_left_length l r op n hn) h
        simp only [List.mem_cons, Prod.mk.injEq, List.mem_singleton, List.not_mem_nil,
          or_false] at h0
        rcases h0 with ⟨rfl, h2⟩ | ⟨rfl, h2⟩
        · obtain ⟨rfl, h3⟩ := BinOp.toks_append_expr_inv op o r us _ y h2
          obtain ⟨rfl, rfl⟩ := Expr.inv1 y r us h3
          simp
        · simp [BinOp.toks_ne_nil] at h2
      · rw [Expr.ternary_yield_append] at h
        have h0 := ih c _ (Expr.ternary_left_length c a b n hn) h
        simp only [List.mem_cons, Prod.mk.injEq, List.mem_singleton, List.not_mem_nil,
          or_false] at h0
        rcases h0 with ⟨rfl, h2⟩ | ⟨rfl, h2⟩
        · exact absurd rfl (BinOp.toks_head o _ _ _ h2.symm).1
        · simp at h2

/-- An operator spelled `&&` or `||` is the operator of that alternative, which has no
`castop`. -/
theorem BinOp.head_logical (op : BinOp) (s : String) (hs : s = "&&" ∨ s = "||")
    (X Y : List Tok) (h : op.toks ++ X = Tok.lit s :: Y) : op.toks = [Tok.lit s] ∧ X = Y := by
  have hm : ∀ i : Fin multiplicativeOperators.length,
      multiplicativeOperators.get i ≠ "&&" ∧ multiplicativeOperators.get i ≠ "||" := by decide
  have ha : ∀ i : Fin additiveOperators.length,
      additiveOperators.get i ≠ "&&" ∧ additiveOperators.get i ≠ "||" := by decide
  have hc : ∀ i : Fin comparativeOperators.length,
      comparativeOperators.get i ≠ "&&" ∧ comparativeOperators.get i ≠ "||" := by decide
  cases op with
  | and =>
      simp only [BinOp.toks, List.cons_append, List.nil_append, List.cons.injEq,
        Tok.lit.injEq] at h ⊢
      exact ⟨⟨h.1, trivial⟩, h.2⟩
  | or =>
      simp only [BinOp.toks, List.cons_append, List.nil_append, List.cons.injEq,
        Tok.lit.injEq] at h ⊢
      exact ⟨⟨h.1, trivial⟩, h.2⟩
  | mult i c =>
      simp only [BinOp.toks, List.cons_append, List.cons.injEq, Tok.lit.injEq] at h
      rcases hs with rfl | rfl
      · exact absurd h.1 (hm i).1
      · exact absurd h.1 (hm i).2
  | add i c =>
      simp only [BinOp.toks, List.cons_append, List.cons.injEq, Tok.lit.injEq] at h
      rcases hs with rfl | rfl
      · exact absurd h.1 (ha i).1
      · exact absurd h.1 (ha i).2
  | comp i c =>
      simp only [BinOp.toks, List.cons_append, List.cons.injEq, Tok.lit.injEq] at h
      rcases hs with rfl | rfl
      · exact absurd h.1 (hc i).1
      · exact absurd h.1 (hc i).2

/-- After `x &&` or `x ||` no cast tag can follow: the only tree spelling a prefix of
`x && c y` is the identifier `x`. -/
theorem Expr.inv_logical_castop (x y : String) (s : String) (hs : s = "&&" ∨ s = "||")
    (c : CastOp) :
    ∀ (n : Nat) (e : Expr) (us : List Tok), e.yield.length ≤ n →
      e.yield ++ us = Tok.identifier x :: Tok.lit s :: (c.toks ++ [Tok.identifier y]) →
      e = .identifier x ∧ us = Tok.lit s :: (c.toks ++ [Tok.identifier y]) := by
  intro n
  induction n with
  | zero =>
      intro e us hn
      have := Expr.yield_length_pos e
      omega
  | succ n ih =>
      intro e us hn h
      have hrest : ∀ t ts, Tok.lit s :: (c.toks ++ [Tok.identifier y]) = t :: ts →
          t ≠ Tok.lit "(" ∧ t ≠ Tok.lit "." ∧ t ≠ Tok.lit "[" := by
        intro t ts ht
        simp only [List.cons.injEq] at ht
        rw [← ht.1]
        rcases hs with rfl | rfl <;> decide
      rcases Expr.yield_ident_cases e us x _ h hrest with
        ⟨rfl, rfl⟩ | ⟨l, op, r, rfl⟩ | ⟨c1, a, b, rfl⟩
      · exact ⟨rfl, rfl⟩
      · exfalso
        rw [Expr.bin_yield_append] at h
        obtain ⟨rfl, h2⟩ := ih l _ (Expr.bin_left_length l r op n hn) h
        obtain ⟨_, h3⟩ := BinOp.head_logical op s hs _ _ h2
        obtain ⟨t, ts, hr, hst⟩ := Expr.yield_head r
        rw [hr] at h3
        have := CastOp.toks_not_starts c _ _ _ h3.symm
        rw [this] at hst
        cases hst
      · exfalso
        rw [Expr.ternary_yield_append] at h
        obtain ⟨rfl, h2⟩ := ih c1 _ (Expr.ternary_left_length c1 a b n hn) h
        simp only [List.cons.injEq, Tok.lit.injEq] at h2
        rcases hs with rfl | rfl <;> exact absurd h2.1 (by decide)

/-- C18, as stated, fails at the logical levels: `a && 32u b` is the yield of no tree of
`_expr`, in particular of no `bin_expr` (the alternatives of `&&` and `||` have the bare
token as operator, without `optional($.castop)`). -/
theorem C18_and_has_no_suffix :
    ¬ ∃ e : Expr, e.yield = [Tok.identifier "a", Tok.lit "&&", Tok.swsize .b32 .u,
      Tok.identifier "b"] := by
  rintro ⟨e, h⟩
  have h1 := Expr.inv_logical_castop "a" "b" "&&" (Or.inl rfl) (.swsize .b32 .u) _ e []
    (le_refl _) (by simpa [CastOp.toks] using h)
  simp at h1

/-- C18, amended: at the multiplicative, additive and comparative levels the operator
optionally carries a trailing cast suffix that is part of the operator: for every operator
`op` of `_mult_op`, `_add_op`, `_comp_op`, every cast tag `c` (any `swsize` or `svsize`
token) and identifiers `x`, `y`, both `x op y` and `x op c y` have exactly one parse, the
`bin_expr` with operands `x` and `y` whose `operator` field spells `op`, respectively `op`
followed by `c`; no `cast_expr` is involved.  The operators `&&` and `||` carry no suffix:
`x && c y` and `x || c y` have no parse. -/
theorem C18_operator_cast_suffix :
    (∀ (i : Fin multiplicativeOperators.length) (c : CastOp),
      (BinOp.mult i none).toks = [Tok.lit (multiplicativeOperators.get i)] ∧
      (BinOp.mult i (some c)).toks = Tok.lit (multiplicativeOperators.get i) :: c.toks) ∧
    (∀ (i : Fin additiveOperators.length) (c : CastOp),
      (BinOp.add i none).toks = [Tok.lit (additiveOperators.get i)] ∧
      (BinOp.add i (some c)).toks = Tok.lit (additiveOperators.get i) :: c.toks) ∧
    (∀ (i : Fin comparativeOperators.length) (c : CastOp),
      (BinOp.comp i none).toks = [Tok.lit (comparativeOperators.get i)] ∧
      (BinOp.comp i (some c)).toks = Tok.lit (comparativeOperators.get i) :: c.toks) ∧
    (∀ t : Tok, (∃ c : CastOp, c.toks = [t]) ↔
      ((∃ z g, t = Tok.swsize z g) ∨ ∃ v g z, t = Tok.svsize v g z)) ∧
    (∀ (a b : Expr) (op : BinOp),
      (Expr.bin_expr a op b).yield = a.yield ++ (op.toks ++ b.yield)) ∧
    (∀ (op : BinOp) (x y : String) (e : Expr),
      e.yield = Tok.identifier x :: (op.toks ++ [Tok.identifier y]) ↔
        e = .bin_expr (.identifier x) op (.identifier y)) ∧
    BinOp.and.toks = [Tok.lit "&&"] ∧ BinOp.or.toks = [Tok.lit "||"] ∧
    (∀ (c : CastOp) (x y : String) (e : Expr),
      e.yield ≠ Tok.identifier x :: Tok.lit "&&" :: (c.toks ++ [Tok.identifier y]) ∧
      e.yield ≠ Tok.identifier x :: Tok.lit "||" :: (c.toks ++ [Tok.identifier y])) := by
  refine ⟨fun _ _ => ⟨rfl, rfl⟩, fun _ _ => ⟨rfl, rfl⟩, fun _ _ => ⟨rfl, rfl⟩, ?_,
    fun _ _ _ => rfl, ?_, rfl, rfl, ?_⟩
  · intro t
    constructor
    · rintro ⟨c, hc⟩
      cases c with
      | swsize z g =>
          simp only [CastOp.toks, List.cons.injEq, and_true] at hc
          exact Or.inl ⟨z, g, hc.symm⟩
      | svsize v g z =>
          simp only [CastOp.toks, List.cons.injEq, and_true] at hc
          exact Or.inr ⟨v, g, z, hc.symm⟩
    · rintro (⟨z, g, rfl⟩ | ⟨v, g, z, rfl⟩)
      · exact ⟨.swsize z g, rfl⟩
      · exact ⟨.svsize v g z, rfl⟩
  · intro op x y e
    constructor
    · intro h
      have h1 := Expr.inv3_any x y op _ e [] (le_refl _) (by simpa using h)
      simp only [List.mem_cons, Prod.mk.injEq, List.mem_singleton, List.not_mem_nil,
        or_false] at h1
      rcases h1 with ⟨_, h2⟩ | ⟨h2, _⟩
      · simp at h2
      · exact h2
    · rintro rfl
      simp [Expr.yield]
  · intro c x y e
    constructor
    · intro h
      have h1 := Expr.inv_logical_castop x y "&&" (Or.inl rfl) c _ e [] (le_refl _)
        (by simpa using h)
      simp at h1
    · intro h
      have h1 := Expr.inv_logical_castop x y "||" (Or.inr rfl) c _ e [] (le_refl _)
        (by simpa using h)
      simp at h1

/-! ### Words and finite token languages -/

namespace Rx

theorem matches_word : ∀ (w s : List Char), (word w).Matches s ↔ s = w
  | [], s => by simp [word, Matches]
  | c :: cs, s => by
      rw [word, matches_seq_chr]
      constructor
      · rintro ⟨t, rfl, ht⟩
        rw [(matches_word cs t).mp ht]
      · rintro rfl
        exact ⟨cs, rfl, (matches_word cs cs).mpr rfl⟩

theorem matches_oneOf : ∀ (ws : List (List Char)) (s : List Char),
    (oneOf ws).Matches s ↔ s ∈ ws
  | [], s => by
      simp only [oneOf, List.not_mem_nil, iff_false]
      exact not_matches_never s
  | w :: ws, s => by
      simp only [oneOf, Matches, matches_word, matches_oneOf ws, List.mem_cons]

end Rx

theorem Rx.matches_seq (a b : Rx) (s : List Char) :
    (Rx.seq a b).Matches s ↔ ∃ u v, s = u ++ v ∧ a.Matches u ∧ b.Matches v := Iff.rfl

theorem Rx.matches_choice (a b : Rx) (s : List Char) :
    (Rx.choice a b).Matches s ↔ a.Matches s ∨ b.Matches s := Iff.rfl

theorem accepts_swsize (s : List Char) : swsize.accepts s = true ↔ s ∈ swsizeWords := by
  rw [Rx.accepts_iff, swsize, SIZE, SIGNLETTER]
  simp only [Rx.matches_seq, Rx.matches_oneOf, swsizeWords, List.mem_flatMap, List.mem_map]
  constructor
  · rintro ⟨u, v, rfl, hu, hv⟩
    exact ⟨u, hu, v, hv, rfl⟩
  · rintro ⟨u, hu, v, hv, rfl⟩
    exact ⟨u, v, rfl, hu, hv⟩

theorem accepts_svsize (s : List Char) : svsize.accepts s = true ↔ s ∈ svsizeWords := by
  rw [Rx.accepts_iff, svsize, VSIZE, SIGNLETTER, GENSIZE]
  simp only [Rx.matches_seq, Rx.matches_oneOf, svsizeWords, List.mem_flatMap, List.mem_map]
  constructor
  · rintro ⟨u, v, rfl, hu, g, z, rfl, hg, hz⟩
    exact ⟨u, hu, g, hg, z, hz, rfl⟩
  · rintro ⟨u, hu, g, hg, z, hz, rfl⟩
    exact ⟨u, g ++ z, rfl, hu, g, z, rfl, hg, hz⟩

theorem accepts_utype (s : List Char) : _utype.accepts s = true ↔ s ∈ utypeWords := by
  rw [Rx.accepts_iff, _utype, Rx.matches_oneOf]

/-! ### C12: sized-type tokens and identifiers -/

/-- C12, as stated, fails: each of `u8`, `u16`, `u32`, `u64`, `u128`, `u256` is matched by
the `_utype` pattern and also by the `identifier` pattern, so the two token languages are
not disjoint. -/
theorem C12_utype_is_identifier :
    _utype.accepts "u8".toList = true ∧ identifier.accepts "u8".toList = true ∧
    (∀ s ∈ utypeWords, _utype.accepts s = true ∧ identifier.accepts s = true) := by
  decide

/-- C12, amended: the `_utype` pattern matches exactly the six strings `u8`, `u16`, `u32`,
`u64`, `u128`, `u256`, and each of them is also matched by the `identifier` pattern (and by
`_nid`): the language of `_utype` is a proper part of the language of `identifier`, not
disjoint from it. -/
theorem C12_utype_words :
    (∀ s : List Char, _utype.accepts s = true ↔ s ∈ utypeWords) ∧
    utypeWords = ["u8".toList, "u16".toList, "u32".toList, "u64".toList, "u128".toList,
      "u256".toList] ∧
    utypeWords.length = 6 ∧ utypeWords.Nodup ∧
    (∀ s : List Char, _utype.accepts s = true →
      identifier.accepts s = true ∧ _nid.accepts s = true) ∧
    (identifier.accepts "u7".toList = true ∧ _utype.accepts "u7".toList = false ∧
      identifier.accepts "u512".toList = true ∧ _utype.accepts "u512".toList = false ∧
      _utype.accepts "8u".toList = false ∧ _utype.accepts "U8".toList = false) := by
  refine ⟨accepts_utype, rfl, rfl, by decide, ?_, by decide⟩
  intro s hs
  have h : ∀ w ∈ utypeWords, identifier.accepts w = true ∧ _nid.accepts w = true := by decide
  exact h s ((accepts_utype s).mp hs)

/-! ### C13: cast tags -/

/-- C13: `swsize` matches exactly the 12 strings made of 8, 16, 32, 64, 128 or 256 followed
by `s` or `u`; `svsize` exactly the 80 strings made of 2, 4, 8, 16 or 32, then `s` or `u`,
then 1, 2, 4, 8, 16, 32, 64 or 128; no string is matched by both, and no string matched by
either is matched by `identifier`, `_nid`, `_utype` or `int_literal`. -/
theorem C13_cast_tags :
    (∀ s : List Char, swsize.accepts s = true ↔ s ∈ swsizeWords) ∧
    swsizeWords = ["8s".toList, "8u".toList, "16s".toList, "16u".toList, "32s".toList,
      "32u".toList, "64s".toList, "64u".toList, "128s".toList, "128u".toList, "256s".toList,
      "256u".toList] ∧
    swsizeWords.length = 12 ∧ swsizeWords.Nodup ∧
    (∀ s : List Char, svsize.accepts s = true ↔ s ∈ svsizeWords) ∧
    (∀ s : List Char, s ∈ svsizeWords ↔
      ∃ v ∈ vsizeWords, ∃ g ∈ signWords, ∃ z ∈ genSizeWords, s = v ++ (g ++ z)) ∧
    svsizeWords.length = 80 ∧ svsizeWords.Nodup ∧
    (∀ s : List Char, ¬ (swsize.accepts s = true ∧ svsize.accepts s = true)) ∧
    (∀ s : List Char, swsize.accepts s = true ∨ svsize.accepts s = true →
      identifier.accepts s = false ∧ _nid.accepts s = false ∧ _utype.accepts s = false ∧
        int_literal.accepts s = false) := by
  have hdisj : ∀ s ∈ swsizeWords, s ∉ svsizeWords := by decide
  have hother : ∀ s ∈ swsizeWords ++ svsizeWords,
      identifier.accepts s = false ∧ _nid.accepts s = false ∧ _utype.accepts s = false ∧
        int_literal.accepts s = false := by decide
  refine ⟨accepts_swsize, by decide, by decide, by decide, accepts_svsize, ?_, by decide,
    by decide, ?_, ?_⟩
  · intro s
    simp only [svsizeWords, List.mem_flatMap, List.mem_map]
    constructor
    · rintro ⟨v, hv, g, hg, z, hz, rfl⟩
      exact ⟨v, hv, g, hg, z, hz, rfl⟩
    · rintro ⟨v, hv, g, hg, z, hz, rfl⟩
      exact ⟨v, hv, g, hg, z, hz, rfl⟩
  · rintro s ⟨h1, h2⟩
    exact hdisj s ((accepts_swsize s).mp h1) ((accepts_svsize s).mp h2)
  · rintro s (h | h)
    · exact hother s (List.mem_append_left _ ((accepts_swsize s).mp h))
    · exact hother s (List.mem_append_right _ ((accepts_svsize s).mp h))

/-! ### C17: identifiers -/

theorem matches_simpleName (s : List Char) :
    (Rx.seq (.cls isNameStart) (.repeat_ (.cls isNameChar))).Matches s ↔
      isSimpleName s = true := by
  rw [Rx.matches_seq_cls]
  simp only [Rx.matches_repeat_cls]
  cases s with
  | nil => simp [isSimpleName]
  | cons c t =>
      simp only [isSimpleName, Bool.and_eq_true, List.all_eq_true, List.cons.injEq]
      constructor
      · rintro ⟨d, u, ⟨rfl, rfl⟩, hd, hu⟩
        exact ⟨hd, hu⟩
      · rintro ⟨hc, ht⟩
        exact ⟨c, t, ⟨rfl, rfl⟩, hc, ht⟩

theorem accepts_nid (s : List Char) : _nid.accepts s = isSimpleName s := by
  rw [Bool.eq_iff_iff, Rx.accepts_iff, _nid, matches_simpleName]

/-- The pieces of the repetition in `identifier`: `::` followed by a simple name. -/
theorem matches_qualifier (p : List Char) :
    (Rx.seq (Rx.word "::".toList)
      (.seq (.cls isNameStart) (.repeat_ (.cls isNameChar)))).Matches p ↔
      ∃ m, p = ':' :: ':' :: m ∧ isSimpleName m = true := by
  rw [Rx.matches_seq]
  simp only [Rx.matches_word, matches_simpleName]
  constructor
  · rintro ⟨u, v, rfl, rfl, hv⟩
    exact ⟨v, rfl, hv⟩
  · rintro ⟨m, rfl, hm⟩
    exact ⟨"::".toList, m, rfl, rfl, hm⟩

theorem matches_qualified (v : List Char) :
    (Rx.repeat_ (Rx.seq (Rx.word "::".toList)
      (.seq (.cls isNameStart) (.repeat_ (.cls isNameChar))))).Matches v ↔
      ∃ ms : List (List Char), (∀ m ∈ ms, isSimpleName m = true) ∧ v = qualified ms := by
  constructor
  · rintro ⟨ps, rfl, hps⟩
    induction ps with
    | nil => exact ⟨[], by simp, rfl⟩
    | cons p ps ih =>
        obtain ⟨ms, hms, hq⟩ := ih (fun q hq => hps q (List.mem_cons_of_mem _ hq))
        obtain ⟨m, rfl, hm⟩ := (matches_qualifier p).mp (hps p (List.mem_cons_self _ _))
        refine ⟨m :: ms, ?_, ?_⟩
        · intro x hx
          rcases List.mem_cons.mp hx with rfl | hx
          · exact hm
          · exact hms x hx
        · simp only [List.flatten_cons, qualified, List.map_cons]
          rw [hq]
          rfl
  · rintro ⟨ms, hms, rfl⟩
    refine ⟨ms.map (fun m => ':' :: ':' :: m), rfl, ?_⟩
    intro p hp
    obtain ⟨m, hm, rfl⟩ := List.mem_map.mp hp
    exact (matches_qualifier _).mpr ⟨m, rfl, hms m hm⟩

/-- The matcher of `identifier`: simple names joined by `::`. -/
theorem accepts_identifier (s : List Char) :
    identifier.accepts s = true ↔
      ∃ (n : List Char) (ms : List (List Char)), isSimpleName n = true ∧
        (∀ m ∈ ms, isSimpleName m = true) ∧ s = n ++ qualified ms := by
  rw [Rx.accepts_iff, identifier, Rx.matches_seq_cls]
  simp only [Rx.matches_seq, Rx.matches_repeat_cls, matches_qualified]
  constructor
  · rintro ⟨c, t, rfl, hc, u, v, rfl, hu, ms, hms, rfl⟩
    refine ⟨c :: u, ms, ?_, hms, rfl⟩
    simp only [isSimpleName, Bool.and_eq_true, List.all_eq_true]
    exact ⟨hc, hu⟩
  · rintro ⟨n, ms, hn, hms, rfl⟩
    cases n with
    | nil => simp [isSimpleName] at hn
    | cons c u =>
        simp only [isSimpleName, Bool.and_eq_true, List.all_eq_true] at hn
        exact ⟨c, u ++ qualified ms, rfl, hn.1, u, qualified ms, rfl, hn.2, ms, hms, rfl⟩

theorem isNameChar_ne_colon (c : Char) (h : isNameChar c = true) : c ≠ ':' := by
  rintro rfl
  revert h
  decide

theorem isNameStart_nameChar (c : Char) (h : isNameStart c = true) : isNameChar c = true := by
  simp only [isNameStart, isNameChar, Bool.or_eq_true] at h ⊢
  rcases h with (h | h) | h
  · exact Or.inl (Or.inl (Or.inl h))
  · exact Or.inl (Or.inl (Or.inr h))
  · exact Or.inr h

theorem isNameStart_not_digit (c : Char) (h : isNameStart c = true) :
    isDecimalDigit c = false := by
  simp only [isNameStart, isDecimalDigit, inRange, Bool.or_eq_true, Bool.and_eq_true,
    decide_eq_true_eq, beq_iff_eq, Bool.and_eq_false_iff, decide_eq_false_iff_not] at h ⊢
  have ha : ('a' : Char).toNat = 97 := by decide
  have hA : ('A' : Char).toNat = 65 := by decide
  have h9 : ('9' : Char).toNat = 57 := by decide
  rcases h with (h | h) | h
  · right; omega
  · right; omega
  · subst h
    right
    decide

/-- A simple name is not empty, has no colon, and begins and ends with a character that is
not a colon. -/
theorem isSimpleName_chars (m : List Char) (h : isSimpleName m = true) :
    (∀ c ∈ m, c ≠ ':') ∧ (∃ b t, m = b :: t ∧ isNameStart b = true) ∧
      ∃ t a, m = t ++ [a] ∧ a ≠ ':' := by
  cases m with
  | nil => simp [isSimpleName] at h
  | cons b t =>
      simp only [isSimpleName, Bool.and_eq_true, List.all_eq_true] at h
      have hall : ∀ c ∈ b :: t, c ≠ ':' := by
        intro c hc
        rcases List.mem_cons.mp hc with rfl | hc
        · exact isNameChar_ne_colon _ (isNameStart_nameChar _ h.1)
        · exact isNameChar_ne_colon _ (h.2 c hc)
      refine ⟨hall, ⟨b, t, rfl, h.1⟩, ?_⟩
      refine ⟨(b :: t).dropLast, (b :: t).getLast (by simp), ?_, ?_⟩
      · exact (List.dropLast_append_getLast (by simp)).symm
      · exact hall _ (List.getLast_mem _)

theorem colonsPaired_qualified : ∀ (ms : List (List Char)),
    (∀ m ∈ ms, isSimpleName m = true) → ∀ w : List Char, (∀ c ∈ w, c ≠ ':') → w ≠ [] →
      colonsPaired (w ++ qualified ms)
  | [], _, w, hw, _ => by
      intro p q h
      exfalso
      have : ':' ∈ w := by
        have h1 : w = p ++ ':' :: q := by simpa [qualified] using h
        rw [h1]
        simp
      exact hw _ this rfl
  | m :: ms, hms, w, hw, hne => by
      intro p q h
      obtain ⟨hmc, ⟨b, mt, hmb, hb⟩, _⟩ := isSimpleName_chars m (hms m (List.mem_cons_self _ _))
      have hbc : b ≠ ':' := hmc b (by rw [hmb]; exact List.mem_cons_self _ _)
      have hq : qualified (m :: ms) = ':' :: ':' :: (m ++ qualified ms) := by
        simp [qualified]
      obtain ⟨t, a, hta⟩ : ∃ t a, w = t ++ [a] :=
        ⟨w.dropLast, w.getLast hne, (List.dropLast_append_getLast hne).symm⟩
      have hac : a ≠ ':' := hw a (by rw [hta]; simp)
      rw [hq] at h
      have first : ∀ q0, q0 = ':' :: (m ++ qualified ms) →
          ∃ p1 a1 b1 q1, w = p1 ++ [a1] ∧ a1 ≠ ':' ∧ q0 = ':' :: b1 :: q1 ∧ b1 ≠ ':' := by
        intro q0 hq0
        exact ⟨t, a, b, mt ++ qualified ms, hta, hac, by rw [hq0, hmb]; rfl, hbc⟩
      rcases List.append_eq_append_iff.mp h with ⟨a1, hp, hr⟩ | ⟨c1, hwp, hr⟩
      · cases a1 with
        | nil =>
            simp only [List.nil_append, List.cons.injEq, true_and] at hr
            left
            rw [hp, List.append_nil]
            exact first q hr.symm
        | cons x a2 =>
            cases a2 with
            | nil =>
                simp only [List.cons_append, List.nil_append, List.cons.injEq] at hr
                right
                refine ⟨t, a, b, mt ++ qualified ms, ?_, hac, ?_, hbc⟩
                · rw [hp, hta, ← hr.1]
                  simp
                · rw [← hr.2.2, hmb]
                  rfl
            | cons y a3 =>
                simp only [List.cons_append, List.cons.injEq] at hr
                obtain ⟨rfl, rfl, hr⟩ := hr
                have ih := colonsPaired_qualified ms
                  (fun x hx => hms x (List.mem_cons_of_mem _ hx)) m hmc
                  (by rw [hmb]; simp) a3 q hr
                rcases ih with ⟨p1, a1, b1, q1, h1, h2, h3, h4⟩ | ⟨p1, a1, b1, q1, h1, h2, h3, h4⟩
                · left
                  refine ⟨w ++ ':' :: ':' :: p1, a1, b1, q1, ?_, h2, h3, h4⟩
                  rw [hp, h1]
                  simp
                · right
                  refine ⟨w ++ ':' :: ':' :: p1, a1, b1, q1, ?_, h2, h3, h4⟩
                  rw [hp, h1]
                  simp
      · cases c1 with
        | nil =>
            simp only [List.nil_append, List.cons.injEq, true_and] at hr
            left
            rw [List.append_nil] at hwp
            rw [← hwp]
            exact first q hr
        | cons x c2 =>
            exfalso
            simp only [List.cons_append, List.cons.injEq] at hr
            have : ':' ∈ w := by
              rw [hwp, ← hr.1]
              simp
            exact hw _ this rfl

/-- C17: the `identifier` token matches exactly the non-empty sequences of simple names
joined by `::`, a simple name being a letter or underscore followed by letters, digits and
underscores (what `_nid` matches); every string matched by `_nid` is matched by
`identifier`; a matched identifier begins with a letter or underscore, never with a digit
or a colon, does not end with a colon, and each of its colons belongs to a pair `::`
standing between two characters other than a colon (no single colon, no empty segment).
So `a::::b`, `a::`, `::a` and `a:b` are rejected and `a::b::c` is one token. -/
theorem C17_identifier_shape :
    (∀ s : List Char, identifier.accepts s = true ↔
      ∃ (n : List Char) (ms : List (List Char)), _nid.accepts n = true ∧
        (∀ m ∈ ms, _nid.accepts m = true) ∧ s = n ++ qualified ms) ∧
    (∀ m : List Char, _nid.accepts m = true ↔
      ∃ c t, m = c :: t ∧ isNameStart c = true ∧ ∀ d ∈ t, isNameChar d = true) ∧
    (∀ s : List Char, _nid.accepts s = true → identifier.accepts s = true) ∧
    (∀ s : List Char, identifier.accepts s = true →
      (∃ c t, s = c :: t ∧ isNameStart c = true ∧ isDecimalDigit c = false ∧ c ≠ ':') ∧
      (∀ p, s ≠ p ++ [':']) ∧ colonsPaired s ∧ (∀ p q, s ≠ p ++ ':' :: ':' :: ':' :: q)) ∧
    (identifier.accepts "a::::b".toList = false ∧ identifier.accepts "a::".toList = false ∧
      identifier.accepts "::a".toList = false ∧ identifier.accepts "a:b".toList = false ∧
      identifier.accepts "1a".toList = false ∧ identifier.accepts "".toList = false) ∧
    (identifier.accepts "a::b::c".toList = true ∧
      "a::b::c".toList = "a".toList ++ qualified ["b".toList, "c".toList] ∧
      identifier.accepts "_x1".toList = true) := by
  refine ⟨?_, ?_, ?_, ?_, by decide, by decide⟩
  · intro s
    simp only [accepts_nid]
    exact accepts_identifier s
  · intro m
    rw [accepts_nid]
    cases m with
    | nil => simp [isSimpleName]
    | cons c t =>
        simp only [isSimpleName, Bool.and_eq_true, List.all_eq_true, List.cons.injEq]
        constructor
        · rintro ⟨hc, ht⟩
          exact ⟨c, t, ⟨rfl, rfl⟩, hc, ht⟩
        · rintro ⟨d, u, ⟨rfl, rfl⟩, hd, hu⟩
          exact ⟨hd, hu⟩
  · intro s hs
    rw [accepts_nid] at hs
    exact (accepts_identifier s).mpr ⟨s, [], hs, by simp, by simp [qualified]⟩
  · intro s hs
    obtain ⟨n, ms, hn, hms, rfl⟩ := (accepts_identifier s).mp hs
    obtain ⟨hnc, ⟨b, t, rfl, hb⟩, _⟩ := isSimpleName_chars n hn
    have hpair := colonsPaired_qualified ms hms (b :: t) hnc (by simp)
    refine ⟨⟨b, t ++ qualified ms, rfl, hb, isNameStart_not_digit b hb,
      hnc b (List.mem_cons_self _ _)⟩, ?_, hpair, ?_⟩
    · intro p hp
      rcases hpair p [] hp with ⟨_, _, _, _, _, _, h, _⟩ | ⟨_, _, _, _, _, _, h, _⟩ <;>
        simp at h
    · intro p q hp
      rcases hpair (p ++ [':']) (':' :: q) (by rw [hp]; simp) with
        ⟨p1, a, _, _, h1, h2, _, _⟩ | ⟨_, _, b1, _, _, _, h3, h4⟩
      · have := List.append_inj' h1 rfl
        simp only [List.cons.injEq, and_true] at this
        exact h2 this.2.symm
      · simp only [List.cons.injEq] at h3
        exact h4 h3.1.symm

/-! ### C15: comments -/

theorem blockTail_cons_false (c : Char) (t : List Char) :
    blockTail false (c :: t) = blockTail (c == '*') t := by
  simp [blockTail]

theorem blockTail_star (f : Bool) (t : List Char) :
    blockTail f ('*' :: t) = blockTail true t := by
  have h : (('*' : Char) == '/') = false := by decide
  simp [blockTail, h]

theorem blockTail_true_slash (t : List Char) : blockTail true ('/' :: t) = t.isEmpty := by
  simp [blockTail]

theorem blockTail_true_other (c : Char) (t : List Char) (h1 : c ≠ '/') (h2 : c ≠ '*') :
    blockTail true (c :: t) = blockTail false t := by
  have h3 : (c == '*') = false := by simp [h2]
  simp [blockTail, h1, h3]

theorem blockTail_notStar : ∀ (u : List Char), (∀ c ∈ u, isNotStar c = true) →
    ∀ y : List Char, blockTail false (u ++ y) = blockTail false y
  | [], _, y => rfl
  | c :: u, h, y => by
      have hc : c ≠ '*' := by
        have := h c (List.mem_cons_self _ _)
        simpa [isNotStar] using this
      rw [List.cons_append, blockTail_cons_false]
      have : (c == '*') = false := by simp [hc]
      rw [this]
      exact blockTail_notStar u (fun d hd => h d (List.mem_cons_of_mem _ hd)) y

theorem blockTail_stars : ∀ (st : List Char), (∀ c ∈ st, isStar c = true) →
    ∀ y : List Char, blockTail true (st ++ y) = blockTail true y
  | [], _, y => rfl
  | c :: st, h, y => by
      have hc : c = '*' := by
        have := h c (List.mem_cons_self _ _)
        simpa [isStar] using this
      subst hc
      rw [List.cons_append, blockTail_star]
      exact blockTail_stars st (fun d hd => h d (List.mem_cons_of_mem _ hd)) y

theorem blockTail_stars1 (st : List Char) (h : ∀ c ∈ st, isStar c = true) (hne : st ≠ [])
    (f : Bool) (y : List Char) : blockTail f (st ++ y) = blockTail true y := by
  cases st with
  | nil => exact absurd rfl hne
  | cons c st =>
      have hc : c = '*' := by
        have := h c (List.mem_cons_self _ _)
        simpa [isStar] using this
      subst hc
      rw [List.cons_append, blockTail_star]
      exact blockTail_stars st (fun d hd => h d (List.mem_cons_of_mem _ hd)) y

theorem Rx.matches_repeat1_cls (p : Char → Bool) (s : List Char) :
    (Rx.repeat1 (.cls p)).Matches s ↔ s ≠ [] ∧ ∀ c ∈ s, p c = true := by
  rw [Rx.repeat1, Rx.matches_seq_cls]
  simp only [Rx.matches_repeat_cls]
  constructor
  · rintro ⟨c, t, rfl, hc, ht⟩
    refine ⟨by simp, ?_⟩
    intro d hd
    rcases List.mem_cons.mp hd with rfl | hd
    · exact hc
    · exact ht d hd
  · rintro ⟨hne, h⟩
    cases s with
    | nil => exact absurd rfl hne
    | cons c t =>
        exact ⟨c, t, rfl, h c (List.mem_cons_self _ _),
          fun d hd => h d (List.mem_cons_of_mem _ hd)⟩

theorem matches_blockGroup (g : List Char) :
    blockGroup.Matches g ↔
      ∃ c u st, g = c :: (u ++ st) ∧ isNotSlashStar c = true ∧
        (∀ d ∈ u, isNotStar d = true) ∧ st ≠ [] ∧ ∀ d ∈ st, isStar d = true := by
  rw [blockGroup, Rx.matches_seq_cls]
  simp only [Rx.matches_seq, Rx.matches_repeat_cls, Rx.matches_repeat1_cls]
  constructor
  · rintro ⟨c, t, rfl, hc, u, st, rfl, hu, hne, hst⟩
    exact ⟨c, u, st, rfl, hc, hu, hne, hst⟩
  · rintro ⟨c, u, st, rfl, hc, hu, hne, hst⟩
    exact ⟨c, u ++ st, rfl, hc, u, st, rfl, hu, hne, hst⟩

theorem blockTail_group (g : List Char) (hg : blockGroup.Matches g) (y : List Char) :
    blockTail true (g ++ y) = blockTail true y := by
  obtain ⟨c, u, st, rfl, hc, hu, hne, hst⟩ := (matches_blockGroup g).mp hg
  have hc1 : c ≠ '/' ∧ c ≠ '*' := by
    simpa [isNotSlashStar] using hc
  rw [List.cons_append, blockTail_true_other c _ hc1.1 hc1.2, List.append_assoc,
    blockTail_notStar u hu, blockTail_stars1 st hst hne]

theorem blockTail_groups (y : List Char) (hy : (Rx.repeat_ blockGroup).Matches y)
    (z : List Char) : blockTail true (y ++ z) = blockTail true z := by
  obtain ⟨ps, rfl, hps⟩ := hy
  induction ps with
  | nil => rfl
  | cons p ps ih =>
      rw [List.flatten_cons, List.append_assoc,
        blockTail_group p (hps p (List.mem_cons_self _ _))]
      exact ih (fun q hq => hps q (List.mem_cons_of_mem _ hq))

theorem matches_groups_cons (g y : List Char) (hg : blockGroup.Matches g)
    (hy : (Rx.repeat_ blockGroup).Matches y) : (Rx.repeat_ blockGroup).Matches (g ++ y) := by
  obtain ⟨ps, rfl, hps⟩ := hy
  refine ⟨g :: ps, by simp, ?_⟩
  intro q hq
  rcases List.mem_cons.mp hq with rfl | hq
  · exact hg
  · exact hps q hq

/-- What `blockTail` recognises is generated by the pattern: after a character that is not
a star, `[^*]*\*+(group)*` and `/`; after a star, `\**(group)*` and `/`. -/
theorem blockTail_sound : ∀ (x : List Char),
    (blockTail false x = true →
      ∃ u st y, (∀ c ∈ u, isNotStar c = true) ∧ st ≠ [] ∧ (∀ c ∈ st, isStar c = true) ∧
        (Rx.repeat_ blockGroup).Matches y ∧ x = u ++ (st ++ (y ++ ['/']))) ∧
    (blockTail true x = true →
      ∃ st y, (∀ c ∈ st, isStar c = true) ∧ (Rx.repeat_ blockGroup).Matches y ∧
        x = st ++ (y ++ ['/']))
  | [] => by simp [blockTail]
  | c :: t => by
      obtain ⟨ihA, ihB⟩ := blockTail_sound t
      constructor
      · intro h
        rw [blockTail_cons_false] at h
        by_cases hc : c = '*'
        · subst hc
          obtain ⟨st, y, hst, hy, rfl⟩ := ihB (by simpa using h)
          refine ⟨[], '*' :: st, y, by simp, by simp, ?_, hy, rfl⟩
          intro d hd
          rcases List.mem_cons.mp hd with rfl | hd
          · rfl
          · exact hst d hd
        · have : (c == '*') = false := by simp [hc]
          rw [this] at h
          obtain ⟨u, st, y, hu, hne, hst, hy, rfl⟩ := ihA h
          refine ⟨c :: u, st, y, ?_, hne, hst, hy, rfl⟩
          intro d hd
          rcases List.mem_cons.mp hd with rfl | hd
          · simp [isNotStar, hc]
          · exact hu d hd
      · intro h
        by_cases hs : c = '/'
        · subst hs
          rw [blockTail_true_slash] at h
          have ht : t = [] := by simpa using h
          subst ht
          exact ⟨[], [], by simp, ⟨[], rfl, by simp⟩, rfl⟩
        · by_cases hc : c = '*'
          · subst hc
            rw [blockTail_star] at h
            obtain ⟨st, y, hst, hy, rfl⟩ := ihB h
            refine ⟨'*' :: st, y, ?_, hy, rfl⟩
            intro d hd
            rcases List.mem_cons.mp hd with rfl | hd
            · rfl
            · exact hst d hd
          · rw [blockTail_true_other c t hs hc] at h
            obtain ⟨u, st, y, hu, hne, hst, hy, rfl⟩ := ihA h
            refine ⟨[], (c :: (u ++ st)) ++ y, by simp, ?_, by simp⟩
            apply matches_groups_cons _ _ _ hy
            exact (matches_blockGroup _).mpr
              ⟨c, u, st, rfl, by simp [isNotSlashStar, hs, hc], hu, hne, hst⟩

/-- The pattern after `/*` accepts what `blockTail` recognises. -/
theorem matches_blockTail (x : List Char) :
    (Rx.seq blockBody (Rx.chr '/')).Matches x ↔ blockTail false x = true := by
  constructor
  · rintro ⟨b, v, rfl, hb, hv⟩
    rw [(Rx.matches_chr _ _).mp hv]
    rw [blockBody] at hb
    obtain ⟨u, w, rfl, hu, st, y, rfl, hst, hy⟩ := hb
    rw [Rx.matches_repeat_cls] at hu
    rw [Rx.matches_repeat1_cls] at hst
    rw [List.append_assoc, blockTail_notStar u hu, List.append_assoc,
      blockTail_stars1 st hst.2 hst.1, blockTail_groups y hy]
    rfl
  · intro h
    obtain ⟨u, st, y, hu, hne, hst, hy, rfl⟩ := (blockTail_sound x).1 h
    refine ⟨u ++ (st ++ y), ['/'], by simp, ?_, (Rx.matches_chr _ _).mpr rfl⟩
    exact ⟨u, st ++ y, rfl, (Rx.matches_repeat_cls _ _).mpr hu, st, y, rfl,
      (Rx.matches_repeat1_cls _ _).mpr ⟨hne, hst⟩, hy⟩

theorem accepts_blockComment (s : List Char) :
    blockComment.accepts s = true ↔ ∃ x, s = '/' :: '*' :: x ∧ blockTail false x = true := by
  rw [Rx.accepts_iff, blockComment, Rx.matches_seq]
  simp only [Rx.matches_word, matches_blockTail]
  constructor
  · rintro ⟨u, v, rfl, rfl, hv⟩
    exact ⟨v, rfl, hv⟩
  · rintro ⟨x, rfl, hx⟩
    exact ⟨"/*".toList, x, rfl, rfl, hx⟩

theorem accepts_lineComment (s : List Char) :
    lineComment.accepts s = true ↔ ∃ t, s = '/' :: '/' :: t ∧ ∀ c ∈ t, c ≠ '\n' := by
  rw [Rx.accepts_iff, lineComment, Rx.matches_seq]
  simp only [Rx.matches_word, Rx.matches_repeat_cls, isNotNewline, bne_iff_ne]
  constructor
  · rintro ⟨u, v, rfl, rfl, hv⟩
    exact ⟨v, rfl, hv⟩
  · rintro ⟨x, rfl, hx⟩
    exact ⟨"//".toList, x, rfl, rfl, hx⟩

/-- Dropping a first character that does not open an occurrence of `*/`. -/
theorem endsAtFirstClose_cons (a : Char) (y : List Char)
    (h : ¬ (a = '*' ∧ ∃ t, y = '/' :: t)) :
    endsAtFirstClose (a :: y) ↔ endsAtFirstClose y := by
  constructor
  · rintro ⟨⟨b, hb⟩, hocc⟩
    constructor
    · cases b with
      | nil =>
          simp only [List.nil_append, List.cons.injEq] at hb
          exact absurd ⟨hb.1, [], hb.2⟩ h
      | cons b0 b1 =>
          simp only [List.cons_append, List.cons.injEq] at hb
          exact ⟨b1, hb.2⟩
    · intro p q hy
      exact hocc (a :: p) q (by rw [hy]; rfl)
  · rintro ⟨⟨b, hb⟩, hocc⟩
    constructor
    · exact ⟨a :: b, by rw [hb]; rfl⟩
    · intro p q hy
      cases p with
      | nil =>
          simp only [List.nil_append, List.cons.injEq] at hy
          exact absurd ⟨hy.1, q, hy.2⟩ h
      | cons p0 p1 =>
          simp only [List.cons_append, List.cons.injEq] at hy
          exact hocc p1 q hy.2

theorem endsAtFirstClose_nil : ¬ endsAtFirstClose [] := by
  rintro ⟨⟨b, hb⟩, _⟩
  simp at hb

theorem endsAtFirstClose_star_slash (t : List Char) :
    endsAtFirstClose ('*' :: '/' :: t) ↔ t = [] := by
  constructor
  · rintro ⟨_, hocc⟩
    exact hocc [] t rfl
  · rintro rfl
    refine ⟨⟨[], rfl⟩, ?_⟩
    intro p q h
    have hl := congrArg List.length h
    simp only [List.length_cons, List.length_nil, List.length_append] at hl
    exact List.length_eq_zero.mp (by omega)

/-- What `blockTail` recognises: the strings whose first `*/` is at their end (after a star,
counting that star). -/
theorem blockTail_iff : ∀ (x : List Char),
    (blockTail false x = true ↔ endsAtFirstClose x) ∧
    (blockTail true x = true ↔ endsAtFirstClose ('*' :: x))
  | [] => by
      constructor
      · simp [blockTail, endsAtFirstClose_nil]
      · simp only [blockTail, Bool.false_eq_true, false_iff]
        rintro ⟨⟨b, hb⟩, _⟩
        have hl := congrArg List.length hb
        simp only [List.length_cons, List.length_nil, List.length_append] at hl
        omega
  | c :: t => by
      obtain ⟨ihA, ihB⟩ := blockTail_iff t
      constructor
      · rw [blockTail_cons_false]
        by_cases hc : c = '*'
        · subst hc
          simpa using ihB
        · have : (c == '*') = false := by simp [hc]
          rw [this, ihA]
          exact (endsAtFirstClose_cons c t (fun h => hc h.1)).symm
      · by_cases hs : c = '/'
        · subst hs
          rw [blockTail_true_slash, endsAtFirstClose_star_slash]
          simp
        · by_cases hc : c = '*'
          · subst hc
            rw [blockTail_star, ihB]
            refine (endsAtFirstClose_cons '*' ('*' :: t) ?_).symm
            rintro ⟨_, t1, h⟩
            simp at h
          · rw [blockTail_true_other c t hs hc, ihA]
            rw [endsAtFirstClose_cons '*' (c :: t), endsAtFirstClose_cons c t]
            · exact fun h => hc h.1
            · rintro ⟨_, t1, h⟩
              simp only [List.cons.injEq] at h
              exact hs h.1

/-- C15: a string is matched by the block-comment alternative of `comment` iff it is `/*`
followed by a string that ends with `*/` and has no other occurrence of `*/` (block
comments do not nest and end at the first `*/`); it is matched by the line-comment
alternative iff it is `//` followed by characters none of which is a line feed.  So `/*/`
and `/* a */ b */` are not comments, `/***/` and `/* /* */` are. -/
theorem C15_comment_shape :
    (∀ s : List Char, blockComment.accepts s = true ↔
      ∃ b, s = '/' :: '*' :: (b ++ ['*', '/']) ∧
        ∀ p q, b ++ ['*', '/'] = p ++ '*' :: '/' :: q → q = []) ∧
    (∀ s : List Char, lineComment.accepts s = true ↔
      ∃ t, s = '/' :: '/' :: t ∧ ∀ c ∈ t, c ≠ '\n') ∧
    (∀ s : List Char, comment.accepts s = (lineComment.accepts s || blockComment.accepts s)) ∧
    (∀ s : List Char, ¬ (lineComment.accepts s = true ∧ blockComment.accepts s = true)) ∧
    (comment.accepts "/*/".toList = false ∧ comment.accepts "/* a */ b */".toList = false ∧
      comment.accepts "/*".toList = false ∧ comment.accepts "//a\nb".toList = false) ∧
    (comment.accepts "/***/".toList = true ∧ comment.accepts "/* /* */".toList = true ∧
      comment.accepts "/**/".toList = true ∧ comment.accepts "/* a */".toList = true ∧
      comment.accepts "// a */".toList = true ∧ comment.accepts "//".toList = true) := by
  refine ⟨?_, accepts_lineComment, ?_, ?_, by decide, by decide⟩
  · intro s
    rw [accepts_blockComment]
    constructor
    · rintro ⟨x, rfl, hx⟩
      obtain ⟨⟨b, hb⟩, hocc⟩ := (blockTail_iff x).1.mp hx
      refine ⟨b, by rw [hb], ?_⟩
      intro p q h
      exact hocc p q (by rw [hb]; exact h)
    · rintro ⟨b, rfl, hocc⟩
      exact ⟨_, rfl, (blockTail_iff _).1.mpr ⟨⟨b, rfl⟩, hocc⟩⟩
  · intro s
    rw [Bool.eq_iff_iff, Bool.or_eq_true, Rx.accepts_iff, Rx.accepts_iff, Rx.accepts_iff,
      comment, Rx.matches_choice]
  · rintro s ⟨h1, h2⟩
    obtain ⟨t, rfl, _⟩ := (accepts_lineComment s).mp h1
    obtain ⟨x, hx, _⟩ := (accepts_blockComment _).mp h2
    simp at hx

/-! ### C20: string literals and extras -/

theorem accepts_string_content (s : List Char) :
    string_content.accepts s = true ↔
      s ≠ [] ∧ ∀ c ∈ s, c ≠ '\\' ∧ c ≠ dquote ∧ c ≠ '\n' := by
  rw [Rx.accepts_iff, string_content, Rx.matches_repeat1_cls]
  simp [isStringChar, and_assoc]

/-- C20, divergence: a string literal can be broken across lines without a backslash.  The
characters `"a`, line feed, `"` are accepted by `string_literal`, and so is the literal
whose only inner character is a line feed, although a `string_content` run holds no
backslash, no double quote and no line feed, and the line feed alone is no
`escape_sequence`: the line feed is an extra, and extras may stand before the closing
quote and before an escape, which are not `token.immediate`.  A comment skipped in the
same way brings a raw double quote and a raw backslash inside the literal.  Only text after
the line break that would have to be a `string_content` is rejected. -/
theorem C20_raw_newline_accepted :
    string_literal.accepts [dquote, 'a', '\n', dquote] = true ∧
    string_literal.accepts [dquote, '\n', dquote] = true ∧
    string_literal.accepts [dquote, 'a', '\n', '\\', 'n', dquote] = true ∧
    string_literal.accepts
      ([dquote, 'a', '\n', '/', '/', ' ', dquote, '\\', '\n', dquote]) = true ∧
    (∀ s : List Char, string_content.accepts s = true ↔
      s ≠ [] ∧ ∀ c ∈ s, c ≠ '\\' ∧ c ≠ dquote ∧ c ≠ '\n') ∧
    string_content.accepts ['\n'] = false ∧
    escape_sequence.accepts ['\n'] = false ∧
    extras.accepts ['\n'] = true ∧
    extras.accepts ['/', '/', ' ', dquote, '\\'] = true ∧
    string_literal.accepts [dquote, 'a', '\n', 'b', dquote] = false ∧
    string_literal.accepts [dquote, 'a', '\\', '\n', 'b', dquote] = true ∧
    string_literal.accepts [dquote, 'a', 'b', dquote] = true := by
  refine ⟨by decide, by decide, by decide, by decide, accepts_string_content, by decide,
    by decide, by decide, by decide, by decide, by decide, by decide⟩

/-! ### C16: annotations -/

theorem quote_ne_minus : (String.singleton dquote = "-") = False :=
  eq_false (by decide)

theorem minus_ne_quote : ("-" = String.singleton dquote) = False :=
  eq_false (by decide)

theorem StringPart.tok_ne_quote (p : StringPart) : p.tok ≠ quoteTok := by
  cases p <;> simp [StringPart.tok, quoteTok]

theorem StringPart.tok_inj (p q : StringPart) (h : p.tok = q.tok) : p = q := by
  cases p <;> cases q <;> simp_all [StringPart.tok]

theorem StringPart.parts_inj : ∀ (ps qs : List StringPart) (r r' : List Tok),
    ps.map StringPart.tok ++ quoteTok :: r = qs.map StringPart.tok ++ quoteTok :: r' →
      ps = qs ∧ r = r'
  | [], [], r, r', h => by simpa using h
  | [], q :: qs, r, r', h => by
      simp only [List.map_nil, List.nil_append, List.map_cons, List.cons_append,
        List.cons.injEq] at h
      exact absurd h.1.symm (StringPart.tok_ne_quote q)
  | p :: ps, [], r, r', h => by
      simp only [List.map_nil, List.nil_append, List.map_cons, List.cons_append,
        List.cons.injEq] at h
      exact absurd h.1 (StringPart.tok_ne_quote p)
  | p :: ps, q :: qs, r, r', h => by
      simp only [List.map_cons, List.cons_append, List.cons.injEq] at h
      obtain ⟨h1, h2⟩ := StringPart.parts_inj ps qs r r' h.2
      exact ⟨by rw [StringPart.tok_inj p q h.1, h1], h2⟩

theorem stringLiteral_yield_inj (s s' : StringLiteral) (r r' : List Tok)
    (h : s.yield ++ r = s'.yield ++ r') : s = s' ∧ r = r' := by
  cases s with
  | mk ps =>
    cases s' with
    | mk qs =>
      simp only [StringLiteral.yield, List.cons_append, List.append_assoc, List.cons.injEq,
        true_and, List.nil_append] at h
      obtain ⟨h1, h2⟩ := StringPart.parts_inj ps qs r r' h
      exact ⟨by rw [h1], h2⟩

theorem stringLiteral_yield_head (s : StringLiteral) :
    ∃ u, s.yield = quoteTok :: u := ⟨_, rfl⟩

theorem annotLabel_yield_inj (l l' : AnnotLabel) (r r' : List Tok)
    (h : l.yield ++ r = l'.yield ++ r') : l = l' ∧ r = r' := by
  cases l <;> cases l' <;>
    simp only [AnnotLabel.yield, StringLiteral.yield, quoteTok, List.cons_append,
      List.nil_append, List.cons.injEq, Tok.identifier.injEq, Tok.keyword.injEq,
      reduceCtorEq, false_and] at h
  · exact ⟨by rw [h.1], h.2⟩
  · exact ⟨by rw [h.1], h.2⟩
  · rename_i s s'
    have := stringLiteral_yield_inj s s' r r'
      (by simp only [StringLiteral.yield, List.cons_append, List.cons.injEq, true_and]
          exact h.2)
    exact ⟨by rw [this.1], this.2⟩

theorem annotLabel_yield_head (l : AnnotLabel) :
    ∃ t u, l.yield = t :: u ∧ t.startsLabel = true := by
  cases l with
  | identifier x => exact ⟨_, _, rfl, rfl⟩
  | keyword k => exact ⟨_, _, rfl, rfl⟩
  | string_literal s => exact ⟨quoteTok, _, rfl, by decide⟩

theorem aint_yield_inj (i i' : Aint) (r r' : List Tok)
    (h : i.yield ++ r = i'.yield ++ r') : i = i' ∧ r = r' := by
  cases i <;> cases i' <;>
    simp only [Aint.yield, List.cons_append, List.nil_append, List.cons.injEq,
      Tok.int_literal.injEq, reduceCtorEq, false_and, true_and] at h
  · exact ⟨by rw [h.1], h.2⟩
  · exact ⟨by rw [h.1], h.2⟩

theorem simpleAttribute_yield_inj (a a' : SimpleAttribute) (r r' : List Tok)
    (h : a.yield ++ r = a'.yield ++ r') : a = a' ∧ r = r' := by
  cases a with
  | aint i =>
    cases a' with
    | aint i' =>
      obtain ⟨h1, h2⟩ := aint_yield_inj i i' r r' h
      exact ⟨by rw [h1], h2⟩
    | nid x => cases i <;> simp [SimpleAttribute.yield, Aint.yield] at h
    | string_literal s =>
      cases i <;>
        simp [SimpleAttribute.yield, Aint.yield, StringLiteral.yield, quoteTok, quote_ne_minus,
          minus_ne_quote] at h
    | keyword k => cases i <;> simp [SimpleAttribute.yield, Aint.yield] at h
    | type t => cases i <;> simp [SimpleAttribute.yield, Aint.yield] at h
  | nid x =>
    cases a' with
    | aint i => cases i <;> simp [SimpleAttribute.yield, Aint.yield] at h
    | nid y =>
      simp only [SimpleAttribute.yield, List.cons_append, List.nil_append, List.cons.injEq,
        Tok.nid.injEq] at h
      exact ⟨by rw [h.1], h.2⟩
    | string_literal s => simp [SimpleAttribute.yield, StringLiteral.yield, quoteTok] at h
    | keyword k => simp [SimpleAttribute.yield] at h
    | type t => simp [SimpleAttribute.yield] at h
  | string_literal s =>
    cases a' with
    | aint i =>
      cases i <;>
        simp [SimpleAttribute.yield, Aint.yield, StringLiteral.yield, quoteTok, quote_ne_minus,
          minus_ne_quote] at h
    | nid y => simp [SimpleAttribute.yield, StringLiteral.yield, quoteTok] at h
    | string_literal s' =>
      obtain ⟨h1, h2⟩ := stringLiteral_yield_inj s s' r r' h
      exact ⟨by rw [h1], h2⟩
    | keyword k => simp [SimpleAttribute.yield, StringLiteral.yield, quoteTok] at h
    | type t => simp [SimpleAttribute.yield, StringLiteral.yield, quoteTok] at h
  | keyword k =>
    cases a' with
    | aint i => cases i <;> simp [SimpleAttribute.yield, Aint.yield] at h
    | nid y => simp [SimpleAttribute.yield] at h
    | string_literal s => simp [SimpleAttribute.yield, StringLiteral.yield, quoteTok] at h
    | keyword k' =>
      simp only [SimpleAttribute.yield, List.cons_append, List.nil_append, List.cons.injEq,
        Tok.keyword.injEq] at h
      exact ⟨by rw [h.1], h.2⟩
    | type t => simp [SimpleAttribute.yield] at h
  | type t =>
    cases a' with
    | aint i => cases i <;> simp [SimpleAttribute.yield, Aint.yield] at h
    | nid y => simp [SimpleAttribute.yield] at h
    | string_literal s => simp [SimpleAttribute.yield, StringLiteral.yield, quoteTok] at h
    | keyword k => simp [SimpleAttribute.yield] at h
    | type t' =>
      simp only [SimpleAttribute.yield, List.cons_append, List.nil_append, List.cons.injEq,
        Tok.utype.injEq] at h
      exact ⟨by rw [h.1], h.2⟩

theorem simpleAttribute_yield_ne_brace (a : SimpleAttribute) (r u : List Tok) :
    a.yield ++ r ≠ Tok.lit "\x7b" :: u := by
  cases a with
  | aint i => cases i <;> simp [SimpleAttribute.yield, Aint.yield]
  | nid x => simp [SimpleAttribute.yield]
  | string_literal s =>
    simp only [SimpleAttribute.yield, StringLiteral.yield, quoteTok, List.cons_append, ne_eq,
      List.cons.injEq, Tok.lit.injEq, not_and]
    intro h
    exact absurd h (by decide)
  | keyword k => simp [SimpleAttribute.yield]
  | type t => simp [SimpleAttribute.yield]

theorem annot_yield_head (a : Annot) :
    ∃ t u, a.yield = t :: u ∧ t.startsLabel = true := by
  cases a with
  | mk l v =>
    obtain ⟨t, u, h, ht⟩ := annotLabel_yield_head l
    exact ⟨t, u ++ v.yield, by simp [Annot.yield, h], ht⟩

theorem closes_noEq (r : List Tok) (h : closes r) : noEq r := by
  obtain ⟨r0, h | h⟩ := h <;> subst h <;> intro u hu <;> simp at hu

theorem closes_not_label (r : List Tok) (h : closes r) (t : Tok) (u : List Tok)
    (ht : t.startsLabel = true) : r ≠ t :: u := by
  obtain ⟨r0, h | h⟩ := h <;> subst h <;> intro hu <;>
    simp only [List.cons.injEq] at hu <;> rw [← hu.1] at ht <;> exact absurd ht (by decide)

theorem closes_not_comma (r : List Tok) (h : closes r) (u : List Tok) :
    r ≠ Tok.lit "," :: u := by
  obtain ⟨r0, h | h⟩ := h <;> subst h <;> simp

theorem annotRest_yield_noEq (rest : AnnotRest) (r : List Tok) (h : closes r) :
    noEq (rest.yield ++ r) := by
  cases rest with
  | nil => simpa [AnnotRest.yield] using closes_noEq r h
  | cons a rest => intro u hu; simp [AnnotRest.yield] at hu

mutual
theorem annot_yield_inj : ∀ (a a' : Annot) (r r' : List Tok), noEq r → noEq r' →
    a.yield ++ r = a'.yield ++ r' → a = a' ∧ r = r'
  | .mk l v, .mk l' v', r, r', hr, hr', h => by
      simp only [Annot.yield, List.append_assoc] at h
      obtain ⟨h1, h2⟩ := annotLabel_yield_inj l l' _ _ h
      obtain ⟨h3, h4⟩ := attr_yield_inj v v' r r' hr hr' h2
      exact ⟨by rw [h1, h3], h4⟩
theorem attr_yield_inj : ∀ (v v' : Attr) (r r' : List Tok), noEq r → noEq r' →
    v.yield ++ r = v'.yield ++ r' → v = v' ∧ r = r'
  | .none, .none, r, r', _, _, h => ⟨rfl, by simpa [Attr.yield] using h⟩
  | .none, .simple a, r, r', hr, _, h => absurd (by simpa [Attr.yield] using h) (hr _)
  | .none, .nested l, r, r', hr, _, h => absurd (by simpa [Attr.yield] using h) (hr _)
  | .simple a, .none, r, r', _, hr', h => absurd (by simpa [Attr.yield] using h.symm) (hr' _)
  | .nested l, .none, r, r', _, hr', h => absurd (by simpa [Attr.yield] using h.symm) (hr' _)
  | .simple a, .simple a', r, r', _, _, h => by
      simp only [Attr.yield, List.cons_append, List.cons.injEq, true_and] at h
      obtain ⟨h1, h2⟩ := simpleAttribute_yield_inj a a' r r' h
      exact ⟨by rw [h1], h2⟩
  | .simple a, .nested l, r, r', _, _, h => by
      simp only [Attr.yield, List.cons_append, List.cons.injEq, true_and] at h
      exact absurd h (simpleAttribute_yield_ne_brace a r _)
  | .nested l, .simple a, r, r', _, _, h => by
      simp only [Attr.yield, List.cons_append, List.cons.injEq, true_and] at h
      exact absurd h.symm (simpleAttribute_yield_ne_brace a r' _)
  | .nested l, .nested l', r, r', _, _, h => by
      simp only [Attr.yield, List.cons_append, List.cons.injEq, true_and, List.append_assoc,
        List.nil_append] at h
      obtain ⟨h1, h2⟩ := annotList_yield_inj l l' _ _ ⟨r, Or.inl rfl⟩ ⟨r', Or.inl rfl⟩ h
      simp only [List.cons.injEq, true_and] at h2
      exact ⟨by rw [h1], h2⟩
theorem annotList_yield_inj : ∀ (l l' : AnnotList) (r r' : List Tok), closes r → closes r' →
    l.yield ++ r = l'.yield ++ r' → l = l' ∧ r = r'
  | .none, .none, r, r', _, _, h => ⟨rfl, by simpa [AnnotList.yield] using h⟩
  | .none, .some a rest, r, r', hr, _, h => by
      obtain ⟨t, u, hu, ht⟩ := annot_yield_head a
      simp only [AnnotList.yield, List.nil_append, hu, List.cons_append] at h
      exact absurd h (closes_not_label r hr t _ ht)
  | .some a rest, .none, r, r', _, hr', h => by
      obtain ⟨t, u, hu, ht⟩ := annot_yield_head a
      simp only [AnnotList.yield, List.nil_append, hu, List.cons_append] at h
      exact absurd h.symm (closes_not_label r' hr' t _ ht)
  | .some a rest, .some a' rest', r, r', hr, hr', h => by
      simp only [AnnotList.yield, List.append_assoc] at h
      obtain ⟨h1, h2⟩ := annot_yield_inj a a' _ _ (annotRest_yield_noEq rest r hr)
        (annotRest_yield_noEq rest' r' hr') h
      obtain ⟨h3, h4⟩ := annotRest_yield_inj rest rest' r r' hr hr' h2
      exact ⟨by rw [h1, h3], h4⟩
theorem annotRest_yield_inj : ∀ (l l' : AnnotRest) (r r' : List Tok), closes r → closes r' →
    l.yield ++ r = l'.yield ++ r' → l = l' ∧ r = r'
  | .nil, .nil, r, r', _, _, h => ⟨rfl, by simpa [AnnotRest.yield] using h⟩
  | .nil, .cons a rest, r, r', hr, _, h => by
      simp only [AnnotRest.yield, List.nil_append, List.cons_append] at h
      exact absurd h (closes_not_comma r hr _)
  | .cons a rest, .nil, r, r', _, hr', h => by
      simp only [AnnotRest.yield, List.nil_append, List.cons_append] at h
      exact absurd h.symm (closes_not_comma r' hr' _)
  | .cons a rest, .cons a' rest', r, r', hr, hr', h => by
      simp only [AnnotRest.yield, List.cons_append, List.cons.injEq, true_and,
        List.append_assoc] at h
      obtain ⟨h1, h2⟩ := annot_yield_inj a a' _ _ (annotRest_yield_noEq rest r hr)
        (annotRest_yield_noEq rest' r' hr') h
      obtain ⟨h3, h4⟩ := annotRest_yield_inj rest rest' r r' hr hr' h2
      exact ⟨by rw [h1, h3], h4⟩
end

theorem noEq_nil : noEq [] := fun _ h => by simp at h

/-- The annotations grammar is unambiguous on tokens: a token sequence is the yield of at
most one `annotations` tree. -/
theorem annotations_yield_inj (t t' : Annotations) (h : t.yield = t'.yield) : t = t' := by
  cases t with
  | single a =>
    cases t' with
    | single a' =>
      simp only [Annotations.yield, List.cons.injEq, true_and] at h
      have := annot_yield_inj a a' [] [] noEq_nil noEq_nil (by simpa using h)
      rw [this.1]
    | list l =>
      obtain ⟨t, u, hu, ht⟩ := annot_yield_head a
      simp only [Annotations.yield, List.cons.injEq, true_and, hu] at h
      rw [h.1] at ht
      exact absurd ht (by decide)
  | list l =>
    cases t' with
    | single a' =>
      obtain ⟨t, u, hu, ht⟩ := annot_yield_head a'
      simp only [Annotations.yield, List.cons.injEq, true_and, hu] at h
      rw [← h.1] at ht
      exact absurd ht (by decide)
    | list l' =>
      simp only [Annotations.yield, List.cons.injEq, true_and] at h
      have := annotList_yield_inj l l' _ _ ⟨[], Or.inr rfl⟩ ⟨[], Or.inr rfl⟩ h
      rw [this.1]

theorem nestAnnot_depth : ∀ n, (nestAnnot n).depth = n
  | 0 => rfl
  | n + 1 => by
      simp [nestAnnot, Annot.depth, Attr.depth, AnnotList.depth, AnnotRest.depth,
        nestAnnot_depth n]

theorem nestAnnot_yield : ∀ n, (nestAnnot n).yield =
    (List.replicate n [Tok.identifier "a", .lit "=", .lit "\x7b"]).flatten ++
      .identifier "a" :: List.replicate n (Tok.lit "\x7d")
  | 0 => rfl
  | n + 1 => by
      simp only [nestAnnot, Annot.yield, AnnotLabel.yield, Attr.yield, AnnotList.yield,
        AnnotRest.yield, nestAnnot_yield n, List.replicate_succ, List.flatten_cons,
        List.append_nil, List.cons_append, List.nil_append, List.append_assoc,
        List.cons.injEq, true_and, List.append_cancel_left_eq]
      rw [← List.replicate_succ, List.replicate_succ']

/-- C16: annotation nesting is unbounded.  For every `n` the tokens `# a = { a = { ... } }`
with `n` opening and `n` closing braces are the yield of an `annotations` tree, of nesting
depth `n`, and of no other tree, so no depth bounds the trees of the rule.  The tokens of
`#[a, b={c, d=1}]` are the yield of exactly one `annotations` tree: its list holds two
annotations, `a` without attribute and `b`, whose attribute is a nested list of two
annotations, `c` without attribute and `d` with the simple attribute `1`. -/
theorem C16_annotation_nesting :
    (∀ n : Nat, ∃ t : Annotations, t.yield = nestToks n ∧ t.depth = n ∧
      ∀ u : Annotations, u.yield = nestToks n → u = t) ∧
    (∀ n : Nat, (Annotations.single (nestAnnot n)).yield = nestToks n ∧
      (Annotations.single (nestAnnot n)).depth = n) ∧
    (∀ d : Nat, ∃ t : Annotations, d < t.depth) ∧
    (∀ t u : Annotations, t.yield = u.yield → t = u) ∧
    nestedExample.yield = nestedExampleToks ∧
    (∀ t : Annotations, t.yield = nestedExampleToks → t = nestedExample) ∧
    nestedExample.toList = [Annot.mk (.identifier "a") .none, annotB] ∧
    (∃ l : AnnotList, annotB = Annot.mk (.identifier "b") (.nested l) ∧
      l.toList = [Annot.mk (.identifier "c") .none,
        Annot.mk (.identifier "d") (.simple (.aint (.pos "1")))]) ∧
    nestedExample.depth = 1 ∧
    identifier.accepts ['a'] = true ∧ identifier.accepts ['b'] = true ∧
    identifier.accepts ['c'] = true ∧ identifier.accepts ['d'] = true ∧
    int_literal.accepts ['1'] = true := by
  have hy : ∀ n : Nat, (Annotations.single (nestAnnot n)).yield = nestToks n := by
    intro n
    simp only [Annotations.yield, nestAnnot_yield, nestToks]
  have hd : ∀ n : Nat, (Annotations.single (nestAnnot n)).depth = n := by
    intro n
    simp only [Annotations.depth, nestAnnot_depth]
  have he : nestedExample.yield = nestedExampleToks := by decide
  refine ⟨fun n => ⟨_, hy n, hd n, fun u hu => annotations_yield_inj _ _ (hu.trans (hy n).symm)⟩,
    fun n => ⟨hy n, hd n⟩, fun d => ⟨Annotations.single (nestAnnot (d + 1)), ?_⟩,
    annotations_yield_inj, he,
    fun t ht => annotations_yield_inj _ _ (ht.trans he.symm), rfl, ⟨_, rfl, rfl⟩, by decide,
    by decide, by decide, by decide, by decide, by decide⟩
  rw [hd]
  exact Nat.lt_succ_self d

end Jasmin
